import Mathlib

/-!
Verification of the micrograd scalar autograd engine (`micrograd/engine.py`)
and its graph-to-flat-procedure compiler (`micrograd/compile.py`).

Embedding conventions:
* Python node objects form a DAG in which every operand of a node was
  constructed before the node itself.  We embed the heap as an arena: a node
  is a natural-number index into a list of operator descriptions `ops`, and
  well-formedness (`wfOps`) states that every operand index is strictly
  smaller than the index of its node — exactly the invariant Python object
  construction enforces.  Acyclicity is therefore structural.
* Python floats are modelled as exact rationals `ℚ`; the constant exponent
  of `Pow` is modelled as an integer, interpreted by `zq` (zpow).
* Mutable per-node fields (`data`, `grad`, `_k`) become a state record `St`
  of total functions from node indices.
* Node subclasses outside the closed set {Value, Add, Mul, Pow, ReLU} (the
  Python code can meet such foreign subclasses, and `compile.py` raises
  `TypeError` on them) are represented by the extra constructor
  `Op.unknown`.  The interpreted engine's behaviour on a foreign subclass is
  user-defined and is not modelled: engine-level theorems carry a
  `Graph.Closed` hypothesis, and the inert equations given to `unknown`
  (and to out-of-arena indices) are never relied upon there.
* Recursive traversals are defined with an explicit fuel argument (the
  arena index itself bounds the recursion depth), keeping every definition
  executable; fuel-irrelevance lemmas recover the source's recurrences.
-/

namespace Micrograd

/-- Operator description of one node of the computation graph, mirroring the
`Node` subclasses of `engine.py`.  `leaf` is `Value`; `add`, `mul`, `pow`,
`relu` store the arena indices of their operands; `pow` additionally stores
the constant exponent (`Pow._rhs`, a construction-time constant, not a
node).  `unknown` stands for a node of a foreign `Node` subclass. -/
inductive Op where
  | leaf : Op
  | add (lhs rhs : Nat) : Op
  | mul (lhs rhs : Nat) : Op
  | pow (lhs : Nat) (e : ℤ) : Op
  | relu (arg : Nat) : Op
  | unknown : Op
deriving DecidableEq, Repr

/-- Operand indices of a node (the `children()` method of `engine.py`). -/
def Op.operands : Op → List Nat
  | .leaf => []
  | .add l r => [l, r]
  | .mul l r => [l, r]
  | .pow l _ => [l]
  | .relu a => [a]
  | .unknown => []

/-- Check that every node's operands have strictly smaller indices, starting
the count at `n`.  This is the invariant Python object construction gives:
operands exist before the node referring to them is built. -/
def wfFrom : Nat → List Op → Bool
  | _, [] => true
  | n, op :: rest => op.operands.all (fun j => decide (j < n)) && wfFrom (n + 1) rest

/-- Well-formedness of an arena of nodes. -/
def wfOps (ops : List Op) : Bool := wfFrom 0 ops

/-- A computation graph: an arena of nodes whose operand indices always
point strictly downwards. -/
structure Graph where
  ops : List Op
  wf : wfOps ops = true

/-- Operator stored at index `i`, if the index is inside the arena. -/
def Graph.at? (g : Graph) (i : Nat) : Option Op := g.ops[i]?

/-- A graph is closed when every node belongs to the closed operator set
{Value, Add, Mul, Pow, ReLU} of `engine.py`. -/
def Graph.Closed (g : Graph) : Prop := ∀ op ∈ g.ops, op ≠ Op.unknown

instance (g : Graph) : Decidable g.Closed := by
  unfold Graph.Closed; infer_instance

/-- Mutable per-node state: the `data`, `grad` and `_k` fields of `Node`. -/
structure St where
  data : Nat → ℚ
  grad : Nat → ℚ
  ver : Nat → ℕ

/-- Pointwise update of a function at one index. -/
def upd {α : Type} (f : Nat → α) (i : Nat) (x : α) : Nat → α :=
  fun j => if j = i then x else f j

theorem upd_same {α : Type} (f : Nat → α) (i : Nat) (x : α) : upd f i x i = x := by
  simp [upd]

theorem upd_ne {α : Type} (f : Nat → α) (i : Nat) (x : α) {j : Nat} (h : j ≠ i) :
    upd f i x j = f j := by
  simp [upd, h]

@[simp]
theorem St.mk_data (d gr : Nat → ℚ) (v : Nat → ℕ) : (St.mk d gr v).data = d := rfl

@[simp]
theorem St.mk_grad (d gr : Nat → ℚ) (v : Nat → ℕ) : (St.mk d gr v).grad = gr := rfl

@[simp]
theorem St.mk_ver (d gr : Nat → ℚ) (v : Nat → ℕ) : (St.mk d gr v).ver = v := rfl

/-- Integer power on rationals, modelling Python `**` with the constant
(integer-valued) exponents used by `Pow`. -/
def zq (q : ℚ) (e : ℤ) : ℚ := q ^ e

/-- Extraction form of the well-formedness check. -/
theorem wfFrom_lt {l : List Op} : ∀ {n k op}, wfFrom n l = true → l[k]? = some op →
    ∀ j ∈ op.operands, j < n + k := by
  induction l with
  | nil => intro n k op _ h; simp at h
  | cons hd tl ih =>
    intro n k op hwf hget j hj
    rw [wfFrom, Bool.and_eq_true] at hwf
    cases k with
    | zero =>
      simp at hget
      subst hget
      have := List.all_eq_true.mp hwf.1 j hj
      simpa using this
    | succ m =>
      simp only [List.getElem?_cons_succ] at hget
      have := ih hwf.2 hget j hj
      omega

/-- Operands of an in-arena node point strictly downwards. -/
theorem Graph.operand_lt (g : Graph) {i : Nat} {op : Op} (h : g.at? i = some op)
    {j : Nat} (hj : j ∈ op.operands) : j < i := by
  have := @wfFrom_lt g.ops _ _ _ g.wf h j hj
  simpa using this

/-- Operands of an in-arena node are themselves in the arena. -/
theorem Graph.operand_lt_length (g : Graph) {i : Nat} {op : Op} (h : g.at? i = some op)
    (hi : i < g.ops.length) {j : Nat} (hj : j ∈ op.operands) : j < g.ops.length :=
  lt_trans (g.operand_lt h hj) hi

/-- Nodes inside a closed graph are never `unknown`. -/
theorem Graph.Closed.at_ne (g : Graph) (hc : g.Closed) {i : Nat} {op : Op}
    (h : g.at? i = some op) : op ≠ Op.unknown := by
  apply hc
  exact List.getElem?_mem h

/-- Operand indices of the node stored at `i` (empty outside the arena). -/
def Graph.operandsOf (g : Graph) (i : Nat) : List Nat :=
  ((g.at? i).getD Op.leaf).operands

theorem Graph.operandsOf_eq (g : Graph) {i : Nat} {op : Op} (h : g.at? i = some op) :
    g.operandsOf i = op.operands := by
  simp [Graph.operandsOf, h]

theorem Graph.operandsOf_mem (g : Graph) {i c : Nat} (h : c ∈ g.operandsOf i) :
    ∃ op, g.at? i = some op ∧ c ∈ op.operands := by
  unfold Graph.operandsOf at h
  cases hop : g.at? i with
  | none => rw [hop] at h; simp [Op.operands] at h
  | some op => rw [hop] at h; exact ⟨op, rfl, h⟩

theorem Graph.operandsOf_lt (g : Graph) {i c : Nat} (h : c ∈ g.operandsOf i) : c < i := by
  obtain ⟨op, hop, hc⟩ := g.operandsOf_mem h
  exact g.operand_lt hop hc

/-! ### The interpreted engine: eager construction, refresh, topo, backward -/

/-- Eager forward evaluation of one operator over current operand values,
as performed by the `__init__` of each composite `Node` subclass
(`engine.py` lines 122-126, 159-163, 198-202, 233-237). -/
def Op.forwardOf (d : Nat → ℚ) : Op → ℚ
  | .leaf => 0
  | .add l r => d l + d r
  | .mul l r => d l * d r
  | .pow l e => zq (d l) e
  | .relu a => if d a < 0 then 0 else d a
  | .unknown => 0

/-- Construction of a composite node: the new node is appended at index
`ops.length`; its `data` is eagerly computed from the operands' current
`data`, its `grad` starts at `0.0` and its version marker at `0`
(`Node.__init__` plus the subclass `__init__`s). -/
def push (ops : List Op) (s : St) (op : Op) : List Op × St :=
  (ops ++ [op],
   { data := upd s.data ops.length (op.forwardOf s.data)
   , grad := upd s.grad ops.length 0
   , ver := upd s.ver ops.length 0 })

/-- Construction of a `Value` leaf holding a given scalar. -/
def pushValue (ops : List Op) (s : St) (x : ℚ) : List Op × St :=
  (ops ++ [Op.leaf],
   { data := upd s.data ops.length x
   , grad := upd s.grad ops.length 0
   , ver := upd s.ver ops.length 0 })

/-- Fuelled version of `Node.refresh` (`engine.py` lines 99-103 for `Value`,
128-136 / 165-173 / 204-212 / 239-246 for the composites).  A leaf returns
its stored value, resetting `grad` and stamping the version if stale; a
composite returns its cached `data` when its version is current, and
otherwise refreshes its operands, recomputes `data`, resets `grad`, stamps
the version and returns the new value.  Out-of-arena indices and foreign
subclasses have no specified behaviour; they are given the inert result
`(0, s)` and are excluded by the hypotheses of every theorem below. -/
def refreshGo (g : Graph) (k : ℕ) : ℕ → Nat → St → ℚ × St
  | 0, _, s => (0, s)
  | fuel + 1, i, s =>
    match g.at? i with
    | none => (0, s)
    | some .unknown => (0, s)
    | some .leaf =>
      if s.ver i < k then
        (s.data i, ⟨s.data, upd s.grad i 0, upd s.ver i k⟩)
      else (s.data i, s)
    | some (.add l r) =>
      if k ≤ s.ver i then (s.data i, s)
      else
        let p := refreshGo g k fuel l s
        let q := refreshGo g k fuel r p.2
        let v := p.1 + q.1
        (v, ⟨upd q.2.data i v, upd q.2.grad i 0, upd q.2.ver i k⟩)
    | some (.mul l r) =>
      if k ≤ s.ver i then (s.data i, s)
      else
        let p := refreshGo g k fuel l s
        let q := refreshGo g k fuel r p.2
        let v := p.1 * q.1
        (v, ⟨upd q.2.data i v, upd q.2.grad i 0, upd q.2.ver i k⟩)
    | some (.pow l e) =>
      if k ≤ s.ver i then (s.data i, s)
      else
        let p := refreshGo g k fuel l s
        let v := zq p.1 e
        (v, ⟨upd p.2.data i v, upd p.2.grad i 0, upd p.2.ver i k⟩)
    | some (.relu a) =>
      if k ≤ s.ver i then (s.data i, s)
      else
        let p := refreshGo g k fuel a s
        let v := if p.1 < 0 then 0 else p.1
        (v, ⟨upd p.2.data i v, upd p.2.grad i 0, upd p.2.ver i k⟩)

/-- Entry point of the versioned refresh: in a well-formed arena the
recursion descends through strictly smaller indices, so fuel `i + 1`
always suffices. -/
def refresh (g : Graph) (k : ℕ) (i : Nat) (s : St) : ℚ × St :=
  refreshGo g k (i + 1) i s

/-- Fuelled version of `_build_topo` (`engine.py` lines 108-111, 143-148,
182-187, 219-223, 252-256): a depth-first post-order traversal that marks a
node visited before descending, visits the right operand before the left
for `Add`/`Mul`, and appends the node itself after its operands. -/
def buildTopoGo (g : Graph) : ℕ → Nat → List Nat → List Nat → List Nat × List Nat
  | 0, _, v, t => (v, t)
  | fuel + 1, i, v, t =>
    if i ∈ v then (v, t)
    else
      match g.at? i with
      | none => (v, t)
      | some .unknown => (v, t)
      | some .leaf => (i :: v, t ++ [i])
      | some (.add l r) =>
        let p := buildTopoGo g fuel r (i :: v) t
        let q := buildTopoGo g fuel l p.1 p.2
        (q.1, q.2 ++ [i])
      | some (.mul l r) =>
        let p := buildTopoGo g fuel r (i :: v) t
        let q := buildTopoGo g fuel l p.1 p.2
        (q.1, q.2 ++ [i])
      | some (.pow l _) =>
        let p := buildTopoGo g fuel l (i :: v) t
        (p.1, p.2 ++ [i])
      | some (.relu a) =>
        let p := buildTopoGo g fuel a (i :: v) t
        (p.1, p.2 ++ [i])

/-- Topological order rooted at `root`, starting from an empty visited set
and an empty list, as `Node.backward` does. -/
def buildTopo (g : Graph) (root : Nat) : List Nat :=
  (buildTopoGo g (root + 1) root [] []).2

/-- One-step backward propagation `_backward` of a single node
(`engine.py` lines 105-106, 138-141, 175-180, 214-217, 248-250): the node's
current `grad` is read once and chain-rule contributions are *added* into
the operands' `grad` fields, left operand first. -/
def backwardStep (g : Graph) (i : Nat) (s : St) : St :=
  match g.at? i with
  | none => s
  | some .unknown => s
  | some .leaf => s
  | some (.add l r) =>
    let gr := s.grad i
    let g1 := upd s.grad l (s.grad l + gr)
    { s with grad := upd g1 r (g1 r + gr) }
  | some (.mul l r) =>
    let gr := s.grad i
    let g1 := upd s.grad l (s.grad l + s.data r * gr)
    { s with grad := upd g1 r (g1 r + s.data l * gr) }
  | some (.pow l e) =>
    { s with grad := upd s.grad l (s.grad l + e * zq (s.data l) (e - 1) * s.grad i) }
  | some (.relu a) =>
    let gate : ℚ := if 0 < s.data i then 1 else 0
    { s with grad := upd s.grad a (s.grad a + gate * s.grad i) }

/-- Full backward pass `Node.backward` (`engine.py` lines 75-85): build the
topological order rooted at `root`, seed the root's `grad` with `1.0`, then
run each node's one-step backward propagation in reverse topological
order. -/
def backward (g : Graph) (root : Nat) (s : St) : St :=
  let topo := buildTopo g root
  let s1 : St := { s with grad := upd s.grad root 1 }
  (topo.reverse).foldl (fun s i => backwardStep g i s) s1

/-- Fuelled pure denotation of the graph: the forward value of node `i`
when every node is recomputed from the `data` of the leaves, which is what
a complete refresh (or the compiled forward pass) computes. -/
def denotGo (g : Graph) (d : Nat → ℚ) : ℕ → Nat → ℚ
  | 0, _ => 0
  | fuel + 1, i =>
    match g.at? i with
    | none => 0
    | some .unknown => 0
    | some .leaf => d i
    | some (.add l r) => denotGo g d fuel l + denotGo g d fuel r
    | some (.mul l r) => denotGo g d fuel l * denotGo g d fuel r
    | some (.pow l e) => zq (denotGo g d fuel l) e
    | some (.relu a) =>
      let x := denotGo g d fuel a
      if x < 0 then 0 else x

/-- Pure denotation of node `i` from leaf data `d`. -/
def denot (g : Graph) (d : Nat → ℚ) (i : Nat) : ℚ := denotGo g d (i + 1) i

/-- Reachability along operand edges (a node reaches itself). -/
inductive Reaches (g : Graph) : Nat → Nat → Prop
  | refl (i : Nat) : Reaches g i i
  | step {i j m : Nat} : j ∈ g.operandsOf i → Reaches g j m → Reaches g i m

/-- Indices never increase along reachability. -/
theorem Reaches.le {g : Graph} {i j : Nat} (h : Reaches g i j) : j ≤ i := by
  induction h with
  | refl => exact le_rfl
  | step hj _ ih => exact le_of_lt (lt_of_le_of_lt ih (g.operandsOf_lt hj))

/-! ### Frame lemmas for the backward pass -/

/-- One backward step never writes `data`. -/
theorem backwardStep_data (g : Graph) (i : Nat) (s : St) :
    (backwardStep g i s).data = s.data := by
  unfold backwardStep
  cases h : g.at? i with
  | none => rfl
  | some op => cases op <;> rfl

/-- One backward step never writes the version marker. -/
theorem backwardStep_ver (g : Graph) (i : Nat) (s : St) :
    (backwardStep g i s).ver = s.ver := by
  unfold backwardStep
  cases h : g.at? i with
  | none => rfl
  | some op => cases op <;> rfl

/-- A fold of backward steps never writes `data` or the version marker. -/
theorem foldl_backwardStep_frame (g : Graph) (l : List Nat) : ∀ s : St,
    ((l.foldl (fun s i => backwardStep g i s) s).data = s.data ∧
     (l.foldl (fun s i => backwardStep g i s) s).ver = s.ver) := by
  induction l with
  | nil => intro s; exact ⟨rfl, rfl⟩
  | cons hd tl ih =>
    intro s
    have h := ih (backwardStep g hd s)
    simp only [List.foldl_cons] at *
    rw [h.1, h.2, backwardStep_data, backwardStep_ver]
    exact ⟨rfl, rfl⟩

/-- Concrete example graph used by several witnesses: node 0 is the leaf
`x`, node 1 is `x * x`, node 2 is `x*x + x`. -/
def gW : Graph := ⟨[Op.leaf, Op.mul 0 0, Op.add 1 0], by decide⟩

/-- Concrete state for `gW` with `x = 3`, as eager construction leaves it. -/
def sW : St :=
  ⟨fun n => if n = 0 then 3 else if n = 1 then 9 else if n = 2 then 12 else 0,
   fun _ => 0, fun _ => 0⟩

/-- Claim C5: immediately after construction, a composite node's `data`
equals its operator applied to its operands' `data` at that moment:
`Add` gives `lhs.data + rhs.data`, `Mul` gives `lhs.data * rhs.data`,
`Pow` gives the base's data raised to the constant exponent, and `ReLU`
gives `0` when the argument's data is negative and the argument's data
otherwise. -/
theorem C5_eager_construction (ops : List Op) (s : St) :
    (∀ l r, (push ops s (Op.add l r)).2.data ops.length = s.data l + s.data r) ∧
    (∀ l r, (push ops s (Op.mul l r)).2.data ops.length = s.data l * s.data r) ∧
    (∀ l e, (push ops s (Op.pow l e)).2.data ops.length = zq (s.data l) e) ∧
    (∀ a, (push ops s (Op.relu a)).2.data ops.length =
      if s.data a < 0 then 0 else s.data a) := by
  refine ⟨fun l r => ?_, fun l r => ?_, fun l e => ?_, fun a => ?_⟩ <;>
    simp [push, Op.forwardOf, upd]

/-- Claim C9: a call of `backward()` mutates only `grad` fields: every
node's `data` and version marker are exactly the same after the call as
before it (operand links are immutable in this embedding, as they are
fixed at construction time in the source). -/
theorem C9_backward_frame (g : Graph) (root : Nat) (s : St) (hc : g.Closed) :
    (backward g root s).data = s.data ∧ (backward g root s).ver = s.ver := by
  unfold backward
  have h := foldl_backwardStep_frame g (buildTopo g root).reverse
    { s with grad := upd s.grad root 1 }
  exact ⟨h.1, h.2⟩

/-- Witness for C9 at the concrete graph `y = x*x + x`, `x = 3`. -/
theorem C9_backward_frame_witness :
    (backward gW 2 sW).data = sW.data ∧ (backward gW 2 sW).ver = sW.ver :=
  C9_backward_frame gW 2 sW (by decide)

/-! ### Structure of the depth-first post-order traversal -/

/-- Order relation underlying the topological-order law: `b`, which occurs
later in the list than `a`, is not an operand of `a`; equivalently, every
operand of a listed node occurs strictly earlier. -/
def NoLaterOperand (g : Graph) (a b : Nat) : Prop := b ∉ g.operandsOf a

instance (g : Graph) (a b : Nat) : Decidable (NoLaterOperand g a b) := by
  unfold NoLaterOperand; infer_instance

set_option maxHeartbeats 3200000 in
/-- Main structure lemma of `_build_topo`: on a closed well-formed graph
the traversal from node `i` appends a block `Δ` of newly finished nodes to
the topo list, marks exactly `Δ` as newly visited, never repeats a node,
only finishes nodes reachable from `i`, finishes `i` itself if it was not
yet visited, lists no node before one of its operands, and finds every
operand of a finished node either already visited or inside `Δ`. -/
theorem buildTopoGo_spec (g : Graph) (hc : g.Closed) : ∀ (fuel i : ℕ) (v t : List Nat),
    i < fuel → i < g.ops.length →
    ∃ Δ, (buildTopoGo g fuel i v t).2 = t ++ Δ ∧
      (∀ x, x ∈ (buildTopoGo g fuel i v t).1 ↔ (x ∈ v ∨ x ∈ Δ)) ∧
      Δ.Nodup ∧
      (∀ x ∈ Δ, x ∉ v) ∧
      (∀ x ∈ Δ, Reaches g i x) ∧
      (i ∉ v → i ∈ Δ) ∧
      List.Pairwise (NoLaterOperand g) Δ ∧
      (∀ p ∈ Δ, ∀ c ∈ g.operandsOf p, c ∈ v ∨ c ∈ Δ) := by
  intro fuel
  induction fuel with
  | zero => intro i v t hif hi; omega
  | succ fuel ih =>
    intro i v t hif hi
    by_cases hiv : i ∈ v
    · refine ⟨[], ?_, ?_, ?_, ?_, ?_, ?_, ?_, ?_⟩ <;>
        simp [buildTopoGo, hiv]
    · cases hop : g.at? i with
      | none =>
        exfalso
        have : g.ops.length ≤ i := by
          simpa [Graph.at?, List.getElem?_eq_none_iff] using hop
        omega
      | some op =>
        have hne := hc.at_ne g hop
        cases op with
        | unknown => exact absurd rfl hne
        | leaf =>
          have hred : buildTopoGo g (fuel + 1) i v t = (i :: v, t ++ [i]) := by
            simp [buildTopoGo, hiv, hop]
          refine ⟨[i], ?_, ?_, ?_, ?_, ?_, ?_, ?_, ?_⟩ <;>
            simp [hred, hiv, Reaches.refl, List.Pairwise, Graph.operandsOf_eq g hop,
              Op.operands] <;> tauto
        | add l r =>
          have hl : l < i := g.operand_lt hop (by simp [Op.operands])
          have hr : r < i := g.operand_lt hop (by simp [Op.operands])
          obtain ⟨Δr, h1t, h1v, h1n, h1f, h1r, h1i, h1p, h1c⟩ :=
            ih r (i :: v) t (by omega) (by omega)
          obtain ⟨Δl, h2t, h2v, h2n, h2f, h2r, h2i, h2p, h2c⟩ :=
            ih l (buildTopoGo g fuel r (i :: v) t).1 (buildTopoGo g fuel r (i :: v) t).2
              (by omega) (by omega)
          have hred : buildTopoGo g (fuel + 1) i v t =
              ((buildTopoGo g fuel l (buildTopoGo g fuel r (i :: v) t).1
                  (buildTopoGo g fuel r (i :: v) t).2).1,
               (buildTopoGo g fuel l (buildTopoGo g fuel r (i :: v) t).1
                  (buildTopoGo g fuel r (i :: v) t).2).2 ++ [i]) := by
            simp [buildTopoGo, hiv, hop]
          -- bounds on the blocks
          have hΔr_le : ∀ x ∈ Δr, x ≤ r := fun x hx => (h1r x hx).le
          have hΔl_le : ∀ x ∈ Δl, x ≤ l := fun x hx => (h2r x hx).le
          have hΔr_ne_i : ∀ x ∈ Δr, x ≠ i := fun x hx h => by
            have := hΔr_le x hx; omega
          have hΔl_ne_i : ∀ x ∈ Δl, x ≠ i := fun x hx h => by
            have := hΔl_le x hx; omega
          have hΔl_fresh : ∀ x ∈ Δl, ¬(x ∈ i :: v ∨ x ∈ Δr) := by
            intro x hx hmem
            exact h2f x hx ((h1v x).2 hmem)
          refine ⟨Δr ++ (Δl ++ [i]), ?_, ?_, ?_, ?_, ?_, ?_, ?_, ?_⟩
          · rw [hred, h2t, h1t]; simp
          · intro x
            simp only [hred]
            rw [h2v x, h1v x]
            simp only [List.mem_cons, List.mem_append, List.mem_singleton]
            tauto
          · -- Nodup
            have hi_nr : i ∉ Δr := fun hmem => hΔr_ne_i i hmem rfl
            have hi_nl : i ∉ Δl := fun hmem => hΔl_ne_i i hmem rfl
            have hdisj : ∀ x ∈ Δl, x ∉ Δr := fun x hx hmem =>
              hΔl_fresh x hx (Or.inr hmem)
            refine List.Nodup.append h1n ?_ ?_
            · refine List.Nodup.append h2n (by simp) ?_
              intro x hx hy
              simp at hy
              subst hy
              exact hi_nl hx
            · intro x hx hy
              rcases List.mem_append.mp hy with hy | hy
              · exact hdisj x hy hx
              · simp at hy; subst hy; exact hi_nr hx
          · -- fresh from v
            intro x hx
            rcases List.mem_append.mp hx with hx | hx
            · intro hv; exact h1f x hx (by simp [hv])
            · rcases List.mem_append.mp hx with hx | hx
              · intro hv; exact hΔl_fresh x hx (Or.inl (by simp [hv]))
              · simp at hx; subst hx; exact hiv
          · -- reachability from i
            intro x hx
            have hmem_r : r ∈ g.operandsOf i := by
              rw [g.operandsOf_eq hop]; simp [Op.operands]
            have hmem_l : l ∈ g.operandsOf i := by
              rw [g.operandsOf_eq hop]; simp [Op.operands]
            rcases List.mem_append.mp hx with hx | hx
            · exact Reaches.step hmem_r (h1r x hx)
            · rcases List.mem_append.mp hx with hx | hx
              · exact Reaches.step hmem_l (h2r x hx)
              · simp at hx; subst hx; exact Reaches.refl _
          · intro _; simp
          · -- pairwise: no later element is an operand of an earlier one
            have hpair_li : List.Pairwise (NoLaterOperand g) (Δl ++ [i]) := by
              refine List.pairwise_append.mpr ⟨h2p, by simp, ?_⟩
              intro a ha b hb
              simp at hb
              subst hb
              intro hmem
              have hb_lt := g.operandsOf_lt hmem
              have := hΔl_le a ha
              omega
            refine List.pairwise_append.mpr ⟨h1p, hpair_li, ?_⟩
            intro a ha b hb hmem
            have hb_lt_a := g.operandsOf_lt hmem
            have hclose := h1c a ha b hmem
            rcases List.mem_append.mp hb with hb | hb
            · -- b ∈ Δl, yet every operand of a ∈ Δr is visited before Δl starts
              rcases hclose with hmem2 | hmem2
              · exact hΔl_fresh b hb (Or.inl hmem2)
              · exact hΔl_fresh b hb (Or.inr hmem2)
            · simp at hb
              subst hb
              have := hΔr_le a ha
              omega
          · -- operand closure
            intro p hp c hcmem
            have hc_lt := g.operandsOf_lt hcmem
            rcases List.mem_append.mp hp with hp | hp
            · have := h1c p hp c hcmem
              have hcne : c ≠ i := by
                have := hΔr_le p hp; omega
              rcases this with hmem | hmem
              · rcases List.mem_cons.mp hmem with hmem | hmem
                · exact absurd hmem hcne
                · exact Or.inl hmem
              · exact Or.inr (by simp [hmem])
            · rcases List.mem_append.mp hp with hp | hp
              · have := h2c p hp c hcmem
                have hcne : c ≠ i := by
                  have := hΔl_le p hp; omega
                rcases this with hmem | hmem
                · rw [h1v c] at hmem
                  rcases hmem with hmem | hmem
                  · rcases List.mem_cons.mp hmem with hmem | hmem
                    · exact absurd hmem hcne
                    · exact Or.inl hmem
                  · exact Or.inr (by simp [hmem])
                · exact Or.inr (by simp [hmem])
              · simp at hp
                rw [hp] at hcmem
                rw [g.operandsOf_eq hop] at hcmem
                simp [Op.operands] at hcmem
                rcases hcmem with hcmem | hcmem
                · -- c = l: finished by the second child call
                  rw [hcmem]
                  by_cases hlv : l ∈ (buildTopoGo g fuel r (i :: v) t).1
                  · rw [h1v l] at hlv
                    rcases hlv with hmem | hmem
                    · rcases List.mem_cons.mp hmem with hmem | hmem
                      · omega
                      · exact Or.inl hmem
                    · exact Or.inr (by simp [hmem])
                  · exact Or.inr (by simp [h2i hlv])
                · -- c = r: finished by the first child call
                  rw [hcmem]
                  by_cases hrv : r ∈ v
                  · exact Or.inl hrv
                  · have hm := h1i (by simp [hrv]; omega)
                    exact Or.inr (by simp [hm])
        | mul l r =>
          have hl : l < i := g.operand_lt hop (by simp [Op.operands])
          have hr : r < i := g.operand_lt hop (by simp [Op.operands])
          obtain ⟨Δr, h1t, h1v, h1n, h1f, h1r, h1i, h1p, h1c⟩ :=
            ih r (i :: v) t (by omega) (by omega)
          obtain ⟨Δl, h2t, h2v, h2n, h2f, h2r, h2i, h2p, h2c⟩ :=
            ih l (buildTopoGo g fuel r (i :: v) t).1 (buildTopoGo g fuel r (i :: v) t).2
              (by omega) (by omega)
          have hred : buildTopoGo g (fuel + 1) i v t =
              ((buildTopoGo g fuel l (buildTopoGo g fuel r (i :: v) t).1
                  (buildTopoGo g fuel r (i :: v) t).2).1,
               (buildTopoGo g fuel l (buildTopoGo g fuel r (i :: v) t).1
                  (buildTopoGo g fuel r (i :: v) t).2).2 ++ [i]) := by
            simp [buildTopoGo, hiv, hop]
          have hΔr_le : ∀ x ∈ Δr, x ≤ r := fun x hx => (h1r x hx).le
          have hΔl_le : ∀ x ∈ Δl, x ≤ l := fun x hx => (h2r x hx).le
          have hΔr_ne_i : ∀ x ∈ Δr, x ≠ i := fun x hx h => by
            have := hΔr_le x hx; omega
          have hΔl_ne_i : ∀ x ∈ Δl, x ≠ i := fun x hx h => by
            have := hΔl_le x hx; omega
          have hΔl_fresh : ∀ x ∈ Δl, ¬(x ∈ i :: v ∨ x ∈ Δr) := by
            intro x hx hmem
            exact h2f x hx ((h1v x).2 hmem)
          refine ⟨Δr ++ (Δl ++ [i]), ?_, ?_, ?_, ?_, ?_, ?_, ?_, ?_⟩
          · rw [hred, h2t, h1t]; simp
          · intro x
            simp only [hred]
            rw [h2v x, h1v x]
            simp only [List.mem_cons, List.mem_append, List.mem_singleton]
            tauto
          · have hi_nr : i ∉ Δr := fun hmem => hΔr_ne_i i hmem rfl
            have hi_nl : i ∉ Δl := fun hmem => hΔl_ne_i i hmem rfl
            have hdisj : ∀ x ∈ Δl, x ∉ Δr := fun x hx hmem =>
              hΔl_fresh x hx (Or.inr hmem)
            refine List.Nodup.append h1n ?_ ?_
            · refine List.Nodup.append h2n (by simp) ?_
              intro x hx hy
              simp at hy
              subst hy
              exact hi_nl hx
            · intro x hx hy
              rcases List.mem_append.mp hy with hy | hy
              · exact hdisj x hy hx
              · simp at hy; subst hy; exact hi_nr hx
          · intro x hx
            rcases List.mem_append.mp hx with hx | hx
            · intro hv; exact h1f x hx (by simp [hv])
            · rcases List.mem_append.mp hx with hx | hx
              · intro hv; exact hΔl_fresh x hx (Or.inl (by simp [hv]))
              · simp at hx; subst hx; exact hiv
          · intro x hx
            have hmem_r : r ∈ g.operandsOf i := by
              rw [g.operandsOf_eq hop]; simp [Op.operands]
            have hmem_l : l ∈ g.operandsOf i := by
              rw [g.operandsOf_eq hop]; simp [Op.operands]
            rcases List.mem_append.mp hx with hx | hx
            · exact Reaches.step hmem_r (h1r x hx)
            · rcases List.mem_append.mp hx with hx | hx
              · exact Reaches.step hmem_l (h2r x hx)
              · simp at hx; subst hx; exact Reaches.refl _
          · intro _; simp
          · have hpair_li : List.Pairwise (NoLaterOperand g) (Δl ++ [i]) := by
              refine List.pairwise_append.mpr ⟨h2p, by simp, ?_⟩
              intro a ha b hb
              simp at hb
              subst hb
              intro hmem
              have hb_lt := g.operandsOf_lt hmem
              have := hΔl_le a ha
              omega
            refine List.pairwise_append.mpr ⟨h1p, hpair_li, ?_⟩
            intro a ha b hb hmem
            have hb_lt_a := g.operandsOf_lt hmem
            have hclose := h1c a ha b hmem
            rcases List.mem_append.mp hb with hb | hb
            · rcases hclose with hmem2 | hmem2
              · exact hΔl_fresh b hb (Or.inl hmem2)
              · exact hΔl_fresh b hb (Or.inr hmem2)
            · simp at hb
              subst hb
              have := hΔr_le a ha
              omega
          · intro p hp c hcmem
            have hc_lt := g.operandsOf_lt hcmem
            rcases List.mem_append.mp hp with hp | hp
            · have := h1c p hp c hcmem
              have hcne : c ≠ i := by
                have := hΔr_le p hp; omega
              rcases this with hmem | hmem
              · rcases List.mem_cons.mp hmem with hmem | hmem
                · exact absurd hmem hcne
                · exact Or.inl hmem
              · exact Or.inr (by simp [hmem])
            · rcases List.mem_append.mp hp with hp | hp
              · have := h2c p hp c hcmem
                have hcne : c ≠ i := by
                  have := hΔl_le p hp; omega
                rcases this with hmem | hmem
                · rw [h1v c] at hmem
                  rcases hmem with hmem | hmem
                  · rcases List.mem_cons.mp hmem with hmem | hmem
                    · exact absurd hmem hcne
                    · exact Or.inl hmem
                  · exact Or.inr (by simp [hmem])
                · exact Or.inr (by simp [hmem])
              · simp at hp
                rw [hp] at hcmem
                rw [g.operandsOf_eq hop] at hcmem
                simp [Op.operands] at hcmem
                rcases hcmem with hcmem | hcmem
                · rw [hcmem]
                  by_cases hlv : l ∈ (buildTopoGo g fuel r (i :: v) t).1
                  · rw [h1v l] at hlv
                    rcases hlv with hmem | hmem
                    · rcases List.mem_cons.mp hmem with hmem | hmem
                      · omega
                      · exact Or.inl hmem
                    · exact Or.inr (by simp [hmem])
                  · exact Or.inr (by simp [h2i hlv])
                · rw [hcmem]
                  by_cases hrv : r ∈ v
                  · exact Or.inl hrv
                  · have hm := h1i (by simp [hrv]; omega)
                    exact Or.inr (by simp [hm])
        | pow l e =>
          have hl : l < i := g.operand_lt hop (by simp [Op.operands])
          obtain ⟨Δl, h1t, h1v, h1n, h1f, h1r, h1i, h1p, h1c⟩ :=
            ih l (i :: v) t (by omega) (by omega)
          have hred : buildTopoGo g (fuel + 1) i v t =
              ((buildTopoGo g fuel l (i :: v) t).1,
               (buildTopoGo g fuel l (i :: v) t).2 ++ [i]) := by
            simp [buildTopoGo, hiv, hop]
          have hΔl_le : ∀ x ∈ Δl, x ≤ l := fun x hx => (h1r x hx).le
          have hΔl_ne_i : ∀ x ∈ Δl, x ≠ i := fun x hx h => by
            have := hΔl_le x hx; omega
          refine ⟨Δl ++ [i], ?_, ?_, ?_, ?_, ?_, ?_, ?_, ?_⟩
          · rw [hred, h1t]; simp
          · intro x
            simp only [hred]
            rw [h1v x]
            simp only [List.mem_cons, List.mem_append, List.mem_singleton]
            tauto
          · refine List.Nodup.append h1n (by simp) ?_
            intro x hx hy
            simp at hy
            exact hΔl_ne_i x hx hy
          · intro x hx
            rcases List.mem_append.mp hx with hx | hx
            · intro hv; exact h1f x hx (by simp [hv])
            · simp at hx; subst hx; exact hiv
          · intro x hx
            have hmem_l : l ∈ g.operandsOf i := by
              rw [g.operandsOf_eq hop]; simp [Op.operands]
            rcases List.mem_append.mp hx with hx | hx
            · exact Reaches.step hmem_l (h1r x hx)
            · simp at hx; subst hx; exact Reaches.refl _
          · intro _; simp
          · refine List.pairwise_append.mpr ⟨h1p, by simp, ?_⟩
            intro a ha b hb
            simp at hb
            subst hb
            intro hmem
            have := g.operandsOf_lt hmem
            have := hΔl_le a ha
            omega
          · intro p hp c hcmem
            rcases List.mem_append.mp hp with hp | hp
            · have := h1c p hp c hcmem
              have hcne : c ≠ i := by
                have := g.operandsOf_lt hcmem
                have := hΔl_le p hp; omega
              rcases this with hmem | hmem
              · rcases List.mem_cons.mp hmem with hmem | hmem
                · exact absurd hmem hcne
                · exact Or.inl hmem
              · exact Or.inr (by simp [hmem])
            · simp at hp
              rw [hp] at hcmem
              rw [g.operandsOf_eq hop] at hcmem
              simp [Op.operands] at hcmem
              rw [hcmem]
              by_cases hlv : l ∈ v
              · exact Or.inl hlv
              · have hm := h1i (by simp [hlv]; omega)
                exact Or.inr (by simp [hm])
        | relu a =>
          have hl : a < i := g.operand_lt hop (by simp [Op.operands])
          obtain ⟨Δl, h1t, h1v, h1n, h1f, h1r, h1i, h1p, h1c⟩ :=
            ih a (i :: v) t (by omega) (by omega)
          have hred : buildTopoGo g (fuel + 1) i v t =
              ((buildTopoGo g fuel a (i :: v) t).1,
               (buildTopoGo g fuel a (i :: v) t).2 ++ [i]) := by
            simp [buildTopoGo, hiv, hop]
          have hΔl_le : ∀ x ∈ Δl, x ≤ a := fun x hx => (h1r x hx).le
          have hΔl_ne_i : ∀ x ∈ Δl, x ≠ i := fun x hx h => by
            have := hΔl_le x hx; omega
          refine ⟨Δl ++ [i], ?_, ?_, ?_, ?_, ?_, ?_, ?_, ?_⟩
          · rw [hred, h1t]; simp
          · intro x
            simp only [hred]
            rw [h1v x]
            simp only [List.mem_cons, List.mem_append, List.mem_singleton]
            tauto
          · refine List.Nodup.append h1n (by simp) ?_
            intro x hx hy
            simp at hy
            exact hΔl_ne_i x hx hy
          · intro x hx
            rcases List.mem_append.mp hx with hx | hx
            · intro hv; exact h1f x hx (by simp [hv])
            · simp at hx; subst hx; exact hiv
          · intro x hx
            have hmem_l : a ∈ g.operandsOf i := by
              rw [g.operandsOf_eq hop]; simp [Op.operands]
            rcases List.mem_append.mp hx with hx | hx
            · exact Reaches.step hmem_l (h1r x hx)
            · simp at hx; subst hx; exact Reaches.refl _
          · intro _; simp
          · refine List.pairwise_append.mpr ⟨h1p, by simp, ?_⟩
            intro x hx b hb
            simp at hb
            subst hb
            intro hmem
            have := g.operandsOf_lt hmem
            have := hΔl_le x hx
            omega
          · intro p hp c hcmem
            rcases List.mem_append.mp hp with hp | hp
            · have := h1c p hp c hcmem
              have hcne : c ≠ i := by
                have := g.operandsOf_lt hcmem
                have := hΔl_le p hp; omega
              rcases this with hmem | hmem
              · rcases List.mem_cons.mp hmem with hmem | hmem
                · exact absurd hmem hcne
                · exact Or.inl hmem
              · exact Or.inr (by simp [hmem])
            · simp at hp
              rw [hp] at hcmem
              rw [g.operandsOf_eq hop] at hcmem
              simp [Op.operands] at hcmem
              rw [hcmem]
              by_cases hlv : a ∈ v
              · exact Or.inl hlv
              · have hm := h1i (by simp [hlv]; omega)
                exact Or.inr (by simp [hm])

/-- Packaged form of the structure lemma for the top-level call used by
`Node.backward` (empty visited set and topo list). -/
theorem buildTopo_spec (g : Graph) (root : Nat) (hc : g.Closed)
    (hroot : root < g.ops.length) :
    (buildTopo g root).Nodup ∧
    (∀ x ∈ buildTopo g root, Reaches g root x) ∧
    root ∈ buildTopo g root ∧
    List.Pairwise (NoLaterOperand g) (buildTopo g root) ∧
    (∀ p ∈ buildTopo g root, ∀ c ∈ g.operandsOf p, c ∈ buildTopo g root) := by
  obtain ⟨Δ, ht, _, hn, _, hr, hi, hp, hcl⟩ :=
    buildTopoGo_spec g hc (root + 1) root [] [] (by omega) hroot
  have hΔ : buildTopo g root = Δ := by
    rw [buildTopo, ht]; simp
  rw [hΔ]
  refine ⟨hn, hr, hi (by simp), hp, ?_⟩
  intro p hp' c hc'
  rcases hcl p hp' c hc' with h | h
  · simp at h
  · exact h

/-- Claim C6: for every acyclic (closed, well-formed) graph, the
topological order produced by the depth-first post-order traversal used by
`backward()` lists, for every edge from a parent node to a child node, the
child before the parent (equivalently: every listed node's operands occur
in the list, and no node is an operand of any earlier-listed node), and no
node appears twice even when shared by multiple parents. -/
theorem C6_topological_order (g : Graph) (root : Nat) (hc : g.Closed)
    (hroot : root < g.ops.length) :
    (buildTopo g root).Nodup ∧
    (∀ p ∈ buildTopo g root, ∀ c ∈ g.operandsOf p, c ∈ buildTopo g root) ∧
    List.Pairwise (NoLaterOperand g) (buildTopo g root) := by
  obtain ⟨hn, _, _, hp, hcl⟩ := buildTopo_spec g root hc hroot
  exact ⟨hn, hcl, hp⟩

/-- Witness for C6 at the concrete shared-subexpression graph `x*x + x`. -/
theorem C6_topological_order_witness :
    (buildTopo gW 2).Nodup ∧
    (∀ p ∈ buildTopo gW 2, ∀ c ∈ gW.operandsOf p, c ∈ buildTopo gW 2) ∧
    List.Pairwise (NoLaterOperand gW) (buildTopo gW 2) :=
  C6_topological_order gW 2 (by decide) (by decide)

/-! ### Gradient bookkeeping of the backward pass -/

/-- A backward step writes `grad` only at the operands of its node. -/
theorem backwardStep_grad_outside (g : Graph) (i : Nat) (s : St) {j : Nat}
    (hj : j ∉ g.operandsOf i) : (backwardStep g i s).grad j = s.grad j := by
  unfold backwardStep
  cases hop : g.at? i with
  | none => rfl
  | some op =>
    have hops := g.operandsOf_eq hop
    cases op <;> rw [hops] at hj <;> simp [Op.operands] at hj <;>
      simp [upd, hj] <;> tauto


/-- Folding backward steps over nodes none of which has `j` as an operand
leaves `j`'s gradient unchanged. -/
theorem foldl_backwardStep_grad_outside (g : Graph) {j : Nat} :
    ∀ (l : List Nat) (s : St), (∀ t ∈ l, j ∉ g.operandsOf t) →
      (l.foldl (fun s i => backwardStep g i s) s).grad j = s.grad j := by
  intro l
  induction l with
  | nil => intro s _; rfl
  | cons hd tl ih =>
    intro s hout
    simp only [List.foldl_cons]
    rw [ih (backwardStep g hd s) (fun t ht => hout t (by simp [ht]))]
    exact backwardStep_grad_outside g hd s (hout hd (by simp))

/-- After `backward()`, the root keeps the seeded gradient `1.0`: every node
of the topological order is reachable from the root, so its operands have
strictly smaller indices than the root and never overwrite the seed. -/
theorem backward_grad_root (g : Graph) (root : Nat) (s : St) (hc : g.Closed)
    (hroot : root < g.ops.length) : (backward g root s).grad root = 1 := by
  obtain ⟨_, hreach, _, _, _⟩ := buildTopo_spec g root hc hroot
  unfold backward
  rw [foldl_backwardStep_grad_outside g (buildTopo g root).reverse _ ?_]
  · exact upd_same _ _ _
  · intro t ht hmem
    rw [List.mem_reverse] at ht
    have h1 : t ≤ root := (hreach t ht).le
    have h2 : root < t := g.operandsOf_lt hmem
    omega

/-- Claim C2: with all gradients zero before the call, `backward()` on the
root seeds the root's gradient with `1.0` and accumulates (adds, never
overwrites) chain-rule contributions along the reversed topological order,
so a leaf shared by several parents receives the sum of its per-path
contributions: for `y = x*x + x` at `x = a` the root keeps `grad 1`, keeps
`data = a*a + a`, and the leaf ends with `dy/dx = 2*a + 1` (`a = 3` gives
`y = 12`, `dy/dx = 7`: see the witness). -/
theorem C2_gradient_accumulation (a : ℚ) (s : St)
    (hd0 : s.data 0 = a) (hd1 : s.data 1 = a * a) (hd2 : s.data 2 = a * a + a)
    (hg : ∀ n, s.grad n = 0) :
    (backward gW 2 s).grad 2 = 1 ∧
    (backward gW 2 s).data 2 = a * a + a ∧
    (backward gW 2 s).grad 0 = 2 * a + 1 := by
  have htopo : buildTopo gW 2 = [0, 1, 2] := by decide
  unfold backward
  rw [htopo]
  simp only [List.reverse_cons, List.reverse_nil, List.nil_append, List.cons_append,
    List.foldl_cons, List.foldl_nil]
  simp [backwardStep, gW, Graph.at?, upd, hg, hd0, hd1, hd2]
  ring

/-- Witness for C2: at `x = 3` the root computes `y.data = 12` and the
shared leaf receives `x.grad = 7` after `y.backward()`. -/
theorem C2_gradient_accumulation_witness :
    (backward gW 2 sW).grad 2 = 1 ∧
    (backward gW 2 sW).data 2 = 12 ∧
    (backward gW 2 sW).grad 0 = 7 := by
  have h := C2_gradient_accumulation 3 sW (by norm_num [sW]) (by norm_num [sW])
    (by norm_num [sW]) (fun n => rfl)
  refine ⟨h.1, ?_, ?_⟩
  · rw [h.2.1]; norm_num
  · rw [h.2.2]; norm_num

/-! ### Denotation lemmas -/

/-- Fuel does not matter for the denotation once it exceeds the index. -/
theorem denotGo_fuel (g : Graph) (d : Nat → ℚ) : ∀ (f1 : ℕ) (f2 i : ℕ), i < f1 → i < f2 →
    denotGo g d f1 i = denotGo g d f2 i := by
  intro f1
  induction f1 with
  | zero => intro f2 i h1 _; omega
  | succ f1 ih =>
    intro f2 i h1 h2
    cases f2 with
    | zero => omega
    | succ f2 =>
      cases hop : g.at? i with
      | none => simp only [denotGo, hop]
      | some op =>
        cases op with
        | leaf => simp only [denotGo, hop]
        | unknown => simp only [denotGo, hop]
        | add l r =>
          have hl : l < i := g.operand_lt hop (by simp [Op.operands])
          have hr : r < i := g.operand_lt hop (by simp [Op.operands])
          simp only [denotGo, hop]
          rw [ih f2 l (by omega) (by omega), ih f2 r (by omega) (by omega)]
        | mul l r =>
          have hl : l < i := g.operand_lt hop (by simp [Op.operands])
          have hr : r < i := g.operand_lt hop (by simp [Op.operands])
          simp only [denotGo, hop]
          rw [ih f2 l (by omega) (by omega), ih f2 r (by omega) (by omega)]
        | pow l e =>
          have hl : l < i := g.operand_lt hop (by simp [Op.operands])
          simp only [denotGo, hop]
          rw [ih f2 l (by omega) (by omega)]
        | relu a =>
          have ha : a < i := g.operand_lt hop (by simp [Op.operands])
          simp only [denotGo, hop]
          rw [ih f2 a (by omega) (by omega)]

theorem denot_leaf (g : Graph) (d : Nat → ℚ) {i : Nat} (h : g.at? i = some Op.leaf) :
    denot g d i = d i := by
  show denotGo g d (i + 1) i = d i
  simp only [denotGo, h]

theorem denot_add (g : Graph) (d : Nat → ℚ) {i l r : Nat}
    (h : g.at? i = some (Op.add l r)) :
    denot g d i = denot g d l + denot g d r := by
  have hl : l < i := g.operand_lt h (by simp [Op.operands])
  have hr : r < i := g.operand_lt h (by simp [Op.operands])
  show denotGo g d (i + 1) i = _
  simp only [denotGo, h]
  rw [denotGo_fuel g d i (l + 1) l (by omega) (by omega),
    denotGo_fuel g d i (r + 1) r (by omega) (by omega)]
  rfl

theorem denot_mul (g : Graph) (d : Nat → ℚ) {i l r : Nat}
    (h : g.at? i = some (Op.mul l r)) :
    denot g d i = denot g d l * denot g d r := by
  have hl : l < i := g.operand_lt h (by simp [Op.operands])
  have hr : r < i := g.operand_lt h (by simp [Op.operands])
  show denotGo g d (i + 1) i = _
  simp only [denotGo, h]
  rw [denotGo_fuel g d i (l + 1) l (by omega) (by omega),
    denotGo_fuel g d i (r + 1) r (by omega) (by omega)]
  rfl

theorem denot_pow (g : Graph) (d : Nat → ℚ) {i l : Nat} {e : ℤ}
    (h : g.at? i = some (Op.pow l e)) :
    denot g d i = zq (denot g d l) e := by
  have hl : l < i := g.operand_lt h (by simp [Op.operands])
  show denotGo g d (i + 1) i = _
  simp only [denotGo, h]
  rw [denotGo_fuel g d i (l + 1) l (by omega) (by omega)]
  rfl

theorem denot_relu (g : Graph) (d : Nat → ℚ) {i a : Nat}
    (h : g.at? i = some (Op.relu a)) :
    denot g d i = if denot g d a < 0 then 0 else denot g d a := by
  have ha : a < i := g.operand_lt h (by simp [Op.operands])
  show denotGo g d (i + 1) i = _
  simp only [denotGo, h]
  rw [denotGo_fuel g d i (a + 1) a (by omega) (by omega)]
  rfl

/-- The denotation reads its data argument only at leaves. -/
theorem denot_congr (g : Graph) {d1 d2 : Nat → ℚ}
    (h : ∀ n, g.at? n = some Op.leaf → d1 n = d2 n) (i : Nat) :
    denot g d1 i = denot g d2 i := by
  suffices hgo : ∀ (fuel j : ℕ), denotGo g d1 fuel j = denotGo g d2 fuel j by
    exact hgo (i + 1) i
  intro fuel
  induction fuel with
  | zero => intro j; rfl
  | succ fuel ih =>
    intro j
    cases hop : g.at? j with
    | none => simp only [denotGo, hop]
    | some op =>
      cases op with
      | leaf => simp only [denotGo, hop]; exact h j hop
      | unknown => simp only [denotGo, hop]
      | add l r => simp only [denotGo, hop]; rw [ih l, ih r]
      | mul l r => simp only [denotGo, hop]; rw [ih l, ih r]
      | pow l e => simp only [denotGo, hop]; rw [ih l]
      | relu a => simp only [denotGo, hop]; rw [ih a]

/-- Head inversion for reachability. -/
theorem Reaches.head_cases {g : Graph} {i n : Nat} (h : Reaches g i n) :
    n = i ∨ ∃ j ∈ g.operandsOf i, Reaches g j n := by
  cases h with
  | refl => exact Or.inl rfl
  | step hj hr => exact Or.inr ⟨_, hj, hr⟩

/-! ### Specification of the versioned refresh -/

/-- State invariant of the refresh machinery: every node whose version is
current (at least `k`) already stores its denotation, has a zeroed
gradient, and has current operands. -/
def StInv (g : Graph) (k : ℕ) (s : St) : Prop :=
  ∀ n, k ≤ s.ver n →
    s.data n = denot g s.data n ∧ s.grad n = 0 ∧ ∀ m ∈ g.operandsOf n, k ≤ s.ver m

/-- Postcondition of one `refresh(k)` call on node `i`: the returned value
is the denotation from the pre-call leaf data and is the node's stored
`data`; nodes that were already current are untouched; versions only grow,
and only ever to `k`; nodes unreachable from `i` are untouched; everything
reachable from `i` ends current; leaf `data` is never written; and the
state invariant is preserved. -/
def RefreshPost (g : Graph) (k : ℕ) (i : Nat) (s : St) (val : ℚ) (s2 : St) : Prop :=
  val = denot g s.data i ∧
  val = s2.data i ∧
  (∀ n, k ≤ s.ver n → s2.data n = s.data n ∧ s2.grad n = s.grad n ∧ s2.ver n = s.ver n) ∧
  (∀ n, s.ver n ≤ s2.ver n ∧ (s2.ver n = s.ver n ∨ s2.ver n = k)) ∧
  (∀ n, ¬ Reaches g i n → s2.data n = s.data n ∧ s2.grad n = s.grad n ∧ s2.ver n = s.ver n) ∧
  (∀ n, Reaches g i n → k ≤ s2.ver n) ∧
  (∀ n, g.at? n = some Op.leaf → s2.data n = s.data n) ∧
  StInv g k s2

/-- Everything reachable from a current node is current. -/
theorem StInv.reach_current {g : Graph} {k : ℕ} {s : St} (hinv : StInv g k s) :
    ∀ {i n : Nat}, Reaches g i n → k ≤ s.ver i → k ≤ s.ver n := by
  intro i n h
  induction h with
  | refl => exact fun h => h
  | step hj _ ih => exact fun hi => ih ((hinv _ hi).2.2 _ hj)

/-- Cached branch of `refresh`: a node whose version is current returns its
stored `data` and leaves the state untouched. -/
theorem refresh_cached_post (g : Graph) (k : ℕ) (i : Nat) (s : St)
    (hcur : k ≤ s.ver i) (hinv : StInv g k s) :
    RefreshPost g k i s (s.data i) s := by
  obtain ⟨hd, _, _⟩ := hinv i hcur
  exact ⟨hd, rfl, fun n _ => ⟨rfl, rfl, rfl⟩, fun n => ⟨le_rfl, Or.inl rfl⟩,
    fun n _ => ⟨rfl, rfl, rfl⟩, fun n hn => hinv.reach_current hn hcur,
    fun n _ => rfl, hinv⟩

/-- Stale branch of `Value.refresh`: the stored value is returned, the
gradient is reset and the version stamped. -/
theorem refresh_leaf_stale_post (g : Graph) (k : ℕ) (i : Nat) (s : St)
    (hop : g.at? i = some Op.leaf) (hstale : s.ver i < k) (hinv : StInv g k s) :
    RefreshPost g k i s (s.data i) ⟨s.data, upd s.grad i 0, upd s.ver i k⟩ := by
  have hne : ∀ n, k ≤ s.ver n → n ≠ i := fun n hn h => by rw [h] at hn; omega
  have hops : g.operandsOf i = [] := by rw [g.operandsOf_eq hop]; rfl
  have hreach : ∀ n, Reaches g i n → n = i := by
    intro n hn
    rcases hn.head_cases with h | ⟨j, hj, _⟩
    · exact h
    · rw [hops] at hj; simp at hj
  unfold RefreshPost StInv
  dsimp only [St.mk_data, St.mk_grad, St.mk_ver]
  refine ⟨(denot_leaf g s.data hop).symm, rfl, ?_, ?_, ?_, ?_, fun n _ => rfl, ?_⟩
  · intro n hn
    exact ⟨rfl, upd_ne _ _ _ (hne n hn), upd_ne _ _ _ (hne n hn)⟩
  · intro n
    by_cases h : n = i
    · rw [h, upd_same]; exact ⟨by omega, Or.inr rfl⟩
    · rw [upd_ne _ _ _ h]; exact ⟨le_rfl, Or.inl rfl⟩
  · intro n hn
    have h : n ≠ i := fun hh => hn (by rw [hh]; exact Reaches.refl i)
    exact ⟨rfl, upd_ne _ _ _ h, upd_ne _ _ _ h⟩
  · intro n hn
    rw [hreach n hn, upd_same]
  · intro n hn
    by_cases h : n = i
    · rw [h]
      refine ⟨(denot_leaf g s.data hop).symm, upd_same _ _ _, ?_⟩
      rw [hops]
      intro m hm
      simp at hm
    · rw [upd_ne _ _ _ h] at hn
      obtain ⟨hd, hg, hm⟩ := hinv n hn
      refine ⟨hd, (upd_ne _ _ _ h).trans hg, ?_⟩
      intro m hmem
      rw [upd_ne _ _ _ (hne m (hm m hmem))]
      exact hm m hmem

/-- Stale branch of a composite node with one operand (`Pow`, `ReLU`). -/
theorem refresh_unary_post (g : Graph) (k : ℕ) {i a : Nat} (s : St)
    (hops : g.operandsOf i = [a]) (hileaf : g.at? i ≠ some Op.leaf)
    (f : ℚ → ℚ) (hden : ∀ d : Nat → ℚ, denot g d i = f (denot g d a))
    {v1 : ℚ} {s1 : St} (h1 : RefreshPost g k a s v1 s1)
    (hstale : s.ver i < k) :
    RefreshPost g k i s (f v1) ⟨upd s1.data i (f v1), upd s1.grad i 0, upd s1.ver i k⟩ := by
  obtain ⟨h1d, h1o, h1f, h1m, h1u, h1r, h1l, h1I⟩ := h1
  have hne : ∀ n, k ≤ s.ver n → n ≠ i := fun n hn h => by rw [h] at hn; omega
  have hleaf_ne : ∀ n, g.at? n = some Op.leaf → n ≠ i := fun n hn h => by
    rw [h] at hn; exact hileaf hn
  have hleaf_all : ∀ n, g.at? n = some Op.leaf →
      upd s1.data i (f v1) n = s.data n := by
    intro n hn
    rw [upd_ne _ _ _ (hleaf_ne n hn)]
    exact h1l n hn
  have hmono : ∀ n, s1.ver n ≤ upd s1.ver i k n := by
    intro n
    by_cases h : n = i
    · rw [h, upd_same]
      rcases (h1m i).2 with h | h
      · rw [h]; omega
      · rw [h]
    · rw [upd_ne _ _ _ h]
  have hval : f v1 = denot g s.data i := by rw [hden, h1d]
  unfold RefreshPost StInv
  dsimp only [St.mk_data, St.mk_grad, St.mk_ver]
  refine ⟨hval, (upd_same _ _ _).symm, ?_, ?_, ?_, ?_, hleaf_all, ?_⟩
  · intro n hn
    obtain ⟨hd, hg, hv⟩ := h1f n hn
    have h := hne n hn
    exact ⟨(upd_ne _ _ _ h).trans hd, (upd_ne _ _ _ h).trans hg,
      (upd_ne _ _ _ h).trans hv⟩
  · intro n
    by_cases h : n = i
    · rw [h, upd_same]
      exact ⟨le_of_lt hstale, Or.inr rfl⟩
    · rw [upd_ne _ _ _ h]
      exact ⟨(h1m n).1, (h1m n).2⟩
  · intro n hn
    have h : n ≠ i := fun hh => hn (by rw [hh]; exact Reaches.refl i)
    have hna : ¬ Reaches g a n := fun hr =>
      hn (Reaches.step (by rw [hops]; simp) hr)
    obtain ⟨hd, hg, hv⟩ := h1u n hna
    exact ⟨(upd_ne _ _ _ h).trans hd, (upd_ne _ _ _ h).trans hg,
      (upd_ne _ _ _ h).trans hv⟩
  · intro n hn
    rcases hn.head_cases with h | ⟨j, hj, hr⟩
    · rw [h, upd_same]
    · rw [hops] at hj
      simp at hj
      rw [hj] at hr
      exact le_trans (h1r n hr) (hmono n)
  · intro n hn
    by_cases h : n = i
    · rw [h]
      refine ⟨?_, upd_same _ _ _, ?_⟩
      · rw [upd_same, denot_congr g hleaf_all i]
        exact hval
      · rw [hops]
        intro m hm
        simp at hm
        rw [hm]
        exact le_trans (h1r a (Reaches.refl a)) (hmono a)
    · rw [upd_ne _ _ _ h] at hn
      obtain ⟨hd, hg, hm⟩ := h1I n hn
      refine ⟨?_, (upd_ne _ _ _ h).trans hg, ?_⟩
      · rw [upd_ne _ _ _ h, hd]
        exact denot_congr g (fun m hm => (upd_ne _ _ _ (hleaf_ne m hm)).symm) n
      · intro m hmem
        exact le_trans (hm m hmem) (hmono m)

/-- Stale branch of a composite node with two operands (`Add`, `Mul`),
refreshing the left operand first as the source does. -/
theorem refresh_binary_post (g : Graph) (k : ℕ) {i l r : Nat} (s : St)
    (hops : g.operandsOf i = [l, r]) (hileaf : g.at? i ≠ some Op.leaf)
    (f : ℚ → ℚ → ℚ)
    (hden : ∀ d : Nat → ℚ, denot g d i = f (denot g d l) (denot g d r))
    {v1 : ℚ} {s1 : St} (h1 : RefreshPost g k l s v1 s1)
    {v2 : ℚ} {s2 : St} (h2 : RefreshPost g k r s1 v2 s2)
    (hstale : s.ver i < k) :
    RefreshPost g k i s (f v1 v2)
      ⟨upd s2.data i (f v1 v2), upd s2.grad i 0, upd s2.ver i k⟩ := by
  obtain ⟨h1d, h1o, h1f, h1m, h1u, h1r, h1l, h1I⟩ := h1
  obtain ⟨h2d, h2o, h2f, h2m, h2u, h2r, h2l, h2I⟩ := h2
  have hne : ∀ n, k ≤ s.ver n → n ≠ i := fun n hn h => by rw [h] at hn; omega
  have hleaf_ne : ∀ n, g.at? n = some Op.leaf → n ≠ i := fun n hn h => by
    rw [h] at hn; exact hileaf hn
  have hleaf_all : ∀ n, g.at? n = some Op.leaf →
      upd s2.data i (f v1 v2) n = s.data n := by
    intro n hn
    rw [upd_ne _ _ _ (hleaf_ne n hn), h2l n hn]
    exact h1l n hn
  have hmono2 : ∀ n, s2.ver n ≤ upd s2.ver i k n := by
    intro n
    by_cases h : n = i
    · rw [h, upd_same]
      rcases (h2m i).2 with h | h
      · rw [h]
        rcases (h1m i).2 with h1h | h1h
        · rw [h1h]; omega
        · rw [h1h]
      · rw [h]
    · rw [upd_ne _ _ _ h]
  have hval : f v1 v2 = denot g s.data i := by
    rw [h1d, h2d, hden s.data, denot_congr g (fun m hm => h1l m hm) r]
  unfold RefreshPost StInv
  dsimp only [St.mk_data, St.mk_grad, St.mk_ver]
  refine ⟨hval, (upd_same _ _ _).symm, ?_, ?_, ?_, ?_, hleaf_all, ?_⟩
  · intro n hn
    obtain ⟨hd1, hg1, hv1⟩ := h1f n hn
    have hn1 : k ≤ s1.ver n := by rw [hv1]; exact hn
    obtain ⟨hd2, hg2, hv2⟩ := h2f n hn1
    have h := hne n hn
    exact ⟨(upd_ne _ _ _ h).trans (hd2.trans hd1),
      (upd_ne _ _ _ h).trans (hg2.trans hg1),
      (upd_ne _ _ _ h).trans (hv2.trans hv1)⟩
  · intro n
    by_cases h : n = i
    · rw [h, upd_same]
      exact ⟨le_of_lt hstale, Or.inr rfl⟩
    · rw [upd_ne _ _ _ h]
      refine ⟨le_trans (h1m n).1 (h2m n).1, ?_⟩
      rcases (h2m n).2 with hh | hh
      · rcases (h1m n).2 with h1h | h1h
        · exact Or.inl (hh.trans h1h)
        · exact Or.inr (hh.trans h1h)
      · exact Or.inr hh
  · intro n hn
    have h : n ≠ i := fun hh => hn (by rw [hh]; exact Reaches.refl i)
    have hnl : ¬ Reaches g l n := fun hr =>
      hn (Reaches.step (by rw [hops]; simp) hr)
    have hnr : ¬ Reaches g r n := fun hr =>
      hn (Reaches.step (by rw [hops]; simp) hr)
    obtain ⟨hd1, hg1, hv1⟩ := h1u n hnl
    obtain ⟨hd2, hg2, hv2⟩ := h2u n hnr
    exact ⟨(upd_ne _ _ _ h).trans (hd2.trans hd1),
      (upd_ne _ _ _ h).trans (hg2.trans hg1),
      (upd_ne _ _ _ h).trans (hv2.trans hv1)⟩
  · intro n hn
    rcases hn.head_cases with h | ⟨j, hj, hr⟩
    · rw [h, upd_same]
    · rw [hops] at hj
      simp at hj
      rcases hj with hj | hj
      · rw [hj] at hr
        have hs1 : k ≤ s1.ver n := h1r n hr
        exact le_trans (le_trans hs1 (h2m n).1) (hmono2 n)
      · rw [hj] at hr
        exact le_trans (h2r n hr) (hmono2 n)
  · intro n hn
    by_cases h : n = i
    · rw [h]
      refine ⟨?_, upd_same _ _ _, ?_⟩
      · rw [upd_same, denot_congr g hleaf_all i]
        exact hval
      · rw [hops]
        intro m hm
        simp at hm
        rcases hm with hm | hm
        · rw [hm]
          have hs1 : k ≤ s1.ver l := h1r l (Reaches.refl l)
          exact le_trans (le_trans hs1 (h2m l).1) (hmono2 l)
        · rw [hm]
          exact le_trans (h2r r (Reaches.refl r)) (hmono2 r)
    · rw [upd_ne _ _ _ h] at hn
      obtain ⟨hd, hg, hm⟩ := h2I n hn
      refine ⟨?_, (upd_ne _ _ _ h).trans hg, ?_⟩
      · rw [upd_ne _ _ _ h, hd]
        exact denot_congr g (fun m hm => (upd_ne _ _ _ (hleaf_ne m hm)).symm) n
      · intro m hmem
        exact le_trans (hm m hmem) (hmono2 m)

/-- Full specification of the fuelled refresh on closed well-formed graphs. -/
theorem refreshGo_spec (g : Graph) (hc : g.Closed) (k : ℕ) : ∀ (fuel i : ℕ) (s : St),
    i < fuel → i < g.ops.length → StInv g k s →
    RefreshPost g k i s (refreshGo g k fuel i s).1 (refreshGo g k fuel i s).2 := by
  intro fuel
  induction fuel with
  | zero => intro i s h _ _; omega
  | succ fuel ih =>
    intro i s hif hi hinv
    cases hop : g.at? i with
    | none =>
      exfalso
      have : g.ops.length ≤ i := by
        simpa [Graph.at?, List.getElem?_eq_none_iff] using hop
      omega
    | some op =>
      have hne := hc.at_ne g hop
      cases op with
      | unknown => exact absurd rfl hne
      | leaf =>
        by_cases hv : s.ver i < k
        · have hred : refreshGo g k (fuel + 1) i s =
              (s.data i, ⟨s.data, upd s.grad i 0, upd s.ver i k⟩) := by
            simp only [refreshGo, hop]
            rw [if_pos hv]
          rw [hred]
          exact refresh_leaf_stale_post g k i s hop hv hinv
        · have hred : refreshGo g k (fuel + 1) i s = (s.data i, s) := by
            simp only [refreshGo, hop]
            rw [if_neg hv]
          rw [hred]
          exact refresh_cached_post g k i s (by omega) hinv
      | add l r =>
        have hl : l < i := g.operand_lt hop (by simp [Op.operands])
        have hr : r < i := g.operand_lt hop (by simp [Op.operands])
        have hops : g.operandsOf i = [l, r] := by
          rw [g.operandsOf_eq hop]; rfl
        have hileaf : g.at? i ≠ some Op.leaf := by rw [hop]; simp
        by_cases hv : k ≤ s.ver i
        · have hred : refreshGo g k (fuel + 1) i s = (s.data i, s) := by
            simp only [refreshGo, hop]
            rw [if_pos hv]
          rw [hred]
          exact refresh_cached_post g k i s hv hinv
        · have h1 := ih l s (by omega) (by omega) hinv
          have h2 := ih r (refreshGo g k fuel l s).2 (by omega) (by omega)
            h1.2.2.2.2.2.2.2
          have hred : refreshGo g k (fuel + 1) i s =
              ((refreshGo g k fuel l s).1 +
                 (refreshGo g k fuel r (refreshGo g k fuel l s).2).1,
               ⟨upd (refreshGo g k fuel r (refreshGo g k fuel l s).2).2.data i
                  ((refreshGo g k fuel l s).1 +
                   (refreshGo g k fuel r (refreshGo g k fuel l s).2).1),
                upd (refreshGo g k fuel r (refreshGo g k fuel l s).2).2.grad i 0,
                upd (refreshGo g k fuel r (refreshGo g k fuel l s).2).2.ver i k⟩) := by
            simp only [refreshGo, hop]
            rw [if_neg hv]
          rw [hred]
          exact refresh_binary_post g k s hops hileaf (fun x y => x + y)
            (fun d => denot_add g d hop) h1 h2 (by omega)
      | mul l r =>
        have hl : l < i := g.operand_lt hop (by simp [Op.operands])
        have hr : r < i := g.operand_lt hop (by simp [Op.operands])
        have hops : g.operandsOf i = [l, r] := by
          rw [g.operandsOf_eq hop]; rfl
        have hileaf : g.at? i ≠ some Op.leaf := by rw [hop]; simp
        by_cases hv : k ≤ s.ver i
        · have hred : refreshGo g k (fuel + 1) i s = (s.data i, s) := by
            simp only [refreshGo, hop]
            rw [if_pos hv]
          rw [hred]
          exact refresh_cached_post g k i s hv hinv
        · have h1 := ih l s (by omega) (by omega) hinv
          have h2 := ih r (refreshGo g k fuel l s).2 (by omega) (by omega)
            h1.2.2.2.2.2.2.2
          have hred : refreshGo g k (fuel + 1) i s =
              ((refreshGo g k fuel l s).1 *
                 (refreshGo g k fuel r (refreshGo g k fuel l s).2).1,
               ⟨upd (refreshGo g k fuel r (refreshGo g k fuel l s).2).2.data i
                  ((refreshGo g k fuel l s).1 *
                   (refreshGo g k fuel r (refreshGo g k fuel l s).2).1),
                upd (refreshGo g k fuel r (refreshGo g k fuel l s).2).2.grad i 0,
                upd (refreshGo g k fuel r (refreshGo g k fuel l s).2).2.ver i k⟩) := by
            simp only [refreshGo, hop]
            rw [if_neg hv]
          rw [hred]
          exact refresh_binary_post g k s hops hileaf (fun x y => x * y)
            (fun d => denot_mul g d hop) h1 h2 (by omega)
      | pow l e =>
        have hl : l < i := g.operand_lt hop (by simp [Op.operands])
        have hops : g.operandsOf i = [l] := by
          rw [g.operandsOf_eq hop]; rfl
        have hileaf : g.at? i ≠ some Op.leaf := by rw [hop]; simp
        by_cases hv : k ≤ s.ver i
        · have hred : refreshGo g k (fuel + 1) i s = (s.data i, s) := by
            simp only [refreshGo, hop]
            rw [if_pos hv]
          rw [hred]
          exact refresh_cached_post g k i s hv hinv
        · have h1 := ih l s (by omega) (by omega) hinv
          have hred : refreshGo g k (fuel + 1) i s =
              (zq (refreshGo g k fuel l s).1 e,
               ⟨upd (refreshGo g k fuel l s).2.data i (zq (refreshGo g k fuel l s).1 e),
                upd (refreshGo g k fuel l s).2.grad i 0,
                upd (refreshGo g k fuel l s).2.ver i k⟩) := by
            simp only [refreshGo, hop]
            rw [if_neg hv]
          rw [hred]
          exact refresh_unary_post g k s hops hileaf (fun x => zq x e)
            (fun d => denot_pow g d hop) h1 (by omega)
      | relu a =>
        have ha : a < i := g.operand_lt hop (by simp [Op.operands])
        have hops : g.operandsOf i = [a] := by
          rw [g.operandsOf_eq hop]; rfl
        have hileaf : g.at? i ≠ some Op.leaf := by rw [hop]; simp
        by_cases hv : k ≤ s.ver i
        · have hred : refreshGo g k (fuel + 1) i s = (s.data i, s) := by
            simp only [refreshGo, hop]
            rw [if_pos hv]
          rw [hred]
          exact refresh_cached_post g k i s hv hinv
        · have h1 := ih a s (by omega) (by omega) hinv
          have hred : refreshGo g k (fuel + 1) i s =
              ((if (refreshGo g k fuel a s).1 < 0 then 0 else (refreshGo g k fuel a s).1),
               ⟨upd (refreshGo g k fuel a s).2.data i
                  (if (refreshGo g k fuel a s).1 < 0 then 0 else (refreshGo g k fuel a s).1),
                upd (refreshGo g k fuel a s).2.grad i 0,
                upd (refreshGo g k fuel a s).2.ver i k⟩) := by
            simp only [refreshGo, hop]
            rw [if_neg hv]
          rw [hred]
          exact refresh_unary_post g k s hops hileaf (fun x => if x < 0 then 0 else x)
            (fun d => denot_relu g d hop) h1 (by omega)

/-- Specification of `refresh` itself. -/
theorem refresh_spec (g : Graph) (hc : g.Closed) (k : ℕ) (i : Nat) (s : St)
    (hi : i < g.ops.length) (hinv : StInv g k s) :
    RefreshPost g k i s (refresh g k i s).1 (refresh g k i s).2 :=
  refreshGo_spec g hc k (i + 1) i s (by omega) hi hinv

/-- Skip branch of `refresh`: a current version returns the cached `data`
and leaves the state untouched (no recursion, no grad reset). -/
theorem refresh_cached (g : Graph) (hc : g.Closed) (k : ℕ) (i : Nat) (s : St)
    (hi : i < g.ops.length) (hcur : k ≤ s.ver i) :
    refresh g k i s = (s.data i, s) := by
  unfold refresh
  cases hop : g.at? i with
  | none =>
    exfalso
    have : g.ops.length ≤ i := by
      simpa [Graph.at?, List.getElem?_eq_none_iff] using hop
    omega
  | some op =>
    have hne := hc.at_ne g hop
    cases op with
    | unknown => exact absurd rfl hne
    | leaf =>
      simp only [refreshGo, hop]
      rw [if_neg (by omega)]
    | add l r =>
      simp only [refreshGo, hop]
      rw [if_pos hcur]
    | mul l r =>
      simp only [refreshGo, hop]
      rw [if_pos hcur]
    | pow l e =>
      simp only [refreshGo, hop]
      rw [if_pos hcur]
    | relu a =>
      simp only [refreshGo, hop]
      rw [if_pos hcur]

/-- Any `refresh` call returns the node's stored `data` and leaves the node
current. -/
theorem refresh_stamps (g : Graph) (hc : g.Closed) (k : ℕ) (i : Nat) (s : St)
    (hi : i < g.ops.length) :
    (refresh g k i s).1 = (refresh g k i s).2.data i ∧
    k ≤ (refresh g k i s).2.ver i := by
  unfold refresh
  cases hop : g.at? i with
  | none =>
    exfalso
    have : g.ops.length ≤ i := by
      simpa [Graph.at?, List.getElem?_eq_none_iff] using hop
    omega
  | some op =>
    have hne := hc.at_ne g hop
    cases op with
    | unknown => exact absurd rfl hne
    | leaf =>
      simp only [refreshGo, hop]
      by_cases hv : s.ver i < k
      · rw [if_pos hv]
        exact ⟨rfl, by rw [St.mk_ver, upd_same]⟩
      · rw [if_neg hv]
        exact ⟨rfl, by show k ≤ s.ver i; omega⟩
    | add l r =>
      simp only [refreshGo, hop]
      by_cases hv : k ≤ s.ver i
      · rw [if_pos hv]; exact ⟨rfl, hv⟩
      · rw [if_neg hv]
        exact ⟨(upd_same _ _ _).symm, le_of_eq (upd_same _ _ _).symm⟩
    | mul l r =>
      simp only [refreshGo, hop]
      by_cases hv : k ≤ s.ver i
      · rw [if_pos hv]; exact ⟨rfl, hv⟩
      · rw [if_neg hv]
        exact ⟨(upd_same _ _ _).symm, le_of_eq (upd_same _ _ _).symm⟩
    | pow l e =>
      simp only [refreshGo, hop]
      by_cases hv : k ≤ s.ver i
      · rw [if_pos hv]; exact ⟨rfl, hv⟩
      · rw [if_neg hv]
        exact ⟨(upd_same _ _ _).symm, le_of_eq (upd_same _ _ _).symm⟩
    | relu a =>
      simp only [refreshGo, hop]
      by_cases hv : k ≤ s.ver i
      · rw [if_pos hv]; exact ⟨rfl, hv⟩
      · rw [if_neg hv]
        exact ⟨(upd_same _ _ _).symm, le_of_eq (upd_same _ _ _).symm⟩

/-- Claim C3: `refresh(k)` on a node whose stored version is already at
least `k` returns the cached `data` without touching any state (so two
calls with the same `k` return the same value); and when every version is
stale (`< k`, as after bumping the global version counter), it recomputes
every node reachable from the target exactly once — stamping it to `k`,
resetting its `grad` to `0.0`, storing the freshly recomputed value (the
denotation from current leaf data) — returns that value, and leaves every
unreachable node completely untouched. -/
theorem C3_refresh_idempotent_recompute (g : Graph) (k : ℕ) (i : Nat) (s : St)
    (hc : g.Closed) (hi : i < g.ops.length) :
    (k ≤ s.ver i → refresh g k i s = (s.data i, s)) ∧
    refresh g k i (refresh g k i s).2 = ((refresh g k i s).1, (refresh g k i s).2) ∧
    ((∀ n, s.ver n < k) →
      (refresh g k i s).1 = denot g s.data i ∧
      (∀ n, Reaches g i n →
        k ≤ (refresh g k i s).2.ver n ∧ (refresh g k i s).2.grad n = 0 ∧
        (refresh g k i s).2.data n = denot g s.data n) ∧
      (∀ n, ¬ Reaches g i n →
        (refresh g k i s).2.data n = s.data n ∧
        (refresh g k i s).2.grad n = s.grad n ∧
        (refresh g k i s).2.ver n = s.ver n)) := by
  refine ⟨fun hcur => refresh_cached g hc k i s hi hcur, ?_, ?_⟩
  · obtain ⟨hdata, hver⟩ := refresh_stamps g hc k i s hi
    rw [refresh_cached g hc k i (refresh g k i s).2 hi hver, hdata]
  · intro hstale
    have hinv : StInv g k s := by
      intro n hn
      exact absurd hn (by have := hstale n; omega)
    obtain ⟨hval, hown, hfresh, hmono, hout, hreach, hleaf, hinv2⟩ :=
      refresh_spec g hc k i s hi hinv
    refine ⟨hval, ?_, fun n hn => hout n hn⟩
    intro n hn
    have hv := hreach n hn
    obtain ⟨hd, hg, _⟩ := hinv2 n hv
    refine ⟨hv, hg, ?_⟩
    rw [hd]
    exact denot_congr g (fun m hm => hleaf m hm) n

/-- Witness for C3 at the concrete graph `y = x*x + x`, `x = 3`, `k = 1`. -/
theorem C3_refresh_idempotent_recompute_witness :
    (1 ≤ sW.ver 2 → refresh gW 1 2 sW = (sW.data 2, sW)) ∧
    refresh gW 1 2 (refresh gW 1 2 sW).2 = ((refresh gW 1 2 sW).1, (refresh gW 1 2 sW).2) ∧
    ((∀ n, sW.ver n < 1) →
      (refresh gW 1 2 sW).1 = denot gW sW.data 2 ∧
      (∀ n, Reaches gW 2 n →
        1 ≤ (refresh gW 1 2 sW).2.ver n ∧ (refresh gW 1 2 sW).2.grad n = 0 ∧
        (refresh gW 1 2 sW).2.data n = denot gW sW.data n) ∧
      (∀ n, ¬ Reaches gW 2 n →
        (refresh gW 1 2 sW).2.data n = sW.data n ∧
        (refresh gW 1 2 sW).2.grad n = sW.grad n ∧
        (refresh gW 1 2 sW).2.ver n = sW.ver n)) :=
  C3_refresh_idempotent_recompute gW 1 2 sW (by decide) (by decide)

/-! ### The graph compiler (`compile.py`)

The Python compiler emits the text of four procedures closed over flat
`v{slot}` / `g{slot}` registers and `exec`s it.  We model the generated
code semantically: slot assignment becomes an insertion-ordered association
list `value_map`, the emitted statements become a list of register
instructions interpreted by `Instr.run`, and the four procedures become
functions over the register file `CSt`. -/

/-- One generated statement of the compiled procedures.  `zeroG i` is
`g_i = 0.0`; `addF d l r` is `v_d = v_l + v_r` (similarly `mulF`, `powF`
with its baked-in literal exponent, `reluF`); `seedG i` is `g_i = 1.0`;
`addB c p` is `g_c += g_p`; `mulB c sib p` is `g_c += v_sib * g_p`;
`powB c p e` is `g_c += (e * v_c ** (e-1)) * g_p`; `reluB c p` is
`g_c += (v_p > 0.0) * g_p`; `updP p` is `v_p -= lr * g_p`. -/
inductive Instr where
  | zeroG (i : Nat) : Instr
  | addF (d l r : Nat) : Instr
  | mulF (d l r : Nat) : Instr
  | powF (d l : Nat) (e : ℤ) : Instr
  | reluF (d a : Nat) : Instr
  | seedG (i : Nat) : Instr
  | addB (c p : Nat) : Instr
  | mulB (c sib p : Nat) : Instr
  | powB (c p : Nat) (e : ℤ) : Instr
  | reluB (c p : Nat) : Instr
  | updP (p : Nat) : Instr
deriving DecidableEq, Repr

/-- The flat register file: value and gradient slots. -/
structure CSt where
  v : Nat → ℚ
  g : Nat → ℚ

@[simp]
theorem CSt.mk_v (a b : Nat → ℚ) : (CSt.mk a b).v = a := rfl

@[simp]
theorem CSt.mk_g (a b : Nat → ℚ) : (CSt.mk a b).g = b := rfl

/-- Semantics of one generated statement over the register file, with the
learning rate in scope (it is the parameter of the generated
`eval_model`). -/
def Instr.run (lr : ℚ) (c : CSt) : Instr → CSt
  | .zeroG i => ⟨c.v, upd c.g i 0⟩
  | .addF d l r => ⟨upd c.v d (c.v l + c.v r), c.g⟩
  | .mulF d l r => ⟨upd c.v d (c.v l * c.v r), c.g⟩
  | .powF d l e => ⟨upd c.v d (zq (c.v l) e), c.g⟩
  | .reluF d a => ⟨upd c.v d (if c.v a < 0 then 0 else c.v a), c.g⟩
  | .seedG i => ⟨c.v, upd c.g i 1⟩
  | .addB cs p => ⟨c.v, upd c.g cs (c.g cs + c.g p)⟩
  | .mulB cs sib p => ⟨c.v, upd c.g cs (c.g cs + c.v sib * c.g p)⟩
  | .powB cs p e => ⟨c.v, upd c.g cs (c.g cs + e * zq (c.v cs) (e - 1) * c.g p)⟩
  | .reluB cs p => ⟨c.v, upd c.g cs (c.g cs + (if 0 < c.v p then (1 : ℚ) else 0) * c.g p)⟩
  | .updP p => ⟨upd c.v p (c.v p - lr * c.g p), c.g⟩

/-- Run a straight-line block of generated statements. -/
def runInstrs (lr : ℚ) (c : CSt) (l : List Instr) : CSt :=
  l.foldl (fun c ins => ins.run lr c) c

/-- Ordered association-list lookup, modelling `value_map.get(node)`. -/
def lookupVM : List (Nat × Nat) → Nat → Option Nat
  | [], _ => none
  | (m, j) :: rest, n => if n = m then some j else lookupVM rest n

/-- Model of `get_index` (`compile.py` lines 15-19): return the node's slot
or assign the next dense slot `len(value_map)` on first encounter. -/
def getIndex (vm : List (Nat × Nat)) (n : Nat) : Nat × List (Nat × Nat) :=
  match lookupVM vm n with
  | some j => (j, vm)
  | none => (vm.length, vm ++ [(n, vm.length)])

/-- Model of the slot pre-assignment loops (`compile.py` lines 130-141):
parameters, then scores, then the loss get slots when not already mapped. -/
def preAssign (vm : List (Nat × Nat)) (ns : List Nat) : List (Nat × Nat) :=
  ns.foldl (fun vm n => (getIndex vm n).2) vm

/-- Code-generation state of the forward pass: the growing `value_map`, the
`visited` set and the statements emitted so far. -/
structure CG where
  vm : List (Nat × Nat)
  visited : List Nat
  instrs : List Instr

@[simp]
theorem CG.mk_vm (a : List (Nat × Nat)) (b : List Nat) (c : List Instr) :
    (CG.mk a b c).vm = a := rfl

@[simp]
theorem CG.mk_visited (a : List (Nat × Nat)) (b : List Nat) (c : List Instr) :
    (CG.mk a b c).visited = b := rfl

@[simp]
theorem CG.mk_instrs (a : List (Nat × Nat)) (b : List Nat) (c : List Instr) :
    (CG.mk a b c).instrs = c := rfl

/-- Compilation error: `compile.py` raises
`TypeError(f'unhandeled type of node {node!r}')`, naming the offending
node; the error value carries that node. -/
inductive CErr where
  | unhandeled (node : Nat) : CErr
deriving DecidableEq, Repr

/-- Fuelled model of the forward code generator `forward(node)`
(`compile.py` lines 21-74): mark visited, assign slots (node first, then
operands), recurse into operands (left before right), then emit the value
computation followed by the gradient zeroing; a `Value` leaf emits only the
gradient zeroing; any other node type raises. -/
def codegenFGo (g : Graph) : ℕ → Nat → CG → Except CErr CG
  | 0, i, _ => .error (.unhandeled i)
  | fuel + 1, i, st =>
    if i ∈ st.visited then .ok st
    else
      let st1 : CG := ⟨(getIndex st.vm i).2, i :: st.visited, st.instrs⟩
      let idx := (getIndex st.vm i).1
      match g.at? i with
      | some .leaf => .ok ⟨st1.vm, st1.visited, st1.instrs ++ [.zeroG idx]⟩
      | some (.add l r) =>
        let li := (getIndex st1.vm l).1
        let vm2 := (getIndex st1.vm l).2
        let ri := (getIndex vm2 r).1
        let vm3 := (getIndex vm2 r).2
        match codegenFGo g fuel l ⟨vm3, st1.visited, st1.instrs⟩ with
        | .error e => .error e
        | .ok st2 =>
          match codegenFGo g fuel r st2 with
          | .error e => .error e
          | .ok st3 =>
            .ok ⟨st3.vm, st3.visited, st3.instrs ++ [.addF idx li ri, .zeroG idx]⟩
      | some (.mul l r) =>
        let li := (getIndex st1.vm l).1
        let vm2 := (getIndex st1.vm l).2
        let ri := (getIndex vm2 r).1
        let vm3 := (getIndex vm2 r).2
        match codegenFGo g fuel l ⟨vm3, st1.visited, st1.instrs⟩ with
        | .error e => .error e
        | .ok st2 =>
          match codegenFGo g fuel r st2 with
          | .error e => .error e
          | .ok st3 =>
            .ok ⟨st3.vm, st3.visited, st3.instrs ++ [.mulF idx li ri, .zeroG idx]⟩
      | some (.pow l e) =>
        let li := (getIndex st1.vm l).1
        let vm2 := (getIndex st1.vm l).2
        match codegenFGo g fuel l ⟨vm2, st1.visited, st1.instrs⟩ with
        | .error er => .error er
        | .ok st2 =>
          .ok ⟨st2.vm, st2.visited, st2.instrs ++ [.powF idx li e, .zeroG idx]⟩
      | some (.relu a) =>
        let ai := (getIndex st1.vm a).1
        let vm2 := (getIndex st1.vm a).2
        match codegenFGo g fuel a ⟨vm2, st1.visited, st1.instrs⟩ with
        | .error e => .error e
        | .ok st2 =>
          .ok ⟨st2.vm, st2.visited, st2.instrs ++ [.reluF idx ai, .zeroG idx]⟩
      | some .unknown => .error (.unhandeled i)
      | none => .error (.unhandeled i)

/-- Statements emitted for one node of the backward loop of `backward(node)`
(`compile.py` lines 88-126), threading `get_index` state: a leaf emits
nothing; `Add`/`Mul`/`Pow`/`ReLU` emit their chain-rule accumulations; any
other node type raises. -/
def bwdNode (g : Graph) (vm : List (Nat × Nat)) (i : Nat) :
    Except CErr (List (Nat × Nat) × List Instr) :=
  let idx := (getIndex vm i).1
  let vm1 := (getIndex vm i).2
  match g.at? i with
  | some .leaf => .ok (vm1, [])
  | some (.add l r) =>
    let li := (getIndex vm1 l).1
    let vm2 := (getIndex vm1 l).2
    let ri := (getIndex vm2 r).1
    let vm3 := (getIndex vm2 r).2
    .ok (vm3, [.addB li idx, .addB ri idx])
  | some (.mul l r) =>
    let li := (getIndex vm1 l).1
    let vm2 := (getIndex vm1 l).2
    let ri := (getIndex vm2 r).1
    let vm3 := (getIndex vm2 r).2
    .ok (vm3, [.mulB li ri idx, .mulB ri li idx])
  | some (.pow l e) =>
    let li := (getIndex vm1 l).1
    let vm2 := (getIndex vm1 l).2
    .ok (vm2, [.powB li idx e])
  | some (.relu a) =>
    let ai := (getIndex vm1 a).1
    let vm2 := (getIndex vm1 a).2
    .ok (vm2, [.reluB ai idx])
  | some .unknown => .error (.unhandeled i)
  | none => .error (.unhandeled i)

/-- Loop of the backward code generator over the reversed topological
order, accumulating statements. -/
def codegenBGo (g : Graph) : List Nat → List (Nat × Nat) → List Instr →
    Except CErr (List (Nat × Nat) × List Instr)
  | [], vm, acc => .ok (vm, acc)
  | i :: rest, vm, acc =>
    match bwdNode g vm i with
    | .error e => .error e
    | .ok (vm2, ins) => codegenBGo g rest vm2 (acc ++ ins)

/-- Model of `backward(node)` of `compile.py` (lines 76-126): build the
topological order from the loss with the freshly cleared visited set, seed
the loss gradient slot with `1.0`, then emit per-node statements over the
reversed order. -/
def codegenB (g : Graph) (loss : Nat) (vm : List (Nat × Nat)) :
    Except CErr (List (Nat × Nat) × List Instr) :=
  let topo := buildTopo g loss
  let lidx := (getIndex vm loss).1
  let vm1 := (getIndex vm loss).2
  codegenBGo g topo.reverse vm1 [.seedG lidx]

/-- The compiled bundle: the final slot map, the statements of the fused
`eval_model` (forward block, backward block, update block), the slots of
the loss, scores and parameters, and the compile-time slot lookups of the
declared input nodes (`None` when an input got no slot). -/
structure Bundle where
  vm : List (Nat × Nat)
  fIns : List Instr
  bIns : List Instr
  updIns : List Instr
  lossSlot : Nat
  paramSlots : List Nat
  scoreSlots : List Nat
  inputSlots : List (Option Nat)
deriving Repr

/-- Slot of a node in the final map (`value_map[node]`; total because every
use in the generated code is preceded by assignment). -/
def slotOf (vm : List (Nat × Nat)) (n : Nat) : Nat := (lookupVM vm n).getD 0

/-- Model of `compile(model, scores, total_loss, inputs)` (`compile.py`
lines 6-238): pre-assign slots to parameters, scores and the loss; run the
forward code generator from the loss; run the backward code generator; then
assemble the bundle, whose update block applies
`v_p -= learning_rate * g_p` for every parameter in order. -/
def compile (g : Graph) (params scores : List Nat) (loss : Nat)
    (inputs : List Nat) : Except CErr Bundle :=
  let vm0 := preAssign (preAssign (preAssign [] params) scores) [loss]
  match codegenFGo g (loss + 1) loss ⟨vm0, [], []⟩ with
  | .error e => .error e
  | .ok stF =>
    match codegenB g loss stF.vm with
    | .error e => .error e
    | .ok (vm2, bIns) =>
      .ok { vm := vm2
          , fIns := stF.instrs
          , bIns := bIns
          , updIns := params.map (fun p => Instr.updP (slotOf vm2 p))
          , lossSlot := slotOf vm2 loss
          , paramSlots := params.map (slotOf vm2)
          , scoreSlots := scores.map (slotOf vm2)
          , inputSlots := inputs.map (lookupVM vm2) }

/-- Initial register file of the bundle (`compile.py` lines 158-164): every
slot is initialised with its node's `data` at compile time, every gradient
slot with `0.0`. -/
def initC (vm : List (Nat × Nat)) (d : Nat → ℚ) : CSt :=
  vm.foldl (fun c pr => ⟨upd c.v pr.2 (d pr.1), upd c.g pr.2 0⟩) ⟨fun _ => 0, fun _ => 0⟩

/-- The generated `eval_model(learning_rate)`: run the fused forward,
backward and update blocks, then return the loss slot's value. -/
def evalStep (b : Bundle) (lr : ℚ) (c : CSt) : ℚ × CSt :=
  let c1 := runInstrs lr c (b.fIns ++ b.bIns ++ b.updIns)
  (c1.v b.lossSlot, c1)

/-- The generated `get_scores()`. -/
def getScores (b : Bundle) (c : CSt) : List ℚ := b.scoreSlots.map c.v

/-- The generated `get_parameters()`. -/
def getParameters (b : Bundle) (c : CSt) : List (ℚ × ℚ) :=
  b.paramSlots.map (fun sl => (c.v sl, c.g sl))

/-- The generated `set_inputs(values)` (`compile.py` lines 195-222): the
supplied values are matched positionally against the declared input nodes;
positions whose node received a slot are rebound and their gradient slots
zeroed, the others are accepted and silently discarded. -/
def setInputs (b : Bundle) (values : List ℚ) (c : CSt) : CSt :=
  (b.inputSlots.zip values).foldl
    (fun c pr =>
      match pr.1 with
      | some sl => ⟨upd c.v sl pr.2, upd c.g sl 0⟩
      | none => c) c

/-- Repeated `eval_model` calls, collecting the returned losses. -/
def compiledRun (b : Bundle) (lr : ℚ) : ℕ → CSt → List ℚ × CSt
  | 0, c => ([], c)
  | n + 1, c =>
    let a := evalStep b lr c
    let rest := compiledRun b lr n a.2
    (a.1 :: rest.1, rest.2)

/-! ### The interpreted training step -/

/-- Manual gradient-descent update `p.data -= lr * p.grad` applied to every
parameter in order. -/
def updParams (params : List Nat) (lr : ℚ) (s : St) : St :=
  params.foldl (fun s p => ⟨upd s.data p (s.data p - lr * s.grad p), s.grad, s.ver⟩) s

/-- One step of the interpreted path: refresh the loss with the bumped
version counter `k`, run the backward pass from the loss, then apply the
manual parameter update; returns the refreshed loss value. -/
def interpStep (g : Graph) (root : Nat) (params : List Nat) (lr : ℚ) (k : ℕ)
    (s : St) : ℚ × St :=
  let a := refresh g k root s
  let s2 := backward g root a.2
  (a.1, updParams params lr s2)

/-- Repeated interpreted steps with the version counter bumped each step,
collecting the loss values. -/
def interpRun (g : Graph) (root : Nat) (params : List Nat) (lr : ℚ) :
    ℕ → ℕ → St → List ℚ × St
  | 0, _, s => ([], s)
  | n + 1, k, s =>
    let a := interpStep g root params lr k s
    let rest := interpRun g root params lr n (k + 1) a.2
    (a.1 :: rest.1, rest.2)

/-! ### Value-map lemmas -/

/-- Invariant of the slot map: slots are exactly `0, 1, 2, ...` in
insertion order and every node occurs at most once. -/
def VMok (vm : List (Nat × Nat)) : Prop :=
  vm.map Prod.snd = List.range vm.length ∧ (vm.map Prod.fst).Nodup

theorem VMok_nil : VMok [] := by constructor <;> simp

theorem lookupVM_mem : ∀ {vm : List (Nat × Nat)} {n j : Nat},
    lookupVM vm n = some j → (n, j) ∈ vm := by
  intro vm
  induction vm with
  | nil => intro n j h; simp [lookupVM] at h
  | cons hd tl ih =>
    intro n j h
    rw [lookupVM] at h
    by_cases hn : n = hd.1
    · rw [if_pos hn] at h
      simp at h
      exact List.mem_cons.mpr (Or.inl (by rw [hn, ← h]))
    · rw [if_neg hn] at h
      exact List.mem_cons_of_mem _ (ih h)

theorem lookupVM_isSome_of_mem : ∀ {vm : List (Nat × Nat)} {n j : Nat},
    (n, j) ∈ vm → lookupVM vm n ≠ none := by
  intro vm
  induction vm with
  | nil => intro n j h; simp at h
  | cons hd tl ih =>
    intro n j h
    rw [lookupVM]
    by_cases hn : n = hd.1
    · rw [if_pos hn]; simp
    · rw [if_neg hn]
      rcases List.mem_cons.mp h with h | h
      · exact absurd (by rw [← h] : n = hd.1) hn
      · exact ih h

theorem lookupVM_append_left : ∀ {vm : List (Nat × Nat)} {n j : Nat}
    (rest : List (Nat × Nat)), lookupVM vm n = some j →
    lookupVM (vm ++ rest) n = some j := by
  intro vm
  induction vm with
  | nil => intro n j rest h; simp [lookupVM] at h
  | cons hd tl ih =>
    intro n j rest h
    rw [lookupVM] at h
    rw [List.cons_append, lookupVM]
    by_cases hn : n = hd.1
    · rw [if_pos hn] at h ⊢; exact h
    · rw [if_neg hn] at h ⊢; exact ih rest h

/-- A fresh key looks up to the newly appended slot. -/
theorem lookupVM_append_self : ∀ {vm : List (Nat × Nat)} {n : Nat} (j : Nat),
    lookupVM vm n = none → lookupVM (vm ++ [(n, j)]) n = some j := by
  intro vm
  induction vm with
  | nil => intro n j _; simp [lookupVM]
  | cons hd tl ih =>
    intro n j h
    rw [lookupVM] at h
    rw [List.cons_append, lookupVM]
    by_cases hn : n = hd.1
    · rw [if_pos hn] at h; exact absurd h (by simp)
    · rw [if_neg hn] at h ⊢
      exact ih j h

theorem lookupVM_append_other : ∀ {vm : List (Nat × Nat)} {n m : Nat} (j : Nat),
    n ≠ m → lookupVM (vm ++ [(m, j)]) n = lookupVM vm n := by
  intro vm
  induction vm with
  | nil => intro n m j h; simp [lookupVM, h]
  | cons hd tl ih =>
    intro n m j h
    rw [List.cons_append, lookupVM, lookupVM]
    by_cases hn : n = hd.1
    · rw [if_pos hn, if_pos hn]
    · rw [if_neg hn, if_neg hn]
      exact ih j h

/-- `get_index` leaves existing entries alone. -/
theorem getIndex_extends {vm : List (Nat × Nat)} {n m j : Nat}
    (h : lookupVM vm m = some j) : lookupVM (getIndex vm n).2 m = some j := by
  unfold getIndex
  cases hl : lookupVM vm n with
  | some x => exact h
  | none => exact lookupVM_append_left _ h

/-- After `get_index`, the requested node maps to the returned slot. -/
theorem getIndex_lookup (vm : List (Nat × Nat)) (n : Nat) :
    lookupVM (getIndex vm n).2 n = some (getIndex vm n).1 := by
  unfold getIndex
  cases hl : lookupVM vm n with
  | some x => exact hl
  | none => exact lookupVM_append_self _ hl

/-- `get_index` preserves the slot-map invariant. -/
theorem getIndex_VMok {vm : List (Nat × Nat)} (n : Nat) (h : VMok vm) :
    VMok (getIndex vm n).2 := by
  unfold getIndex
  cases hl : lookupVM vm n with
  | some x => exact h
  | none =>
    obtain ⟨hr, hn⟩ := h
    constructor
    · rw [List.map_append, hr]
      simp [List.range_succ]
    · rw [List.map_append]
      simp only [List.map_cons, List.map_nil]
      apply List.Nodup.append hn (by simp)
      intro x hx hy
      simp at hy
      rw [hy] at hx
      have : lookupVM vm n ≠ none := by
        rcases List.mem_map.mp hx with ⟨⟨a, b⟩, hab, hfst⟩
        simp at hfst
        exact lookupVM_isSome_of_mem (hfst ▸ hab)
      exact this hl

/-- Keys of the slot map resolve injectively to slots. -/
theorem lookupVM_inj {vm : List (Nat × Nat)} (h : VMok vm) {a b x : Nat}
    (ha : lookupVM vm a = some x) (hb : lookupVM vm b = some x) : a = b := by
  have hma := lookupVM_mem ha
  have hmb := lookupVM_mem hb
  obtain ⟨hr, _⟩ := h
  have hsnd : (vm.map Prod.snd).Nodup := by rw [hr]; exact List.nodup_range _
  have := List.inj_on_of_nodup_map hsnd hma hmb (by simp)
  simpa using congrArg Prod.fst this

/-- `preAssign` leaves existing entries alone. -/
theorem preAssign_extends {ns : List Nat} : ∀ {vm : List (Nat × Nat)} {m j : Nat},
    lookupVM vm m = some j → lookupVM (preAssign vm ns) m = some j := by
  induction ns with
  | nil => intro vm m j h; exact h
  | cons hd tl ih =>
    intro vm m j h
    exact ih (getIndex_extends h)

theorem preAssign_VMok {ns : List Nat} : ∀ {vm : List (Nat × Nat)}, VMok vm →
    VMok (preAssign vm ns) := by
  induction ns with
  | nil => intro vm h; exact h
  | cons hd tl ih => intro vm h; exact ih (getIndex_VMok hd h)

/-- Every pre-assigned node has a slot. -/
theorem preAssign_mem {ns : List Nat} : ∀ {vm : List (Nat × Nat)} {n : Nat}, n ∈ ns →
    lookupVM (preAssign vm ns) n ≠ none := by
  induction ns with
  | nil => intro vm n h; simp at h
  | cons hd tl ih =>
    intro vm n h
    rcases List.mem_cons.mp h with h | h
    · rw [h]
      show lookupVM (preAssign (getIndex vm hd).2 tl) hd ≠ none
      rw [@preAssign_extends tl _ _ _ (getIndex_lookup vm hd)]
      simp
    · exact ih h

/-- Nodes with a slot keep their slot under `preAssign`. -/
theorem preAssign_dom_mono {ns : List Nat} {vm : List (Nat × Nat)} {n : Nat}
    (h : lookupVM vm n ≠ none) : lookupVM (preAssign vm ns) n ≠ none := by
  cases hl : lookupVM vm n with
  | none => exact absurd hl h
  | some j =>
    rw [preAssign_extends hl]
    simp

/-- Register slots mentioned by a generated statement. -/
def Instr.slots : Instr → List Nat
  | .zeroG i => [i]
  | .addF d l r => [d, l, r]
  | .mulF d l r => [d, l, r]
  | .powF d l _ => [d, l]
  | .reluF d a => [d, a]
  | .seedG i => [i]
  | .addB c p => [c, p]
  | .mulB c sib p => [c, sib, p]
  | .powB c p _ => [c, p]
  | .reluB c p => [c, p]
  | .updP p => [p]

theorem Graph.at_lt (g : Graph) {i : Nat} {op : Op} (h : g.at? i = some op) :
    i < g.ops.length := by
  by_contra hlt
  rw [Graph.at?, List.getElem?_eq_none_iff.mpr (by omega)] at h
  exact Option.noConfusion h

/-- Reachable nodes of an in-arena node are in the arena. -/
theorem Reaches.lt_length {g : Graph} {i j : Nat} (h : Reaches g i j)
    (hi : i < g.ops.length) : j < g.ops.length := by
  induction h with
  | refl => exact hi
  | step hj hr ih =>
    obtain ⟨op, hop, hmem⟩ := g.operandsOf_mem hj
    exact ih (g.operand_lt_length hop (g.at_lt hop) hmem)

/-- Static facts about a successful forward code generation from node `i`:
emitted statements are appended and mention only assigned slots, the slot
map only grows (keeping its invariant), the visited set only grows and now
holds `i`, newly visited nodes are reachable from `i` and carry a supported
operator, every visited node except the grey set `G` has all operands
visited, and every visited node has a slot. -/
theorem codegenFGo_static (g : Graph) : ∀ (fuel i : ℕ) (st st2 : CG) (G : List Nat),
    i < fuel →
    codegenFGo g fuel i st = .ok st2 →
    (∀ x ∈ st.visited, x ∈ G ∨ ∀ c ∈ g.operandsOf x, c ∈ st.visited) →
    (∀ x ∈ st.visited, lookupVM st.vm x ≠ none) →
    (∃ Δ, st2.instrs = st.instrs ++ Δ ∧
      ∀ ins ∈ Δ, ∀ sl ∈ ins.slots, ∃ n2, lookupVM st2.vm n2 = some sl) ∧
    (∀ m j, lookupVM st.vm m = some j → lookupVM st2.vm m = some j) ∧
    (VMok st.vm → VMok st2.vm) ∧
    (∀ x ∈ st.visited, x ∈ st2.visited) ∧
    i ∈ st2.visited ∧
    (∀ x ∈ st2.visited, x ∈ st.visited ∨
      (Reaches g i x ∧ ∃ op, g.at? x = some op ∧ op ≠ Op.unknown)) ∧
    (∀ x ∈ st2.visited, x ∈ G ∨ ∀ c ∈ g.operandsOf x, c ∈ st2.visited) ∧
    (∀ x ∈ st2.visited, lookupVM st2.vm x ≠ none) := by
  intro fuel
  induction fuel with
  | zero => intro i st st2 G h hok; exact absurd hok (by simp [codegenFGo])
  | succ fuel ih =>
    intro i st st2 G hif hok hGc hdom
    by_cases hiv : i ∈ st.visited
    · rw [codegenFGo, if_pos hiv] at hok
      simp at hok
      rw [← hok]
      refine ⟨⟨[], by simp, by simp⟩, fun m j h => h, fun h => h, fun x hx => hx,
        hiv, fun x hx => Or.inl hx, hGc, hdom⟩
    · rw [codegenFGo, if_neg hiv] at hok
      have hidx := getIndex_lookup st.vm i
      cases hop : g.at? i with
      | none => rw [hop] at hok; exact absurd hok (by simp)
      | some op =>
        have hdom1 : ∀ x ∈ i :: st.visited, lookupVM (getIndex st.vm i).2 x ≠ none := by
          intro x hx
          rcases List.mem_cons.mp hx with hx | hx
          · rw [hx, hidx]; simp
          · cases hl : lookupVM st.vm x with
            | none => exact absurd hl (hdom x hx)
            | some j => rw [getIndex_extends hl]; simp
        cases op with
        | unknown => rw [hop] at hok; exact absurd hok (by simp)
        | leaf =>
          rw [hop] at hok
          simp at hok
          rw [← hok]
          refine ⟨⟨[Instr.zeroG (getIndex st.vm i).1], by simp, ?_⟩,
            fun m j h => getIndex_extends h, fun h => getIndex_VMok i h,
            fun x hx => List.mem_cons_of_mem _ hx, List.mem_cons_self _ _,
            ?_, ?_, hdom1⟩
          · intro ins hins sl hsl
            simp at hins
            rw [hins] at hsl
            simp [Instr.slots] at hsl
            exact ⟨i, by rw [hsl]; exact hidx⟩
          · intro x hx
            rcases List.mem_cons.mp hx with hx | hx
            · rw [hx]
              exact Or.inr ⟨Reaches.refl i, Op.leaf, hop, by simp⟩
            · exact Or.inl hx
          · intro x hx
            rcases List.mem_cons.mp hx with hx | hx
            · refine Or.inr ?_
              rw [hx, g.operandsOf_eq hop]
              intro c hc
              simp [Op.operands] at hc
            · rcases hGc x hx with h | h
              · exact Or.inl h
              · exact Or.inr fun c hc => List.mem_cons_of_mem _ (h c hc)
        | add l r =>
          rw [hop] at hok
          have hl : l < i := g.operand_lt hop (by simp [Op.operands])
          have hr : r < i := g.operand_lt hop (by simp [Op.operands])
          have hops : g.operandsOf i = [l, r] := by rw [g.operandsOf_eq hop]; rfl
          simp only at hok
          cases hok1 : codegenFGo g fuel l
              ⟨(getIndex (getIndex (getIndex st.vm i).2 l).2 r).2, i :: st.visited,
               st.instrs⟩ with
          | error e => rw [hok1] at hok; exact absurd hok (by simp)
          | ok stl =>
            rw [hok1] at hok
            dsimp only at hok
            cases hok2 : codegenFGo g fuel r stl with
            | error e => rw [hok2] at hok; exact absurd hok (by simp)
            | ok str =>
              rw [hok2] at hok
              simp at hok
              have hGc1 : ∀ x ∈ i :: st.visited, x ∈ i :: G ∨
                  ∀ c ∈ g.operandsOf x, c ∈ i :: st.visited := by
                intro x hx
                rcases List.mem_cons.mp hx with hx | hx
                · exact Or.inl (by simp [hx])
                · rcases hGc x hx with h | h
                  · exact Or.inl (List.mem_cons_of_mem _ h)
                  · exact Or.inr fun c hc => List.mem_cons_of_mem _ (h c hc)
              have hdom2 : ∀ x ∈ i :: st.visited,
                  lookupVM (getIndex (getIndex (getIndex st.vm i).2 l).2 r).2 x ≠ none := by
                intro x hx
                cases hlk : lookupVM (getIndex st.vm i).2 x with
                | none => exact absurd hlk (hdom1 x hx)
                | some j =>
                  rw [getIndex_extends (getIndex_extends hlk)]
                  simp
              obtain ⟨⟨Δ1, hi1, hs1⟩, hb1, hc1, hd1, he1, hf1, hg1, hh1⟩ :=
                ih l _ stl (i :: G) (by omega) hok1 (by simpa using hGc1)
                  (by simpa using hdom2)
              obtain ⟨⟨Δ2, hi2, hs2⟩, hb2, hc2, hd2, he2, hf2, hg2, hh2⟩ :=
                ih r stl str (i :: G) (by omega) hok2 hg1 hh1
              rw [← hok]
              have hvm_i : lookupVM str.vm i = some (getIndex st.vm i).1 :=
                hb2 _ _ (hb1 _ _ (getIndex_extends (getIndex_extends hidx)))
              have hvm_l : lookupVM str.vm l =
                  some (getIndex (getIndex st.vm i).2 l).1 :=
                hb2 _ _ (hb1 _ _ (getIndex_extends (getIndex_lookup _ l)))
              have hvm_r : lookupVM str.vm r =
                  some (getIndex (getIndex (getIndex st.vm i).2 l).2 r).1 :=
                hb2 _ _ (hb1 _ _ (getIndex_lookup _ r))
              refine ⟨⟨Δ1 ++ Δ2 ++ [Instr.addF (getIndex st.vm i).1
                  (getIndex (getIndex st.vm i).2 l).1
                  (getIndex (getIndex (getIndex st.vm i).2 l).2 r).1,
                  Instr.zeroG (getIndex st.vm i).1], ?_, ?_⟩, ?_, ?_, ?_, ?_, ?_, ?_, ?_⟩
              · rw [hi2, hi1]; simp
              · intro ins hins sl hsl
                rcases List.mem_append.mp hins with hins | hins
                · rcases List.mem_append.mp hins with hins | hins
                  · obtain ⟨n2, hn2⟩ := hs1 ins hins sl hsl
                    exact ⟨n2, hb2 _ _ hn2⟩
                  · exact hs2 ins hins sl hsl
                · simp at hins
                  rcases hins with hins | hins <;> rw [hins] at hsl <;>
                    simp [Instr.slots] at hsl
                  · rcases hsl with hsl | hsl | hsl
                    · exact ⟨i, by rw [hsl]; exact hvm_i⟩
                    · exact ⟨l, by rw [hsl]; exact hvm_l⟩
                    · exact ⟨r, by rw [hsl]; exact hvm_r⟩
                  · exact ⟨i, by rw [hsl]; exact hvm_i⟩
              · intro m j h
                exact hb2 _ _ (hb1 _ _ (getIndex_extends (getIndex_extends
                  (getIndex_extends h))))
              · intro h
                exact hc2 (hc1 (getIndex_VMok r (getIndex_VMok l (getIndex_VMok i h))))
              · intro x hx
                exact hd2 _ (hd1 _ (List.mem_cons_of_mem _ hx))
              · exact hd2 _ (hd1 _ (List.mem_cons_self _ _))
              · intro x hx
                rcases hf2 x hx with hx2 | hx2
                · rcases hf1 x hx2 with hx1 | hx1
                  · rcases List.mem_cons.mp hx1 with hx1 | hx1
                    · rw [hx1]
                      exact Or.inr ⟨Reaches.refl i, Op.add l r, hop, by simp⟩
                    · exact Or.inl hx1
                  · refine Or.inr ⟨Reaches.step (by rw [hops]; simp) hx1.1, hx1.2⟩
                · refine Or.inr ⟨Reaches.step (by rw [hops]; simp) hx2.1, hx2.2⟩
              · intro x hx
                rcases hg2 x hx with hxg | hxg
                · rcases List.mem_cons.mp hxg with hxg | hxg
                  · refine Or.inr ?_
                    rw [hxg, hops]
                    intro c hc
                    simp at hc
                    rcases hc with hc | hc
                    · rw [hc]; exact hd2 _ he1
                    · rw [hc]; exact he2
                  · exact Or.inl hxg
                · exact Or.inr hxg
              · exact hh2
        | mul l r =>
          rw [hop] at hok
          have hl : l < i := g.operand_lt hop (by simp [Op.operands])
          have hr : r < i := g.operand_lt hop (by simp [Op.operands])
          have hops : g.operandsOf i = [l, r] := by rw [g.operandsOf_eq hop]; rfl
          simp only at hok
          cases hok1 : codegenFGo g fuel l
              ⟨(getIndex (getIndex (getIndex st.vm i).2 l).2 r).2, i :: st.visited,
               st.instrs⟩ with
          | error e => rw [hok1] at hok; exact absurd hok (by simp)
          | ok stl =>
            rw [hok1] at hok
            dsimp only at hok
            cases hok2 : codegenFGo g fuel r stl with
            | error e => rw [hok2] at hok; exact absurd hok (by simp)
            | ok str =>
              rw [hok2] at hok
              simp at hok
              have hGc1 : ∀ x ∈ i :: st.visited, x ∈ i :: G ∨
                  ∀ c ∈ g.operandsOf x, c ∈ i :: st.visited := by
                intro x hx
                rcases List.mem_cons.mp hx with hx | hx
                · exact Or.inl (by simp [hx])
                · rcases hGc x hx with h | h
                  · exact Or.inl (List.mem_cons_of_mem _ h)
                  · exact Or.inr fun c hc => List.mem_cons_of_mem _ (h c hc)
              have hdom2 : ∀ x ∈ i :: st.visited,
                  lookupVM (getIndex (getIndex (getIndex st.vm i).2 l).2 r).2 x ≠ none := by
                intro x hx
                cases hlk : lookupVM (getIndex st.vm i).2 x with
                | none => exact absurd hlk (hdom1 x hx)
                | some j =>
                  rw [getIndex_extends (getIndex_extends hlk)]
                  simp
              obtain ⟨⟨Δ1, hi1, hs1⟩, hb1, hc1, hd1, he1, hf1, hg1, hh1⟩ :=
                ih l _ stl (i :: G) (by omega) hok1 (by simpa using hGc1)
                  (by simpa using hdom2)
              obtain ⟨⟨Δ2, hi2, hs2⟩, hb2, hc2, hd2, he2, hf2, hg2, hh2⟩ :=
                ih r stl str (i :: G) (by omega) hok2 hg1 hh1
              rw [← hok]
              have hvm_i : lookupVM str.vm i = some (getIndex st.vm i).1 :=
                hb2 _ _ (hb1 _ _ (getIndex_extends (getIndex_extends hidx)))
              have hvm_l : lookupVM str.vm l =
                  some (getIndex (getIndex st.vm i).2 l).1 :=
                hb2 _ _ (hb1 _ _ (getIndex_extends (getIndex_lookup _ l)))
              have hvm_r : lookupVM str.vm r =
                  some (getIndex (getIndex (getIndex st.vm i).2 l).2 r).1 :=
                hb2 _ _ (hb1 _ _ (getIndex_lookup _ r))
              refine ⟨⟨Δ1 ++ Δ2 ++ [Instr.mulF (getIndex st.vm i).1
                  (getIndex (getIndex st.vm i).2 l).1
                  (getIndex (getIndex (getIndex st.vm i).2 l).2 r).1,
                  Instr.zeroG (getIndex st.vm i).1], ?_, ?_⟩, ?_, ?_, ?_, ?_, ?_, ?_, ?_⟩
              · rw [hi2, hi1]; simp
              · intro ins hins sl hsl
                rcases List.mem_append.mp hins with hins | hins
                · rcases List.mem_append.mp hins with hins | hins
                  · obtain ⟨n2, hn2⟩ := hs1 ins hins sl hsl
                    exact ⟨n2, hb2 _ _ hn2⟩
                  · exact hs2 ins hins sl hsl
                · simp at hins
                  rcases hins with hins | hins <;> rw [hins] at hsl <;>
                    simp [Instr.slots] at hsl
                  · rcases hsl with hsl | hsl | hsl
                    · exact ⟨i, by rw [hsl]; exact hvm_i⟩
                    · exact ⟨l, by rw [hsl]; exact hvm_l⟩
                    · exact ⟨r, by rw [hsl]; exact hvm_r⟩
                  · exact ⟨i, by rw [hsl]; exact hvm_i⟩
              · intro m j h
                exact hb2 _ _ (hb1 _ _ (getIndex_extends (getIndex_extends
                  (getIndex_extends h))))
              · intro h
                exact hc2 (hc1 (getIndex_VMok r (getIndex_VMok l (getIndex_VMok i h))))
              · intro x hx
                exact hd2 _ (hd1 _ (List.mem_cons_of_mem _ hx))
              · exact hd2 _ (hd1 _ (List.mem_cons_self _ _))
              · intro x hx
                rcases hf2 x hx with hx2 | hx2
                · rcases hf1 x hx2 with hx1 | hx1
                  · rcases List.mem_cons.mp hx1 with hx1 | hx1
                    · rw [hx1]
                      exact Or.inr ⟨Reaches.refl i, Op.mul l r, hop, by simp⟩
                    · exact Or.inl hx1
                  · refine Or.inr ⟨Reaches.step (by rw [hops]; simp) hx1.1, hx1.2⟩
                · refine Or.inr ⟨Reaches.step (by rw [hops]; simp) hx2.1, hx2.2⟩
              · intro x hx
                rcases hg2 x hx with hxg | hxg
                · rcases List.mem_cons.mp hxg with hxg | hxg
                  · refine Or.inr ?_
                    rw [hxg, hops]
                    intro c hc
                    simp at hc
                    rcases hc with hc | hc
                    · rw [hc]; exact hd2 _ he1
                    · rw [hc]; exact he2
                  · exact Or.inl hxg
                · exact Or.inr hxg
              · exact hh2
        | pow l e =>
          rw [hop] at hok
          have hl : l < i := g.operand_lt hop (by simp [Op.operands])
          have hops : g.operandsOf i = [l] := by rw [g.operandsOf_eq hop]; rfl
          simp only at hok
          cases hok1 : codegenFGo g fuel l
              ⟨(getIndex (getIndex st.vm i).2 l).2, i :: st.visited, st.instrs⟩ with
          | error er => rw [hok1] at hok; exact absurd hok (by simp)
          | ok stl =>
            rw [hok1] at hok
            simp at hok
            have hGc1 : ∀ x ∈ i :: st.visited, x ∈ i :: G ∨
                ∀ c ∈ g.operandsOf x, c ∈ i :: st.visited := by
              intro x hx
              rcases List.mem_cons.mp hx with hx | hx
              · exact Or.inl (by simp [hx])
              · rcases hGc x hx with h | h
                · exact Or.inl (List.mem_cons_of_mem _ h)
                · exact Or.inr fun c hc => List.mem_cons_of_mem _ (h c hc)
            have hdom2 : ∀ x ∈ i :: st.visited,
                lookupVM (getIndex (getIndex st.vm i).2 l).2 x ≠ none := by
              intro x hx
              cases hlk : lookupVM (getIndex st.vm i).2 x with
              | none => exact absurd hlk (hdom1 x hx)
              | some j =>
                rw [getIndex_extends hlk]
                simp
            obtain ⟨⟨Δ1, hi1, hs1⟩, hb1, hc1, hd1, he1, hf1, hg1, hh1⟩ :=
              ih l _ stl (i :: G) (by omega) hok1 (by simpa using hGc1)
                (by simpa using hdom2)
            rw [← hok]
            have hvm_i : lookupVM stl.vm i = some (getIndex st.vm i).1 :=
              hb1 _ _ (getIndex_extends hidx)
            have hvm_l : lookupVM stl.vm l = some (getIndex (getIndex st.vm i).2 l).1 :=
              hb1 _ _ (getIndex_lookup _ l)
            refine ⟨⟨Δ1 ++ [Instr.powF (getIndex st.vm i).1
                (getIndex (getIndex st.vm i).2 l).1 e,
                Instr.zeroG (getIndex st.vm i).1], ?_, ?_⟩, ?_, ?_, ?_, ?_, ?_, ?_, ?_⟩
            · rw [hi1]; simp
            · intro ins hins sl hsl
              rcases List.mem_append.mp hins with hins | hins
              · exact hs1 ins hins sl hsl
              · simp at hins
                rcases hins with hins | hins <;> rw [hins] at hsl <;>
                  simp [Instr.slots] at hsl
                · rcases hsl with hsl | hsl
                  · exact ⟨i, by rw [hsl]; exact hvm_i⟩
                  · exact ⟨l, by rw [hsl]; exact hvm_l⟩
                · exact ⟨i, by rw [hsl]; exact hvm_i⟩
            · intro m j h
              exact hb1 _ _ (getIndex_extends (getIndex_extends h))
            · intro h
              exact hc1 (getIndex_VMok l (getIndex_VMok i h))
            · intro x hx
              exact hd1 _ (List.mem_cons_of_mem _ hx)
            · exact hd1 _ (List.mem_cons_self _ _)
            · intro x hx
              rcases hf1 x hx with hx1 | hx1
              · rcases List.mem_cons.mp hx1 with hx1 | hx1
                · rw [hx1]
                  exact Or.inr ⟨Reaches.refl i, Op.pow l e, hop, by simp⟩
                · exact Or.inl hx1
              · refine Or.inr ⟨Reaches.step (by rw [hops]; simp) hx1.1, hx1.2⟩
            · intro x hx
              rcases hg1 x hx with hxg | hxg
              · rcases List.mem_cons.mp hxg with hxg | hxg
                · refine Or.inr ?_
                  rw [hxg, hops]
                  intro c hc
                  simp at hc
                  rw [hc]
                  exact he1
                · exact Or.inl hxg
              · exact Or.inr hxg
            · exact hh1
        | relu a =>
          rw [hop] at hok
          have hl : a < i := g.operand_lt hop (by simp [Op.operands])
          have hops : g.operandsOf i = [a] := by rw [g.operandsOf_eq hop]; rfl
          simp only at hok
          cases hok1 : codegenFGo g fuel a
              ⟨(getIndex (getIndex st.vm i).2 a).2, i :: st.visited, st.instrs⟩ with
          | error e => rw [hok1] at hok; exact absurd hok (by simp)
          | ok stl =>
            rw [hok1] at hok
            simp at hok
            have hGc1 : ∀ x ∈ i :: st.visited, x ∈ i :: G ∨
                ∀ c ∈ g.operandsOf x, c ∈ i :: st.visited := by
              intro x hx
              rcases List.mem_cons.mp hx with hx | hx
              · exact Or.inl (by simp [hx])
              · rcases hGc x hx with h | h
                · exact Or.inl (List.mem_cons_of_mem _ h)
                · exact Or.inr fun c hc => List.mem_cons_of_mem _ (h c hc)
            have hdom2 : ∀ x ∈ i :: st.visited,
                lookupVM (getIndex (getIndex st.vm i).2 a).2 x ≠ none := by
              intro x hx
              cases hlk : lookupVM (getIndex st.vm i).2 x with
              | none => exact absurd hlk (hdom1 x hx)
              | some j =>
                rw [getIndex_extends hlk]
                simp
            obtain ⟨⟨Δ1, hi1, hs1⟩, hb1, hc1, hd1, he1, hf1, hg1, hh1⟩ :=
              ih a _ stl (i :: G) (by omega) hok1 (by simpa using hGc1)
                (by simpa using hdom2)
            rw [← hok]
            have hvm_i : lookupVM stl.vm i = some (getIndex st.vm i).1 :=
              hb1 _ _ (getIndex_extends hidx)
            have hvm_a : lookupVM stl.vm a = some (getIndex (getIndex st.vm i).2 a).1 :=
              hb1 _ _ (getIndex_lookup _ a)
            refine ⟨⟨Δ1 ++ [Instr.reluF (getIndex st.vm i).1
                (getIndex (getIndex st.vm i).2 a).1,
                Instr.zeroG (getIndex st.vm i).1], ?_, ?_⟩, ?_, ?_, ?_, ?_, ?_, ?_, ?_⟩
            · rw [hi1]; simp
            · intro ins hins sl hsl
              rcases List.mem_append.mp hins with hins | hins
              · exact hs1 ins hins sl hsl
              · simp at hins
                rcases hins with hins | hins <;> rw [hins] at hsl <;>
                  simp [Instr.slots] at hsl
                · rcases hsl with hsl | hsl
                  · exact ⟨i, by rw [hsl]; exact hvm_i⟩
                  · exact ⟨a, by rw [hsl]; exact hvm_a⟩
                · exact ⟨i, by rw [hsl]; exact hvm_i⟩
            · intro m j h
              exact hb1 _ _ (getIndex_extends (getIndex_extends h))
            · intro h
              exact hc1 (getIndex_VMok a (getIndex_VMok i h))
            · intro x hx
              exact hd1 _ (List.mem_cons_of_mem _ hx)
            · exact hd1 _ (List.mem_cons_self _ _)
            · intro x hx
              rcases hf1 x hx with hx1 | hx1
              · rcases List.mem_cons.mp hx1 with hx1 | hx1
                · rw [hx1]
                  exact Or.inr ⟨Reaches.refl i, Op.relu a, hop, by simp⟩
                · exact Or.inl hx1
              · refine Or.inr ⟨Reaches.step (by rw [hops]; simp) hx1.1, hx1.2⟩
            · intro x hx
              rcases hg1 x hx with hxg | hxg
              · rcases List.mem_cons.mp hxg with hxg | hxg
                · refine Or.inr ?_
                  rw [hxg, hops]
                  intro c hc
                  simp at hc
                  rw [hc]
                  exact he1
                · exact Or.inl hxg
              · exact Or.inr hxg
            · exact hh1

/-- On closed graphs forward code generation always succeeds. -/
theorem codegenFGo_ok (g : Graph) (hc : g.Closed) : ∀ (fuel i : ℕ) (st : CG),
    i < fuel → i < g.ops.length → ∃ st2, codegenFGo g fuel i st = .ok st2 := by
  intro fuel
  induction fuel with
  | zero => intro i st h _; omega
  | succ fuel ih =>
    intro i st hif hi
    by_cases hiv : i ∈ st.visited
    · exact ⟨st, by rw [codegenFGo, if_pos hiv]⟩
    · cases hop : g.at? i with
      | none =>
        exfalso
        have : g.ops.length ≤ i := by
          simpa [Graph.at?, List.getElem?_eq_none_iff] using hop
        omega
      | some op =>
        have hne := hc.at_ne g hop
        cases op with
        | unknown => exact absurd rfl hne
        | leaf => exact ⟨_, by rw [codegenFGo, if_neg hiv, hop]⟩
        | add l r =>
          have hll : l < i := g.operand_lt hop (by simp [Op.operands])
          have hrl : r < i := g.operand_lt hop (by simp [Op.operands])
          obtain ⟨stl, hok1⟩ := ih l
            ⟨(getIndex (getIndex (getIndex st.vm i).2 l).2 r).2, i :: st.visited,
             st.instrs⟩ (by omega) (by omega)
          obtain ⟨str, hok2⟩ := ih r stl (by omega) (by omega)
          refine ⟨⟨str.vm, str.visited, str.instrs ++
            [Instr.addF (getIndex st.vm i).1 (getIndex (getIndex st.vm i).2 l).1
              (getIndex (getIndex (getIndex st.vm i).2 l).2 r).1,
             Instr.zeroG (getIndex st.vm i).1]⟩, ?_⟩
          rw [codegenFGo, if_neg hiv, hop]
          dsimp only
          rw [hok1]
          dsimp only
          rw [hok2]
        | mul l r =>
          have hll : l < i := g.operand_lt hop (by simp [Op.operands])
          have hrl : r < i := g.operand_lt hop (by simp [Op.operands])
          obtain ⟨stl, hok1⟩ := ih l
            ⟨(getIndex (getIndex (getIndex st.vm i).2 l).2 r).2, i :: st.visited,
             st.instrs⟩ (by omega) (by omega)
          obtain ⟨str, hok2⟩ := ih r stl (by omega) (by omega)
          refine ⟨⟨str.vm, str.visited, str.instrs ++
            [Instr.mulF (getIndex st.vm i).1 (getIndex (getIndex st.vm i).2 l).1
              (getIndex (getIndex (getIndex st.vm i).2 l).2 r).1,
             Instr.zeroG (getIndex st.vm i).1]⟩, ?_⟩
          rw [codegenFGo, if_neg hiv, hop]
          dsimp only
          rw [hok1]
          dsimp only
          rw [hok2]
        | pow l e =>
          have hll : l < i := g.operand_lt hop (by simp [Op.operands])
          obtain ⟨stl, hok1⟩ := ih l
            ⟨(getIndex (getIndex st.vm i).2 l).2, i :: st.visited, st.instrs⟩
            (by omega) (by omega)
          refine ⟨⟨stl.vm, stl.visited, stl.instrs ++
            [Instr.powF (getIndex st.vm i).1 (getIndex (getIndex st.vm i).2 l).1 e,
             Instr.zeroG (getIndex st.vm i).1]⟩, ?_⟩
          rw [codegenFGo, if_neg hiv, hop]
          dsimp only
          rw [hok1]
        | relu a =>
          have hal : a < i := g.operand_lt hop (by simp [Op.operands])
          obtain ⟨stl, hok1⟩ := ih a
            ⟨(getIndex (getIndex st.vm i).2 a).2, i :: st.visited, st.instrs⟩
            (by omega) (by omega)
          refine ⟨⟨stl.vm, stl.visited, stl.instrs ++
            [Instr.reluF (getIndex st.vm i).1 (getIndex (getIndex st.vm i).2 a).1,
             Instr.zeroG (getIndex st.vm i).1]⟩, ?_⟩
          rw [codegenFGo, if_neg hiv, hop]
          dsimp only
          rw [hok1]

/-- A forward code-generation error always names a node whose type is
outside the closed operator set. -/
theorem codegenFGo_error (g : Graph) : ∀ (fuel i : ℕ) (st : CG) (e : CErr),
    i < fuel → i < g.ops.length →
    codegenFGo g fuel i st = .error e →
    ∃ j, e = .unhandeled j ∧ g.at? j = some Op.unknown := by
  intro fuel
  induction fuel with
  | zero => intro i st e h _ _; omega
  | succ fuel ih =>
    intro i st e hif hi herr
    by_cases hiv : i ∈ st.visited
    · rw [codegenFGo, if_pos hiv] at herr
      exact absurd herr (by simp)
    · cases hop : g.at? i with
      | none =>
        exfalso
        have : g.ops.length ≤ i := by
          simpa [Graph.at?, List.getElem?_eq_none_iff] using hop
        omega
      | some op =>
        rw [codegenFGo, if_neg hiv, hop] at herr
        cases op with
        | unknown =>
          simp at herr
          exact ⟨i, herr.symm, hop⟩
        | leaf => exact absurd herr (by simp)
        | add l r =>
          have hll : l < i := g.operand_lt hop (by simp [Op.operands])
          have hrl : r < i := g.operand_lt hop (by simp [Op.operands])
          dsimp only at herr
          cases hok1 : codegenFGo g fuel l
              ⟨(getIndex (getIndex (getIndex st.vm i).2 l).2 r).2, i :: st.visited,
               st.instrs⟩ with
          | error e2 =>
            rw [hok1] at herr
            dsimp only at herr
            simp at herr
            rw [← herr]
            exact ih l _ e2 (by omega) (by omega) hok1
          | ok stl =>
            rw [hok1] at herr
            dsimp only at herr
            cases hok2 : codegenFGo g fuel r stl with
            | error e2 =>
              rw [hok2] at herr
              simp at herr
              rw [← herr]
              exact ih r _ e2 (by omega) (by omega) hok2
            | ok str =>
              rw [hok2] at herr
              exact absurd herr (by simp)
        | mul l r =>
          have hll : l < i := g.operand_lt hop (by simp [Op.operands])
          have hrl : r < i := g.operand_lt hop (by simp [Op.operands])
          dsimp only at herr
          cases hok1 : codegenFGo g fuel l
              ⟨(getIndex (getIndex (getIndex st.vm i).2 l).2 r).2, i :: st.visited,
               st.instrs⟩ with
          | error e2 =>
            rw [hok1] at herr
            dsimp only at herr
            simp at herr
            rw [← herr]
            exact ih l _ e2 (by omega) (by omega) hok1
          | ok stl =>
            rw [hok1] at herr
            dsimp only at herr
            cases hok2 : codegenFGo g fuel r stl with
            | error e2 =>
              rw [hok2] at herr
              simp at herr
              rw [← herr]
              exact ih r _ e2 (by omega) (by omega) hok2
            | ok str =>
              rw [hok2] at herr
              exact absurd herr (by simp)
        | pow l e2 =>
          have hll : l < i := g.operand_lt hop (by simp [Op.operands])
          dsimp only at herr
          cases hok1 : codegenFGo g fuel l
              ⟨(getIndex (getIndex st.vm i).2 l).2, i :: st.visited, st.instrs⟩ with
          | error e3 =>
            rw [hok1] at herr
            simp at herr
            rw [← herr]
            exact ih l _ e3 (by omega) (by omega) hok1
          | ok stl =>
            rw [hok1] at herr
            exact absurd herr (by simp)
        | relu a =>
          have hal : a < i := g.operand_lt hop (by simp [Op.operands])
          dsimp only at herr
          cases hok1 : codegenFGo g fuel a
              ⟨(getIndex (getIndex st.vm i).2 a).2, i :: st.visited, st.instrs⟩ with
          | error e3 =>
            rw [hok1] at herr
            simp at herr
            rw [← herr]
            exact ih a _ e3 (by omega) (by omega) hok1
          | ok stl =>
            rw [hok1] at herr
            exact absurd herr (by simp)

/-- Nodes appended by the traversal always carry a supported operator (the
traversal cases for the five `Node` subclasses are the only ones that
append). -/
theorem buildTopoGo_known (g : Graph) : ∀ (fuel i : ℕ) (v t : List Nat),
    ∀ x ∈ (buildTopoGo g fuel i v t).2, x ∈ t ∨
      ∃ op, g.at? x = some op ∧ op ≠ Op.unknown := by
  intro fuel
  induction fuel with
  | zero => intro i v t x hx; exact Or.inl hx
  | succ fuel ih =>
    intro i v t x hx
    by_cases hiv : i ∈ v
    · rw [buildTopoGo, if_pos hiv] at hx
      exact Or.inl hx
    · rw [buildTopoGo, if_neg hiv] at hx
      cases hop : g.at? i with
      | none => rw [hop] at hx; exact Or.inl hx
      | some op =>
        rw [hop] at hx
        cases op with
        | unknown => exact Or.inl hx
        | leaf =>
          dsimp only at hx
          rcases List.mem_append.mp hx with hx | hx
          · exact Or.inl hx
          · simp at hx
            exact Or.inr ⟨Op.leaf, by rw [hx]; exact hop, by simp⟩
        | add l r =>
          dsimp only at hx
          rcases List.mem_append.mp hx with hx | hx
          · rcases ih l _ _ x hx with hx2 | hx2
            · exact ih r _ _ x hx2
            · exact Or.inr hx2
          · simp at hx
            exact Or.inr ⟨Op.add l r, by rw [hx]; exact hop, by simp⟩
        | mul l r =>
          dsimp only at hx
          rcases List.mem_append.mp hx with hx | hx
          · rcases ih l _ _ x hx with hx2 | hx2
            · exact ih r _ _ x hx2
            · exact Or.inr hx2
          · simp at hx
            exact Or.inr ⟨Op.mul l r, by rw [hx]; exact hop, by simp⟩
        | pow l e =>
          dsimp only at hx
          rcases List.mem_append.mp hx with hx | hx
          · exact ih l _ _ x hx
          · simp at hx
            exact Or.inr ⟨Op.pow l e, by rw [hx]; exact hop, by simp⟩
        | relu a =>
          dsimp only at hx
          rcases List.mem_append.mp hx with hx | hx
          · exact ih a _ _ x hx
          · simp at hx
            exact Or.inr ⟨Op.relu a, by rw [hx]; exact hop, by simp⟩

/-- Reachable nodes are in any operand-closed visited set containing the
start node. -/
theorem reach_subset_closed (g : Graph) {V : List Nat}
    (hcl : ∀ x ∈ V, ∀ c ∈ g.operandsOf x, c ∈ V) {i : Nat} (hi : i ∈ V) :
    ∀ {x : Nat}, Reaches g i x → x ∈ V := by
  intro x h
  induction h with
  | refl => exact hi
  | step hj _ ih => exact ih (hcl _ hi _ hj)

/-- A generated statement that only writes gradient slots. -/
def Instr.gOnly (ins : Instr) : Prop := ∀ (lr : ℚ) (c : CSt), (ins.run lr c).v = c.v

/-- Static facts about the statements emitted for one backward node: the
slot map only grows keeping its invariant, emitted statements mention only
assigned slots, and they write only gradient slots. -/
theorem bwdNode_spec (g : Graph) (vm : List (Nat × Nat)) (i : Nat)
    {vm2 : List (Nat × Nat)} {ins : List Instr}
    (hok : bwdNode g vm i = .ok (vm2, ins)) :
    (∀ m j, lookupVM vm m = some j → lookupVM vm2 m = some j) ∧
    (VMok vm → VMok vm2) ∧
    (∀ ins2 ∈ ins, ∀ sl ∈ ins2.slots, ∃ n, lookupVM vm2 n = some sl) ∧
    (∀ ins2 ∈ ins, ins2.gOnly) := by
  unfold bwdNode at hok
  cases hop : g.at? i with
  | none => rw [hop] at hok; exact absurd hok (by simp)
  | some op =>
    rw [hop] at hok
    cases op with
    | unknown => exact absurd hok (by simp)
    | leaf =>
      simp at hok
      rw [← hok.1]
      exact ⟨fun m j h => getIndex_extends h, fun h => getIndex_VMok i h,
        by rw [hok.2]; intro ins2 h; simp at h,
        by rw [hok.2]; intro ins2 h; simp at h⟩
    | add l r =>
      simp at hok
      obtain ⟨hvm, hins⟩ := hok
      have hidx : lookupVM vm2 i = some (getIndex vm i).1 := by
        rw [← hvm]
        exact getIndex_extends (getIndex_extends (getIndex_lookup vm i))
      have hli : lookupVM vm2 l = some (getIndex (getIndex vm i).2 l).1 := by
        rw [← hvm]
        exact getIndex_extends (getIndex_lookup _ l)
      have hri : lookupVM vm2 r =
          some (getIndex (getIndex (getIndex vm i).2 l).2 r).1 := by
        rw [← hvm]
        exact getIndex_lookup _ r
      refine ⟨?_, ?_, ?_, ?_⟩
      · intro m j h
        rw [← hvm]
        exact getIndex_extends (getIndex_extends (getIndex_extends h))
      · intro h
        rw [← hvm]
        exact getIndex_VMok r (getIndex_VMok l (getIndex_VMok i h))
      · intro ins2 h sl hsl
        rw [← hins] at h
        simp at h
        rcases h with h | h <;> rw [h] at hsl <;> simp [Instr.slots] at hsl <;>
          rcases hsl with hsl | hsl
        · exact ⟨l, by rw [hsl]; exact hli⟩
        · exact ⟨i, by rw [hsl]; exact hidx⟩
        · exact ⟨r, by rw [hsl]; exact hri⟩
        · exact ⟨i, by rw [hsl]; exact hidx⟩
      · intro ins2 h
        rw [← hins] at h
        simp at h
        rcases h with h | h <;> rw [h] <;> intro lr c <;> rfl
    | mul l r =>
      simp at hok
      obtain ⟨hvm, hins⟩ := hok
      have hidx : lookupVM vm2 i = some (getIndex vm i).1 := by
        rw [← hvm]
        exact getIndex_extends (getIndex_extends (getIndex_lookup vm i))
      have hli : lookupVM vm2 l = some (getIndex (getIndex vm i).2 l).1 := by
        rw [← hvm]
        exact getIndex_extends (getIndex_lookup _ l)
      have hri : lookupVM vm2 r =
          some (getIndex (getIndex (getIndex vm i).2 l).2 r).1 := by
        rw [← hvm]
        exact getIndex_lookup _ r
      refine ⟨?_, ?_, ?_, ?_⟩
      · intro m j h
        rw [← hvm]
        exact getIndex_extends (getIndex_extends (getIndex_extends h))
      · intro h
        rw [← hvm]
        exact getIndex_VMok r (getIndex_VMok l (getIndex_VMok i h))
      · intro ins2 h sl hsl
        rw [← hins] at h
        simp at h
        rcases h with h | h <;> rw [h] at hsl <;> simp [Instr.slots] at hsl <;>
          rcases hsl with hsl | hsl | hsl
        · exact ⟨l, by rw [hsl]; exact hli⟩
        · exact ⟨r, by rw [hsl]; exact hri⟩
        · exact ⟨i, by rw [hsl]; exact hidx⟩
        · exact ⟨r, by rw [hsl]; exact hri⟩
        · exact ⟨l, by rw [hsl]; exact hli⟩
        · exact ⟨i, by rw [hsl]; exact hidx⟩
      · intro ins2 h
        rw [← hins] at h
        simp at h
        rcases h with h | h <;> rw [h] <;> intro lr c <;> rfl
    | pow l e =>
      simp at hok
      obtain ⟨hvm, hins⟩ := hok
      have hidx : lookupVM vm2 i = some (getIndex vm i).1 := by
        rw [← hvm]
        exact getIndex_extends (getIndex_lookup vm i)
      have hli : lookupVM vm2 l = some (getIndex (getIndex vm i).2 l).1 := by
        rw [← hvm]
        exact getIndex_lookup _ l
      refine ⟨?_, ?_, ?_, ?_⟩
      · intro m j h
        rw [← hvm]
        exact getIndex_extends (getIndex_extends h)
      · intro h
        rw [← hvm]
        exact getIndex_VMok l (getIndex_VMok i h)
      · intro ins2 h sl hsl
        rw [← hins] at h
        simp at h
        rw [h] at hsl
        simp [Instr.slots] at hsl
        rcases hsl with hsl | hsl
        · exact ⟨l, by rw [hsl]; exact hli⟩
        · exact ⟨i, by rw [hsl]; exact hidx⟩
      · intro ins2 h
        rw [← hins] at h
        simp at h
        rw [h]
        intro lr c
        rfl
    | relu a =>
      simp at hok
      obtain ⟨hvm, hins⟩ := hok
      have hidx : lookupVM vm2 i = some (getIndex vm i).1 := by
        rw [← hvm]
        exact getIndex_extends (getIndex_lookup vm i)
      have hai : lookupVM vm2 a = some (getIndex (getIndex vm i).2 a).1 := by
        rw [← hvm]
        exact getIndex_lookup _ a
      refine ⟨?_, ?_, ?_, ?_⟩
      · intro m j h
        rw [← hvm]
        exact getIndex_extends (getIndex_extends h)
      · intro h
        rw [← hvm]
        exact getIndex_VMok a (getIndex_VMok i h)
      · intro ins2 h sl hsl
        rw [← hins] at h
        simp at h
        rw [h] at hsl
        simp [Instr.slots] at hsl
        rcases hsl with hsl | hsl
        · exact ⟨a, by rw [hsl]; exact hai⟩
        · exact ⟨i, by rw [hsl]; exact hidx⟩
      · intro ins2 h
        rw [← hins] at h
        simp at h
        rw [h]
        intro lr c
        rfl

/-- The backward loop succeeds on a list of supported nodes. -/
theorem bwdNode_ok (g : Graph) (vm : List (Nat × Nat)) (i : Nat) {op : Op}
    (hop : g.at? i = some op) (hne : op ≠ Op.unknown) :
    ∃ res, bwdNode g vm i = .ok res := by
  unfold bwdNode
  cases op with
  | unknown => exact absurd rfl hne
  | leaf => exact ⟨_, by rw [hop]⟩
  | add l r => exact ⟨_, by rw [hop]⟩
  | mul l r => exact ⟨_, by rw [hop]⟩
  | pow l e => exact ⟨_, by rw [hop]⟩
  | relu a => exact ⟨_, by rw [hop]⟩

/-- Static facts about the backward code-generation loop. -/
theorem codegenBGo_spec (g : Graph) : ∀ (τ : List Nat) (vm : List (Nat × Nat))
    (acc : List Instr) {vm2 : List (Nat × Nat)} {acc2 : List Instr},
    codegenBGo g τ vm acc = .ok (vm2, acc2) →
    (∀ m j, lookupVM vm m = some j → lookupVM vm2 m = some j) ∧
    (VMok vm → VMok vm2) ∧
    ∃ Δ, acc2 = acc ++ Δ ∧
      (∀ ins2 ∈ Δ, ∀ sl ∈ ins2.slots, ∃ n, lookupVM vm2 n = some sl) ∧
      (∀ ins2 ∈ Δ, ins2.gOnly) := by
  intro τ
  induction τ with
  | nil =>
    intro vm acc vm2 acc2 hok
    simp [codegenBGo] at hok
    rw [← hok.1, ← hok.2]
    exact ⟨fun m j h => h, fun h => h, [], by simp, by simp, by simp⟩
  | cons hd tl ih =>
    intro vm acc vm2 acc2 hok
    rw [codegenBGo] at hok
    cases hbn : bwdNode g vm hd with
    | error e => rw [hbn] at hok; exact absurd hok (by simp)
    | ok res =>
      rw [hbn] at hok
      obtain ⟨hext1, hvmok1, hslots1, hgonly1⟩ := bwdNode_spec g vm hd hbn
      obtain ⟨hext2, hvmok2, Δ2, hacc2, hslots2, hgonly2⟩ := ih res.1 (acc ++ res.2) hok
      refine ⟨fun m j h => hext2 _ _ (hext1 _ _ h), fun h => hvmok2 (hvmok1 h),
        res.2 ++ Δ2, by rw [hacc2]; simp, ?_, ?_⟩
      · intro ins2 h sl hsl
        rcases List.mem_append.mp h with h | h
        · obtain ⟨n, hn⟩ := hslots1 ins2 h sl hsl
          exact ⟨n, hext2 _ _ hn⟩
        · exact hslots2 ins2 h sl hsl
      · intro ins2 h
        rcases List.mem_append.mp h with h | h
        · exact hgonly1 ins2 h
        · exact hgonly2 ins2 h

/-- The backward loop succeeds whenever every listed node has a supported
operator. -/
theorem codegenBGo_ok (g : Graph) : ∀ (τ : List Nat)
    (hτ : ∀ x ∈ τ, ∃ op, g.at? x = some op ∧ op ≠ Op.unknown)
    (vm : List (Nat × Nat)) (acc : List Instr),
    ∃ res, codegenBGo g τ vm acc = .ok res := by
  intro τ
  induction τ with
  | nil => intro _ vm acc; exact ⟨(vm, acc), rfl⟩
  | cons hd tl ih =>
    intro hτ vm acc
    obtain ⟨op, hop, hne⟩ := hτ hd (by simp)
    obtain ⟨res, hres⟩ := bwdNode_ok g vm hd hop hne
    obtain ⟨res2, hres2⟩ := ih (fun x hx => hτ x (by simp [hx])) res.1 (acc ++ res.2)
    exact ⟨res2, by rw [codegenBGo, hres]; exact hres2⟩

/-- Static facts about `backward` code generation: the slot map grows
keeping its invariant, and every emitted statement mentions only assigned
slots and writes only gradient slots. -/
theorem codegenB_spec (g : Graph) (loss : Nat) (vm : List (Nat × Nat))
    {vm2 : List (Nat × Nat)} {bIns : List Instr}
    (hok : codegenB g loss vm = .ok (vm2, bIns)) :
    (∀ m j, lookupVM vm m = some j → lookupVM vm2 m = some j) ∧
    (VMok vm → VMok vm2) ∧
    (∀ ins2 ∈ bIns, ∀ sl ∈ ins2.slots, ∃ n, lookupVM vm2 n = some sl) ∧
    (∀ ins2 ∈ bIns, ins2.gOnly) := by
  unfold codegenB at hok
  obtain ⟨hext, hvmok, Δ, hΔ, hslots, hgonly⟩ :=
    codegenBGo_spec g (buildTopo g loss).reverse (getIndex vm loss).2
      [Instr.seedG (getIndex vm loss).1] hok
  have hlidx : lookupVM vm2 loss = some (getIndex vm loss).1 :=
    hext _ _ (getIndex_lookup vm loss)
  refine ⟨fun m j h => hext _ _ (getIndex_extends h),
    fun h => hvmok (getIndex_VMok loss h), ?_, ?_⟩
  · intro ins2 h sl hsl
    rw [hΔ] at h
    rcases List.mem_append.mp h with h | h
    · simp at h
      rw [h] at hsl
      simp [Instr.slots] at hsl
      exact ⟨loss, by rw [hsl]; exact hlidx⟩
    · exact hslots ins2 h sl hsl
  · intro ins2 h
    rw [hΔ] at h
    rcases List.mem_append.mp h with h | h
    · simp at h
      rw [h]
      intro lr c
      rfl
    · exact hgonly ins2 h

/-- The backward code generator succeeds on every graph whose loss-rooted
topological order holds only supported nodes (which is always the case). -/
theorem codegenB_ok (g : Graph) (loss : Nat) (vm : List (Nat × Nat)) :
    ∃ res, codegenB g loss vm = .ok res := by
  unfold codegenB
  apply codegenBGo_ok
  intro x hx
  rw [List.mem_reverse] at hx
  rcases buildTopoGo_known g (loss + 1) loss [] [] x hx with h | h
  · simp at h
  · exact h

/-- Compilation succeeds on closed graphs, and the resulting bundle is
assembled from the forward state and backward result as the source does. -/
theorem compile_ok (g : Graph) (params scores : List Nat) (loss : Nat)
    (inputs : List Nat) (hc : g.Closed) (hloss : loss < g.ops.length) :
    ∃ stF vm2 bIns,
      codegenFGo g (loss + 1) loss
        ⟨preAssign (preAssign (preAssign [] params) scores) [loss], [], []⟩ = .ok stF ∧
      codegenB g loss stF.vm = .ok (vm2, bIns) ∧
      compile g params scores loss inputs = .ok
        { vm := vm2
        , fIns := stF.instrs
        , bIns := bIns
        , updIns := params.map (fun p => Instr.updP (slotOf vm2 p))
        , lossSlot := slotOf vm2 loss
        , paramSlots := params.map (slotOf vm2)
        , scoreSlots := scores.map (slotOf vm2)
        , inputSlots := inputs.map (lookupVM vm2) } := by
  obtain ⟨stF, hF⟩ := codegenFGo_ok g hc (loss + 1) loss
    ⟨preAssign (preAssign (preAssign [] params) scores) [loss], [], []⟩
    (by omega) hloss
  obtain ⟨⟨vm2, bIns⟩, hB⟩ := codegenB_ok g loss stF.vm
  refine ⟨stF, vm2, bIns, hF, hB, ?_⟩
  unfold compile
  dsimp only
  rw [hF]
  dsimp only
  rw [hB]

/-- The starting node is in the arena whenever something with a recorded
operator is reachable from it. -/
theorem reaches_some_lt {g : Graph} {i j : Nat} {op : Op} (h : Reaches g i j)
    (hop : g.at? j = some op) : i < g.ops.length := by
  cases h with
  | refl => exact g.at_lt hop
  | step hj hr =>
    obtain ⟨op2, hop2, _⟩ := g.operandsOf_mem hj
    exact g.at_lt hop2

/-- Claim C8: whenever compilation meets a node whose type is outside the
closed set {Value, Add, Mul, Pow, ReLU} — i.e. a node of a foreign `Node`
subclass is reachable from the loss — it fails by raising an error that
names a node of unsupported type, and produces no bundle. -/
theorem C8_unsupported_node_error (g : Graph) (params scores : List Nat)
    (loss : Nat) (inputs : List Nat) {j : Nat} (hreach : Reaches g loss j)
    (hunk : g.at? j = some Op.unknown) :
    ∃ j2, compile g params scores loss inputs =
      Except.error (CErr.unhandeled j2) ∧ g.at? j2 = some Op.unknown := by
  have hloss : loss < g.ops.length := reaches_some_lt hreach hunk
  cases hF : codegenFGo g (loss + 1) loss
      ⟨preAssign (preAssign (preAssign [] params) scores) [loss], [], []⟩ with
  | ok stF =>
    exfalso
    obtain ⟨_, _, _, _, hself, hnew, hcl, _⟩ :=
      codegenFGo_static g (loss + 1) loss _ stF [] (by omega) hF
        (by intro x hx; simp at hx) (by intro x hx; simp at hx)
    have hclosure : ∀ x ∈ stF.visited, ∀ c ∈ g.operandsOf x, c ∈ stF.visited := by
      intro x hx
      rcases hcl x hx with h | h
      · simp at h
      · exact h
    have hjmem : j ∈ stF.visited := reach_subset_closed g hclosure hself hreach
    rcases hnew j hjmem with h | h
    · simp at h
    · obtain ⟨op, hop, hne⟩ := h.2
      rw [hop] at hunk
      simp at hunk
      exact hne hunk
  | error e =>
    obtain ⟨j2, he, hj2⟩ := codegenFGo_error g (loss + 1) loss _ e (by omega) hloss hF
    refine ⟨j2, ?_, hj2⟩
    unfold compile
    dsimp only
    rw [hF, he]

/-- Concrete graph holding a foreign node: node 0 is of an unsupported
type, node 1 a leaf, node 2 adds them; the loss is node 2. -/
def gU : Graph := ⟨[Op.unknown, Op.leaf, Op.add 0 1], by decide⟩

/-- Witness for C8: compiling `gU` with the loss at node 2 fails, naming
the unsupported node 0. -/
theorem C8_unsupported_node_error_witness :
    ∃ j2, compile gU [1] [] 2 [] = Except.error (CErr.unhandeled j2) ∧
      gU.at? j2 = some Op.unknown :=
  C8_unsupported_node_error gU [1] [] 2 []
    (Reaches.step (by decide) (Reaches.refl 0)) (by decide)

/-- Dom-preservation: a node with a slot keeps one under map extension. -/
theorem dom_mono {vm vm2 : List (Nat × Nat)}
    (hext : ∀ m j, lookupVM vm m = some j → lookupVM vm2 m = some j) {n : Nat}
    (h : lookupVM vm n ≠ none) : lookupVM vm2 n ≠ none := by
  cases hl : lookupVM vm n with
  | none => exact absurd hl h
  | some j => rw [hext _ _ hl]; simp

/-- Claim C4, amended: every node reachable from the loss, plus every
declared parameter and score node (and the loss itself) even when
structurally unreachable, receives a slot; the slots are dense, zero-based
and duplicate-free (`value_map` maps distinct nodes to exactly
`0, ..., len-1` in discovery order, and `get_index` never reassigns); and
every statement of the generated procedures addresses state only through
assigned slots.  Declared *input* nodes, contrary to the original claim,
receive no slot merely for being declared (see the counterexample). -/
theorem C4_slot_assignment (g : Graph) (params scores : List Nat) (loss : Nat)
    (inputs : List Nat) (hc : g.Closed) (hloss : loss < g.ops.length) :
    ∃ b, compile g params scores loss inputs = .ok b ∧
      b.vm.map Prod.snd = List.range b.vm.length ∧
      (b.vm.map Prod.fst).Nodup ∧
      (∀ p ∈ params, lookupVM b.vm p ≠ none) ∧
      (∀ sc ∈ scores, lookupVM b.vm sc ≠ none) ∧
      lookupVM b.vm loss ≠ none ∧
      (∀ n, Reaches g loss n → lookupVM b.vm n ≠ none) ∧
      (∀ ins ∈ b.fIns ++ b.bIns ++ b.updIns, ∀ sl ∈ ins.slots,
        ∃ n, lookupVM b.vm n = some sl) := by
  obtain ⟨stF, vm2, bIns, hF, hB, hcomp⟩ :=
    compile_ok g params scores loss inputs hc hloss
  obtain ⟨⟨ΔF, hFins, hFslots⟩, hFext, hFvmok, _, hFself, _, hFcl, hFdom⟩ :=
    codegenFGo_static g (loss + 1) loss _ stF [] (by omega) hF
      (by intro x hx; simp at hx) (by intro x hx; simp at hx)
  obtain ⟨hBext, hBvmok, hBslots, _⟩ := codegenB_spec g loss stF.vm hB
  have hvm0ok : VMok (preAssign (preAssign (preAssign [] params) scores) [loss]) :=
    preAssign_VMok (preAssign_VMok (preAssign_VMok VMok_nil))
  have hvm2ok : VMok vm2 := hBvmok (hFvmok hvm0ok)
  have hdom0 : ∀ n, lookupVM (preAssign (preAssign (preAssign [] params) scores)
      [loss]) n ≠ none → lookupVM vm2 n ≠ none :=
    fun n h => dom_mono hBext (dom_mono hFext h)
  refine ⟨_, hcomp, hvm2ok.1, hvm2ok.2, ?_, ?_, ?_, ?_, ?_⟩
  · intro p hp
    exact hdom0 p (preAssign_dom_mono (preAssign_dom_mono (preAssign_mem hp)))
  · intro sc hsc
    exact hdom0 sc (preAssign_dom_mono (preAssign_mem hsc))
  · exact hdom0 loss (preAssign_mem (by simp))
  · intro n hn
    have hclosure : ∀ x ∈ stF.visited, ∀ c ∈ g.operandsOf x, c ∈ stF.visited := by
      intro x hx
      rcases hFcl x hx with h | h
      · simp at h
      · exact h
    have := hFdom n (reach_subset_closed g hclosure hFself hn)
    exact dom_mono hBext this
  · intro ins hins sl hsl
    dsimp only at hins
    rcases List.mem_append.mp hins with hins | hins
    · rcases List.mem_append.mp hins with hins | hins
      · rw [hFins] at hins
        simp at hins
        obtain ⟨n2, hn2⟩ := hFslots ins hins sl hsl
        exact ⟨n2, hBext _ _ hn2⟩
      · exact hBslots ins hins sl hsl
    · simp at hins
      obtain ⟨p, hp, hins⟩ := hins
      rw [← hins] at hsl
      simp [Instr.slots] at hsl
      have hdomp : lookupVM vm2 p ≠ none :=
        hdom0 p (preAssign_dom_mono (preAssign_dom_mono (preAssign_mem hp)))
      cases hlp : lookupVM vm2 p with
      | none => exact absurd hlp hdomp
      | some j =>
        refine ⟨p, ?_⟩
        rw [hlp, hsl]
        simp [slotOf, hlp]

/-- Witness for C4 (amended part) on the concrete shared-subexpression
graph compiled with parameter 0 and loss 2. -/
theorem C4_slot_assignment_witness :
    ∃ b, compile gW [0] [] 2 [] = .ok b ∧
      b.vm.map Prod.snd = List.range b.vm.length ∧
      (b.vm.map Prod.fst).Nodup ∧
      (∀ p ∈ [0], lookupVM b.vm p ≠ none) ∧
      (∀ sc ∈ ([] : List Nat), lookupVM b.vm sc ≠ none) ∧
      lookupVM b.vm 2 ≠ none ∧
      (∀ n, Reaches gW 2 n → lookupVM b.vm n ≠ none) ∧
      (∀ ins ∈ b.fIns ++ b.bIns ++ b.updIns, ∀ sl ∈ ins.slots,
        ∃ n, lookupVM b.vm n = some sl) :=
  C4_slot_assignment gW [0] [] 2 [] (by decide) (by decide)

/-- Two-leaf graph whose node 1 is a declared input but unreachable from
the loss (node 0). -/
def gC4 : Graph := ⟨[Op.leaf, Op.leaf], by decide⟩

/-- Counterexample to C4 as stated: compiling `gC4` with input node 1
(structurally unreachable from the loss and not a parameter or score)
succeeds, yet node 1 is assigned no slot — `value_map` has no entry for
it, contradicting the claim that every declared input node receives a
slot. -/
theorem C4_slot_assignment_counterexample :
    (compile gC4 [0] [] 0 [1]).toOption.map (fun b => lookupVM b.vm 1) =
      some none := by
  decide

theorem runInstrs_append (lr : ℚ) (c : CSt) (l1 l2 : List Instr) :
    runInstrs lr c (l1 ++ l2) = runInstrs lr (runInstrs lr c l1) l2 :=
  List.foldl_append _ _ _ _

/-- A block of gradient-only statements leaves every value slot alone. -/
theorem runInstrs_gOnly : ∀ (l : List Instr), (∀ ins ∈ l, ins.gOnly) →
    ∀ (lr : ℚ) (c : CSt), (runInstrs lr c l).v = c.v := by
  intro l
  induction l with
  | nil => intro _ lr c; rfl
  | cons hd tl ih =>
    intro h lr c
    show (runInstrs lr (hd.run lr c) tl).v = c.v
    rw [ih (fun ins hins => h ins (by simp [hins])) lr (hd.run lr c)]
    exact h hd (by simp) lr c

/-- A block of parameter updates leaves any other slot's value alone. -/
theorem runInstrs_updP_frame : ∀ (qs : List Nat) {sl : Nat}, sl ∉ qs →
    ∀ (lr : ℚ) (c : CSt), (runInstrs lr c (qs.map Instr.updP)).v sl = c.v sl := by
  intro qs
  induction qs with
  | nil => intro sl _ lr c; rfl
  | cons hd tl ih =>
    intro sl hsl lr c
    have hne : sl ≠ hd := fun h => hsl (by simp [h])
    show (runInstrs lr ((Instr.updP hd).run lr c) (tl.map Instr.updP)).v sl = c.v sl
    rw [ih (fun h => hsl (by simp [h])) lr _]
    exact upd_ne _ _ _ hne

/-- Claim C10: provided the loss node is not itself a declared parameter,
the value returned by the compiled `eval_step(learning_rate)` is the loss
computed by that call's forward pass — the gradient-descent update applied
at the end of the call does not affect the returned value (nor does the
backward block, which writes only gradient slots). -/
theorem C10_eval_step_returns_preupdate_loss (g : Graph) (params scores : List Nat)
    (loss : Nat) (inputs : List Nat) (hc : g.Closed) (hloss : loss < g.ops.length)
    (hlp : loss ∉ params) :
    ∃ b, compile g params scores loss inputs = .ok b ∧
      ∀ (lr : ℚ) (c : CSt), (evalStep b lr c).1 = (runInstrs lr c b.fIns).v b.lossSlot := by
  obtain ⟨stF, vm2, bIns, hF, hB, hcomp⟩ :=
    compile_ok g params scores loss inputs hc hloss
  obtain ⟨_, hFext, hFvmok, _, _, _, _, _⟩ :=
    codegenFGo_static g (loss + 1) loss _ stF [] (by omega) hF
      (by intro x hx; simp at hx) (by intro x hx; simp at hx)
  obtain ⟨hBext, hBvmok, _, hBgonly⟩ := codegenB_spec g loss stF.vm hB
  have hvm2ok : VMok vm2 :=
    hBvmok (hFvmok (preAssign_VMok (preAssign_VMok (preAssign_VMok VMok_nil))))
  have hdom0 : ∀ n, lookupVM (preAssign (preAssign (preAssign [] params) scores)
      [loss]) n ≠ none → lookupVM vm2 n ≠ none :=
    fun n h => dom_mono hBext (dom_mono hFext h)
  have hdomloss : lookupVM vm2 loss ≠ none := hdom0 loss (preAssign_mem (by simp))
  have hdomp : ∀ p ∈ params, lookupVM vm2 p ≠ none := fun p hp =>
    hdom0 p (preAssign_dom_mono (preAssign_dom_mono (preAssign_mem hp)))
  refine ⟨_, hcomp, ?_⟩
  intro lr c
  dsimp only [evalStep]
  rw [runInstrs_append, runInstrs_append]
  have hmap : params.map (fun p => Instr.updP (slotOf vm2 p)) =
      (params.map (slotOf vm2)).map Instr.updP := by
    rw [List.map_map]
    rfl
  rw [hmap]
  rw [runInstrs_updP_frame (params.map (slotOf vm2)) ?_ lr _]
  · rw [runInstrs_gOnly bIns hBgonly lr _]
  · intro hmem
    rcases List.mem_map.mp hmem with ⟨p, hp, hslot⟩
    cases hlkp : lookupVM vm2 p with
    | none => exact absurd hlkp (hdomp p hp)
    | some jp =>
      cases hlkl : lookupVM vm2 loss with
      | none => exact absurd hlkl hdomloss
      | some jl =>
        have : jp = jl := by
          have h1 : slotOf vm2 p = jp := by simp [slotOf, hlkp]
          have h2 : slotOf vm2 loss = jl := by simp [slotOf, hlkl]
          rw [h1, h2] at hslot
          exact hslot
        rw [this] at hlkp
        exact hlp ((lookupVM_inj hvm2ok hlkp hlkl) ▸ hp)

/-- Witness for C10 on the concrete graph `y = x*x + x` with parameter `x`. -/
theorem C10_eval_step_returns_preupdate_loss_witness :
    ∃ b, compile gW [0] [] 2 [] = .ok b ∧
      ∀ (lr : ℚ) (c : CSt), (evalStep b lr c).1 = (runInstrs lr c b.fIns).v b.lossSlot :=
  C10_eval_step_returns_preupdate_loss gW [0] [] 2 [] (by decide) (by decide)
    (by decide)

/-- Core fold of `set_inputs`: positions with a slot are rebound and their
gradients zeroed; every other slot is untouched. -/
theorem setInputs_fold : ∀ (l : List (Option Nat × ℚ)) (c : CSt),
    (l.filterMap Prod.fst).Nodup →
    (∀ sl val, (some sl, val) ∈ l →
      (l.foldl (fun c pr => match pr.1 with
        | some sl2 => ⟨upd c.v sl2 pr.2, upd c.g sl2 0⟩
        | none => c) c).v sl = val ∧
      (l.foldl (fun c pr => match pr.1 with
        | some sl2 => ⟨upd c.v sl2 pr.2, upd c.g sl2 0⟩
        | none => c) c).g sl = 0) ∧
    (∀ sl, sl ∉ l.filterMap Prod.fst →
      (l.foldl (fun c pr => match pr.1 with
        | some sl2 => ⟨upd c.v sl2 pr.2, upd c.g sl2 0⟩
        | none => c) c).v sl = c.v sl ∧
      (l.foldl (fun c pr => match pr.1 with
        | some sl2 => ⟨upd c.v sl2 pr.2, upd c.g sl2 0⟩
        | none => c) c).g sl = c.g sl) := by
  intro l
  induction l with
  | nil =>
    intro c _
    exact ⟨fun sl val h => by simp at h, fun sl _ => ⟨rfl, rfl⟩⟩
  | cons hd tl ih =>
    intro c hnd
    obtain ⟨os, val0⟩ := hd
    simp only [List.foldl_cons]
    cases os with
    | none =>
      dsimp only
      simp only [List.filterMap_cons] at hnd
      obtain ⟨iht, ihf⟩ := ih c hnd
      constructor
      · intro sl val h
        rcases List.mem_cons.mp h with h | h
        · exact absurd h (by simp)
        · exact iht sl val h
      · intro sl hsl
        simp only [List.filterMap_cons] at hsl
        exact ihf sl hsl
    | some s0 =>
      dsimp only
      simp only [List.filterMap_cons] at hnd
      have hs0 : s0 ∉ tl.filterMap Prod.fst := (List.nodup_cons.mp hnd).1
      have hndtl : (tl.filterMap Prod.fst).Nodup := (List.nodup_cons.mp hnd).2
      obtain ⟨iht, ihf⟩ := ih ⟨upd c.v s0 val0, upd c.g s0 0⟩ hndtl
      constructor
      · intro sl val h
        rcases List.mem_cons.mp h with h | h
        · simp at h
          obtain ⟨hsl, hval⟩ := h
          rw [hsl, hval]
          have hfr2 := ihf s0 hs0
          refine ⟨?_, ?_⟩
          · rw [hfr2.1]
            exact upd_same _ _ _
          · rw [hfr2.2]
            exact upd_same _ _ _
        · exact iht sl val h
      · intro sl hsl
        simp only [List.filterMap_cons] at hsl
        have hne : sl ≠ s0 := fun h => hsl (by simp [h])
        have htl : sl ∉ tl.filterMap Prod.fst := fun h => hsl (by simp [h])
        have hfr2 := ihf sl htl
        refine ⟨?_, ?_⟩
        · rw [hfr2.1]
          exact upd_ne _ _ _ hne
        · rw [hfr2.2]
          exact upd_ne _ _ _ hne

/-- Positional access to the zipped input bindings. -/
theorem zip_get_mem : ∀ (ns : List Nat) (vals : List ℚ) (f : Nat → Option Nat)
    (idx : ℕ) (h1 : idx < ns.length) (h2 : idx < vals.length),
    (f (ns.get ⟨idx, h1⟩), vals.get ⟨idx, h2⟩) ∈ (ns.map f).zip vals := by
  intro ns
  induction ns with
  | nil => intro vals f idx h1 _; simp at h1
  | cons hd tl ih =>
    intro vals f idx h1 h2
    cases vals with
    | nil => simp at h2
    | cons v vs =>
      cases idx with
      | zero => simp
      | succ m =>
        simp only [List.map_cons, List.zip_cons_cons]
        refine List.mem_cons_of_mem _ ?_
        exact ih vs f m (by simpa using h1) (by simpa using h2)

/-- A slot among the resolved positions comes from one of the nodes. -/
theorem mem_filterMap_zip : ∀ (ns : List Nat) (vals : List ℚ)
    (f : Nat → Option Nat) {sl : Nat},
    sl ∈ ((ns.map f).zip vals).filterMap Prod.fst → ∃ n ∈ ns, f n = some sl := by
  intro ns
  induction ns with
  | nil => intro vals f sl h; simp at h
  | cons hd tl ih =>
    intro vals f sl h
    cases vals with
    | nil => simp at h
    | cons v vs =>
      simp only [List.map_cons, List.zip_cons_cons, List.filterMap_cons] at h
      cases hf : f hd with
      | none =>
        rw [hf] at h
        obtain ⟨n, hn, hfn⟩ := ih vs f h
        exact ⟨n, by simp [hn], hfn⟩
      | some s0 =>
        rw [hf] at h
        rcases List.mem_cons.mp h with h | h
        · exact ⟨hd, by simp, by rw [hf, h]⟩
        · obtain ⟨n, hn, hfn⟩ := ih vs f h
          exact ⟨n, by simp [hn], hfn⟩

/-- With duplicate-free nodes and an injective slot map, the resolved slot
positions are duplicate-free. -/
theorem filterMap_zip_nodup : ∀ (ns : List Nat) (vals : List ℚ)
    (f : Nat → Option Nat), ns.Nodup →
    (∀ a b sl, f a = some sl → f b = some sl → a = b) →
    (((ns.map f).zip vals).filterMap Prod.fst).Nodup := by
  intro ns
  induction ns with
  | nil => intro vals f _ _; simp
  | cons hd tl ih =>
    intro vals f hnd hinj
    cases vals with
    | nil => simp
    | cons v vs =>
      simp only [List.map_cons, List.zip_cons_cons, List.filterMap_cons]
      obtain ⟨hhd, htl⟩ := List.nodup_cons.mp hnd
      cases hf : f hd with
      | none => exact ih vs f htl hinj
      | some s0 =>
        rw [List.nodup_cons]
        refine ⟨?_, ih vs f htl hinj⟩
        intro hmem
        obtain ⟨n, hn, hfn⟩ := mem_filterMap_zip tl vs f hmem
        rw [hinj hd n s0 hf hfn] at hhd
        exact hhd hn

/-- Claim C7: the generated `set_inputs(values)` rebinds exactly the
declared input leaves that received a slot, matching the positions of the
caller's original input sequence, and zeroes those inputs' gradient slots;
declared inputs without a slot are accepted positionally but silently
discarded, and no other slot is modified. -/
theorem C7_set_inputs (g : Graph) (params scores : List Nat) (loss : Nat)
    (inputs : List Nat) (hc : g.Closed) (hloss : loss < g.ops.length)
    (hnd : inputs.Nodup) :
    ∃ b, compile g params scores loss inputs = .ok b ∧
      ∀ (values : List ℚ) (c : CSt), values.length = inputs.length →
        (∀ (idx : ℕ) (h1 : idx < inputs.length) (sl : Nat),
          lookupVM b.vm (inputs.get ⟨idx, h1⟩) = some sl →
          (setInputs b values c).v sl = values.getD idx 0 ∧
          (setInputs b values c).g sl = 0) ∧
        (∀ sl : Nat, (∀ n ∈ inputs, lookupVM b.vm n ≠ some sl) →
          (setInputs b values c).v sl = c.v sl ∧
          (setInputs b values c).g sl = c.g sl) := by
  obtain ⟨stF, vm2, bIns, hF, hB, hcomp⟩ :=
    compile_ok g params scores loss inputs hc hloss
  obtain ⟨_, hFext, hFvmok, _, _, _, _, _⟩ :=
    codegenFGo_static g (loss + 1) loss _ stF [] (by omega) hF
      (by intro x hx; simp at hx) (by intro x hx; simp at hx)
  obtain ⟨hBext, hBvmok, _, _⟩ := codegenB_spec g loss stF.vm hB
  have hvm2ok : VMok vm2 :=
    hBvmok (hFvmok (preAssign_VMok (preAssign_VMok (preAssign_VMok VMok_nil))))
  have hinj : ∀ a b sl, lookupVM vm2 a = some sl → lookupVM vm2 b = some sl → a = b :=
    fun a b sl ha hb => lookupVM_inj hvm2ok ha hb
  refine ⟨_, hcomp, ?_⟩
  intro values c hlen
  have hnodup := filterMap_zip_nodup inputs values (lookupVM vm2) hnd hinj
  obtain ⟨htgt, hfr⟩ := setInputs_fold ((inputs.map (lookupVM vm2)).zip values) c hnodup
  constructor
  · intro idx h1 sl hsl
    have hidx2 : idx < values.length := by omega
    have hmem := zip_get_mem inputs values (lookupVM vm2) idx h1 hidx2
    rw [hsl] at hmem
    have hgd : values.getD idx 0 = values.get ⟨idx, hidx2⟩ := by
      simp [List.getD_eq_getElem?_getD, List.getElem?_eq_getElem hidx2]
    rw [hgd]
    exact htgt sl _ hmem
  · intro sl hsl
    apply hfr
    intro hmem
    obtain ⟨n, hn, hfn⟩ := mem_filterMap_zip inputs values (lookupVM vm2) hmem
    exact hsl n hn hfn

/-- Witness for C7: the shared-subexpression graph compiled with the leaf
declared as an input. -/
theorem C7_set_inputs_witness :
    ∃ b, compile gW [] [] 2 [0] = .ok b ∧
      ∀ (values : List ℚ) (c : CSt), values.length = [0].length →
        (∀ (idx : ℕ) (h1 : idx < [0].length) (sl : Nat),
          lookupVM b.vm ([0].get ⟨idx, h1⟩) = some sl →
          (setInputs b values c).v sl = values.getD idx 0 ∧
          (setInputs b values c).g sl = 0) ∧
        (∀ sl : Nat, (∀ n ∈ [0], lookupVM b.vm n ≠ some sl) →
          (setInputs b values c).v sl = c.v sl ∧
          (setInputs b values c).g sl = c.g sl) :=
  C7_set_inputs gW [] [] 2 [0] (by decide) (by decide) (by decide)

/-! ### Runtime correspondence between node state and the register file -/

/-- Distinct slotted nodes occupy distinct slots. -/
theorem slotOf_ne {vmF : List (Nat × Nat)} (hvmF : VMok vmF) {n m : Nat}
    (hn : lookupVM vmF n ≠ none) (hm : lookupVM vmF m ≠ none) (hne : n ≠ m) :
    slotOf vmF n ≠ slotOf vmF m := by
  cases hln : lookupVM vmF n with
  | none => exact absurd hln hn
  | some jn =>
    cases hlm : lookupVM vmF m with
    | none => exact absurd hlm hm
    | some jm =>
      intro h
      simp [slotOf, hln, hlm] at h
      rw [h] at hln
      exact hne (lookupVM_inj hvmF hln hlm)

/-- The register file realises the interpreted state: every slotted node's
value and gradient slots hold its `data` and `grad`. -/
def RG (vmF : List (Nat × Nat)) (s : St) (c : CSt) : Prop :=
  ∀ n, lookupVM vmF n ≠ none →
    c.v (slotOf vmF n) = s.data n ∧ c.g (slotOf vmF n) = s.grad n

/-- A single chain-rule accumulation into a child's gradient slot preserves
pointwise agreement of gradient maps on the slotted nodes. -/
theorem RG_gupd {vmF : List (Nat × Nat)} (hvmF : VMok vmF)
    {gc gs : Nat → ℚ}
    (hagree : ∀ m, lookupVM vmF m ≠ none → gc (slotOf vmF m) = gs m)
    {ch : Nat} (hch : lookupVM vmF ch ≠ none) (q : ℚ) :
    ∀ n, lookupVM vmF n ≠ none →
      upd gc (slotOf vmF ch) (gc (slotOf vmF ch) + q) (slotOf vmF n)
        = upd gs ch (gs ch + q) n := by
  intro n hn
  by_cases hnc : n = ch
  · rw [hnc, upd_same, upd_same, hagree ch hch]
  · rw [upd_ne _ _ _ (slotOf_ne hvmF hn hch hnc), upd_ne _ _ _ hnc, hagree n hn]

/-- Slots not written by the initialisation fold keep their start value. -/
theorem initC_fold_frame (d : Nat → ℚ) : ∀ (vm : List (Nat × Nat)) (c : CSt)
    {j : Nat}, j ∉ vm.map Prod.snd →
    ((vm.foldl (fun c pr => ⟨upd c.v pr.2 (d pr.1), upd c.g pr.2 0⟩) c).v j = c.v j ∧
     (vm.foldl (fun c pr => ⟨upd c.v pr.2 (d pr.1), upd c.g pr.2 0⟩) c).g j = c.g j) := by
  intro vm
  induction vm with
  | nil => intro c j _; exact ⟨rfl, rfl⟩
  | cons hd tl ih =>
    intro c j hj
    have hne : j ≠ hd.2 := fun h => hj (by simp [h])
    have htl : j ∉ tl.map Prod.snd := fun h => hj (by simp [h])
    simp only [List.foldl_cons]
    obtain ⟨h1, h2⟩ := ih ⟨upd c.v hd.2 (d hd.1), upd c.g hd.2 0⟩ htl
    rw [h1, h2]
    simp only [CSt.mk_v, CSt.mk_g]
    exact ⟨upd_ne _ _ _ hne, upd_ne _ _ _ hne⟩

/-- The initialisation fold realises the data of every listed entry. -/
theorem initC_fold_mem (d : Nat → ℚ) : ∀ (vm : List (Nat × Nat)) (c : CSt)
    {n j : Nat}, (vm.map Prod.snd).Nodup → (n, j) ∈ vm →
    ((vm.foldl (fun c pr => ⟨upd c.v pr.2 (d pr.1), upd c.g pr.2 0⟩) c).v j = d n ∧
     (vm.foldl (fun c pr => ⟨upd c.v pr.2 (d pr.1), upd c.g pr.2 0⟩) c).g j = 0) := by
  intro vm
  induction vm with
  | nil => intro c n j _ h; simp at h
  | cons hd tl ih =>
    intro c n j hnd hmem
    rw [List.map_cons] at hnd
    obtain ⟨hhd, htl⟩ := List.nodup_cons.mp hnd
    simp only [List.foldl_cons]
    rcases List.mem_cons.mp hmem with h | h
    · have hj2 : hd.2 = j := by rw [← h]
      have hn1 : hd.1 = n := by rw [← h]
      have hj : j ∉ tl.map Prod.snd := hj2 ▸ hhd
      obtain ⟨h1, h2⟩ := initC_fold_frame d tl
        ⟨upd c.v hd.2 (d hd.1), upd c.g hd.2 0⟩ hj
      rw [h1, h2]
      simp only [CSt.mk_v, CSt.mk_g]
      rw [← hj2, ← hn1]
      exact ⟨upd_same _ _ _, upd_same _ _ _⟩
    · exact ih _ htl h

/-- The initial register file realises the compile-time node data with all
gradients zero. -/
theorem initC_lookup {vm : List (Nat × Nat)} (hvm : VMok vm) (d : Nat → ℚ)
    {n : Nat} (h : lookupVM vm n ≠ none) :
    (initC vm d).v (slotOf vm n) = d n ∧ (initC vm d).g (slotOf vm n) = 0 := by
  cases hl : lookupVM vm n with
  | none => exact absurd hl h
  | some j =>
    have hmem := lookupVM_mem hl
    have hnd : (vm.map Prod.snd).Nodup := by
      rw [hvm.1]; exact List.nodup_range _
    have := initC_fold_mem d vm ⟨fun _ => 0, fun _ => 0⟩ hnd hmem
    simpa [initC, slotOf, hl] using this

/-- Running the statements of one backward node preserves the runtime
correspondence, realising that node's `_backward` step. -/
theorem bwdNode_run (g : Graph) {vmF : List (Nat × Nat)} (hvmF : VMok vmF)
    (lr : ℚ) {vm vm2 : List (Nat × Nat)} {i : Nat} {ins : List Instr}
    (hok : bwdNode g vm i = .ok (vm2, ins))
    (hprom : ∀ m j, lookupVM vm2 m = some j → lookupVM vmF m = some j)
    {s : St} {c : CSt} (hrg : RG vmF s c) :
    RG vmF (backwardStep g i s) (runInstrs lr c ins) := by
  unfold bwdNode at hok
  cases hop : g.at? i with
  | none => rw [hop] at hok; exact absurd hok (by simp)
  | some op =>
    rw [hop] at hok
    cases op with
    | unknown => exact absurd hok (by simp)
    | leaf =>
      dsimp only at hok
      injection hok with h
      injection h with h1 h2
      subst h2
      intro n hn
      simp only [backwardStep, hop, runInstrs, List.foldl_nil]
      exact hrg n hn
    | add l r =>
      dsimp only at hok
      injection hok with h
      injection h with h1 h2
      subst h1
      subst h2
      have hil : l < i := g.operand_lt hop (by simp [Op.operands])
      have hil' : i ≠ l := by omega
      have hfi : lookupVM vmF i = some (getIndex vm i).1 :=
        hprom i _ (getIndex_extends (getIndex_extends (getIndex_lookup vm i)))
      have hfl : lookupVM vmF l = some (getIndex (getIndex vm i).2 l).1 :=
        hprom l _ (getIndex_extends (getIndex_lookup _ l))
      have hfr : lookupVM vmF r =
          some (getIndex (getIndex (getIndex vm i).2 l).2 r).1 :=
        hprom r _ (getIndex_lookup _ r)
      have hsi : slotOf vmF i = (getIndex vm i).1 := by simp [slotOf, hfi]
      have hsl : slotOf vmF l = (getIndex (getIndex vm i).2 l).1 := by
        simp [slotOf, hfl]
      have hsr : slotOf vmF r =
          (getIndex (getIndex (getIndex vm i).2 l).2 r).1 := by simp [slotOf, hfr]
      have hdi : lookupVM vmF i ≠ none := by rw [hfi]; simp
      have hdl : lookupVM vmF l ≠ none := by rw [hfl]; simp
      have hdr : lookupVM vmF r ≠ none := by rw [hfr]; simp
      intro n hn
      simp only [backwardStep, hop, runInstrs, List.foldl_cons, List.foldl_nil,
        Instr.run, CSt.mk_v, CSt.mk_g, St.mk_data, St.mk_grad]
      rw [← hsi, ← hsl, ← hsr]
      refine ⟨(hrg n hn).1, ?_⟩
      have hini : c.g (slotOf vmF i) = s.grad i := (hrg i hdi).2
      rw [hini]
      have hgr := RG_gupd hvmF (fun m hm => (hrg m hm).2) hdl (s.grad i)
      have hG1i : upd c.g (slotOf vmF l) (c.g (slotOf vmF l) + s.grad i)
          (slotOf vmF i) = s.grad i := by
        rw [hgr i hdi, upd_ne _ _ _ hil']
      rw [hG1i]
      exact RG_gupd hvmF hgr hdr (s.grad i) n hn
    | mul l r =>
      dsimp only at hok
      injection hok with h
      injection h with h1 h2
      subst h1
      subst h2
      have hil : l < i := g.operand_lt hop (by simp [Op.operands])
      have hil' : i ≠ l := by omega
      have hfi : lookupVM vmF i = some (getIndex vm i).1 :=
        hprom i _ (getIndex_extends (getIndex_extends (getIndex_lookup vm i)))
      have hfl : lookupVM vmF l = some (getIndex (getIndex vm i).2 l).1 :=
        hprom l _ (getIndex_extends (getIndex_lookup _ l))
      have hfr : lookupVM vmF r =
          some (getIndex (getIndex (getIndex vm i).2 l).2 r).1 :=
        hprom r _ (getIndex_lookup _ r)
      have hsi : slotOf vmF i = (getIndex vm i).1 := by simp [slotOf, hfi]
      have hsl : slotOf vmF l = (getIndex (getIndex vm i).2 l).1 := by
        simp [slotOf, hfl]
      have hsr : slotOf vmF r =
          (getIndex (getIndex (getIndex vm i).2 l).2 r).1 := by simp [slotOf, hfr]
      have hdi : lookupVM vmF i ≠ none := by rw [hfi]; simp
      have hdl : lookupVM vmF l ≠ none := by rw [hfl]; simp
      have hdr : lookupVM vmF r ≠ none := by rw [hfr]; simp
      intro n hn
      simp only [backwardStep, hop, runInstrs, List.foldl_cons, List.foldl_nil,
        Instr.run, CSt.mk_v, CSt.mk_g, St.mk_data, St.mk_grad]
      rw [← hsi, ← hsl, ← hsr]
      refine ⟨(hrg n hn).1, ?_⟩
      have hini : c.g (slotOf vmF i) = s.grad i := (hrg i hdi).2
      rw [hini, (hrg r hdr).1, (hrg l hdl).1]
      have hgr := RG_gupd hvmF (fun m hm => (hrg m hm).2) hdl (s.data r * s.grad i)
      have hG1i : upd c.g (slotOf vmF l) (c.g (slotOf vmF l) + s.data r * s.grad i)
          (slotOf vmF i) = s.grad i := by
        rw [hgr i hdi, upd_ne _ _ _ hil']
      rw [hG1i]
      exact RG_gupd hvmF hgr hdr (s.data l * s.grad i) n hn
    | pow l e =>
      dsimp only at hok
      injection hok with h
      injection h with h1 h2
      subst h1
      subst h2
      have hfi : lookupVM vmF i = some (getIndex vm i).1 :=
        hprom i _ (getIndex_extends (getIndex_lookup vm i))
      have hfl : lookupVM vmF l = some (getIndex (getIndex vm i).2 l).1 :=
        hprom l _ (getIndex_lookup _ l)
      have hsi : slotOf vmF i = (getIndex vm i).1 := by simp [slotOf, hfi]
      have hsl : slotOf vmF l = (getIndex (getIndex vm i).2 l).1 := by
        simp [slotOf, hfl]
      have hdi : lookupVM vmF i ≠ none := by rw [hfi]; simp
      have hdl : lookupVM vmF l ≠ none := by rw [hfl]; simp
      intro n hn
      simp only [backwardStep, hop, runInstrs, List.foldl_cons, List.foldl_nil,
        Instr.run, CSt.mk_v, CSt.mk_g, St.mk_data, St.mk_grad]
      rw [← hsi, ← hsl]
      refine ⟨(hrg n hn).1, ?_⟩
      rw [(hrg i hdi).2, (hrg l hdl).1]
      exact RG_gupd hvmF (fun m hm => (hrg m hm).2) hdl _ n hn
    | relu a =>
      dsimp only at hok
      injection hok with h
      injection h with h1 h2
      subst h1
      subst h2
      have hfi : lookupVM vmF i = some (getIndex vm i).1 :=
        hprom i _ (getIndex_extends (getIndex_lookup vm i))
      have hfa : lookupVM vmF a = some (getIndex (getIndex vm i).2 a).1 :=
        hprom a _ (getIndex_lookup _ a)
      have hsi : slotOf vmF i = (getIndex vm i).1 := by simp [slotOf, hfi]
      have hsa : slotOf vmF a = (getIndex (getIndex vm i).2 a).1 := by
        simp [slotOf, hfa]
      have hdi : lookupVM vmF i ≠ none := by rw [hfi]; simp
      have hda : lookupVM vmF a ≠ none := by rw [hfa]; simp
      intro n hn
      simp only [backwardStep, hop, runInstrs, List.foldl_cons, List.foldl_nil,
        Instr.run, CSt.mk_v, CSt.mk_g, St.mk_data, St.mk_grad]
      rw [← hsi, ← hsa]
      refine ⟨(hrg n hn).1, ?_⟩
      rw [(hrg i hdi).2, (hrg i hdi).1]
      exact RG_gupd hvmF (fun m hm => (hrg m hm).2) hda _ n hn

/-- The backward loop of generated statements simulates the fold of
interpreted one-step backward propagations over the same node list. -/
theorem codegenBGo_run (g : Graph) {vmF : List (Nat × Nat)} (hvmF : VMok vmF)
    (lr : ℚ) : ∀ (τ : List Nat) (vm : List (Nat × Nat)) (acc : List Instr)
    {vm2 : List (Nat × Nat)} {acc2 : List Instr},
    codegenBGo g τ vm acc = .ok (vm2, acc2) →
    (∀ m j, lookupVM vm2 m = some j → lookupVM vmF m = some j) →
    ∀ Δ, acc2 = acc ++ Δ →
    ∀ (s : St) (c : CSt), RG vmF s c →
      RG vmF (τ.foldl (fun s i => backwardStep g i s) s) (runInstrs lr c Δ) := by
  intro τ
  induction τ with
  | nil =>
    intro vm acc vm2 acc2 hok hprom Δ hΔ s c hrg
    simp only [codegenBGo] at hok
    injection hok with h
    injection h with h1 h2
    rw [← h2] at hΔ
    have hnil : Δ = [] := by simpa using hΔ
    rw [hnil]
    simpa only [List.foldl_nil, runInstrs] using hrg
  | cons hd tl ih =>
    intro vm acc vm2 acc2 hok hprom Δ hΔ s c hrg
    rw [codegenBGo] at hok
    cases hb : bwdNode g vm hd with
    | error e => rw [hb] at hok; exact absurd hok (by simp)
    | ok pr =>
      obtain ⟨vmA, insA⟩ := pr
      rw [hb] at hok
      dsimp only at hok
      obtain ⟨hext, _, Δtl, hacc2, _, _⟩ := codegenBGo_spec g tl vmA (acc ++ insA) hok
      have hΔeq : Δ = insA ++ Δtl := by
        have h3 : acc ++ Δ = acc ++ insA ++ Δtl := hΔ.symm.trans hacc2
        rw [List.append_assoc] at h3
        exact List.append_cancel_left h3
      rw [hΔeq, runInstrs_append]
      have hpromA : ∀ m j, lookupVM vmA m = some j → lookupVM vmF m = some j :=
        fun m j hm => hprom m j (hext m j hm)
      have hrg1 : RG vmF (backwardStep g hd s) (runInstrs lr c insA) :=
        bwdNode_run g hvmF lr hb hpromA hrg
      simp only [List.foldl_cons]
      exact ih vmA (acc ++ insA) hok hprom Δtl hacc2 _ _ hrg1

/-- Seeding the loss gradient slot with `1.0` simulates seeding the loss
node's `grad`. -/
theorem seed_run {vmF : List (Nat × Nat)} (hvmF : VMok vmF) (lr : ℚ)
    {root : Nat} (hd : lookupVM vmF root ≠ none) {s : St} {c : CSt}
    (hrg : RG vmF s c) :
    RG vmF ⟨s.data, upd s.grad root 1, s.ver⟩
      (Instr.run lr c (Instr.seedG (slotOf vmF root))) := by
  intro n hn
  simp only [Instr.run, CSt.mk_v, CSt.mk_g, St.mk_data, St.mk_grad]
  refine ⟨(hrg n hn).1, ?_⟩
  by_cases hnr : n = root
  · rw [hnr, upd_same, upd_same]
  · rw [upd_ne _ _ _ (slotOf_ne hvmF hn hd hnr), upd_ne _ _ _ hnr]
    exact (hrg n hn).2

/-- The generated update block simulates the interpreted parameter update
loop. -/
theorem updParams_run {vmF : List (Nat × Nat)} (hvmF : VMok vmF) (lr : ℚ) :
    ∀ (ps : List Nat), (∀ p ∈ ps, lookupVM vmF p ≠ none) →
    ∀ (s : St) (c : CSt), RG vmF s c →
      RG vmF (updParams ps lr s)
        (runInstrs lr c (ps.map (fun p => Instr.updP (slotOf vmF p)))) := by
  intro ps
  induction ps with
  | nil =>
    intro _ s c hrg
    simpa only [updParams, List.foldl_nil, List.map_nil, runInstrs] using hrg
  | cons p tl ih =>
    intro hdom s c hrg
    have hdp : lookupVM vmF p ≠ none := hdom p (by simp)
    have hstep : RG vmF ⟨upd s.data p (s.data p - lr * s.grad p), s.grad, s.ver⟩
        (Instr.run lr c (Instr.updP (slotOf vmF p))) := by
      intro n hn
      simp only [Instr.run, CSt.mk_v, CSt.mk_g, St.mk_data, St.mk_grad]
      refine ⟨?_, (hrg n hn).2⟩
      by_cases hnp : n = p
      · rw [hnp, upd_same, upd_same, (hrg p hdp).1, (hrg p hdp).2]
      · rw [upd_ne _ _ _ (slotOf_ne hvmF hn hdp hnp), upd_ne _ _ _ hnp]
        exact (hrg n hn).1
    have h2 := ih (fun q hq => hdom q (by simp [hq])) _ _ hstep
    simpa only [updParams, runInstrs, List.foldl_cons, List.map_cons] using h2

/-- The interpreted parameter update touches only the parameters' data. -/
theorem updParams_frame : ∀ (ps : List Nat) (lr : ℚ) (s : St),
    (updParams ps lr s).grad = s.grad ∧ (updParams ps lr s).ver = s.ver ∧
    ∀ n, n ∉ ps → (updParams ps lr s).data n = s.data n := by
  intro ps
  induction ps with
  | nil => intro lr s; exact ⟨rfl, rfl, fun _ _ => rfl⟩
  | cons p tl ih =>
    intro lr s
    simp only [updParams, List.foldl_cons] at ih ⊢
    obtain ⟨h1, h2, h3⟩ := ih lr ⟨upd s.data p (s.data p - lr * s.grad p), s.grad, s.ver⟩
    refine ⟨h1, h2, fun n hn => ?_⟩
    rw [h3 n (fun h => hn (by simp [h]))]
    simp only [St.mk_data]
    exact upd_ne _ _ _ (fun h => hn (by simp [h]))

/-- Lookup promotion to a larger map preserves slottedness. -/
theorem prom_ne {vmA vmF : List (Nat × Nat)}
    (hprom : ∀ m j, lookupVM vmA m = some j → lookupVM vmF m = some j)
    {x : Nat} (h : lookupVM vmA x ≠ none) : lookupVM vmF x ≠ none := by
  cases hl : lookupVM vmA x with
  | none => exact absurd hl h
  | some j => rw [hprom x j hl]; simp

/-- Leaf value slots survive a forward sub-generation: newly visited leaves
now hold their denotation (which is their data), untouched slots are framed. -/
theorem leafv_step {vmF : List (Nat × Nat)} (hvmF : VMok vmF) (g : Graph)
    (d : Nat → ℚ) {vis1 vis2 G : List Nat} {c c2 : CSt}
    (hGvis : ∀ x ∈ G, x ∈ vis1)
    (hdom2 : ∀ x ∈ vis2, lookupVM vmF x ≠ none)
    (r1 : ∀ n ∈ vis2, n ∉ G →
      c2.v (slotOf vmF n) = denot g d n ∧ c2.g (slotOf vmF n) = 0)
    (r2 : ∀ sl, (∀ n, n ∈ vis2 → n ∉ vis1 → slotOf vmF n ≠ sl) →
      c2.v sl = c.v sl ∧ c2.g sl = c.g sl)
    (hleafv : ∀ n, lookupVM vmF n ≠ none → g.at? n = some Op.leaf →
      c.v (slotOf vmF n) = d n) :
    ∀ n, lookupVM vmF n ≠ none → g.at? n = some Op.leaf →
      c2.v (slotOf vmF n) = d n := by
  intro n hn hleaf
  by_cases hnew : n ∈ vis2 ∧ n ∉ vis1
  · have hnG : n ∉ G := fun hg => hnew.2 (hGvis _ hg)
    rw [(r1 n hnew.1 hnG).1]
    exact denot_leaf g d hleaf
  · have hfr : ∀ m, m ∈ vis2 → m ∉ vis1 → slotOf vmF m ≠ slotOf vmF n := by
      intro m hm2 hm1
      have hmn : m ≠ n := fun he => hnew (he ▸ ⟨hm2, hm1⟩)
      exact slotOf_ne hvmF (hdom2 m hm2) hn hmn
    rw [(r2 _ hfr).1]
    exact hleafv n hn hleaf

set_option maxHeartbeats 6400000 in
/-- Runtime behaviour of the generated forward block: starting from a
register file where already-emitted (non-grey) nodes hold their denotation
with zero gradient and slotted leaves hold their data, running the freshly
emitted statements makes every visited non-grey node's value slot hold its
denotation with gradient slot zero, and leaves every slot other than those
of newly visited nodes untouched. -/
theorem codegenFGo_run (g : Graph) {vmF : List (Nat × Nat)} (hvmF : VMok vmF)
    (d : Nat → ℚ) (lr : ℚ) : ∀ (fuel i : ℕ) (st st2 : CG) (G : List Nat),
    i < fuel →
    codegenFGo g fuel i st = .ok st2 →
    (∀ x ∈ st.visited, x ∈ G ∨ ∀ c ∈ g.operandsOf x, c ∈ st.visited) →
    (∀ x ∈ st.visited, lookupVM st.vm x ≠ none) →
    (∀ m j, lookupVM st2.vm m = some j → lookupVM vmF m = some j) →
    (∀ x ∈ G, i ≤ x) →
    (∀ x ∈ G, x ∈ st.visited) →
    ∀ Δ, st2.instrs = st.instrs ++ Δ →
    ∀ c : CSt,
    (∀ n ∈ st.visited, n ∉ G →
      c.v (slotOf vmF n) = denot g d n ∧ c.g (slotOf vmF n) = 0) →
    (∀ n, lookupVM vmF n ≠ none → g.at? n = some Op.leaf →
      c.v (slotOf vmF n) = d n) →
    (∀ n ∈ st2.visited, n ∉ G →
      (runInstrs lr c Δ).v (slotOf vmF n) = denot g d n ∧
      (runInstrs lr c Δ).g (slotOf vmF n) = 0) ∧
    (∀ sl, (∀ n, n ∈ st2.visited → n ∉ st.visited → slotOf vmF n ≠ sl) →
      (runInstrs lr c Δ).v sl = c.v sl ∧ (runInstrs lr c Δ).g sl = c.g sl) := by
  intro fuel
  induction fuel with
  | zero => intro i st st2 G h hok; exact absurd hok (by simp [codegenFGo])
  | succ fuel ih =>
    intro i st st2 G hif hok hGc hdom hprom hGge hGvis Δ hΔ c hvis hleafv
    by_cases hiv : i ∈ st.visited
    · rw [codegenFGo, if_pos hiv] at hok
      simp at hok
      rw [← hok] at hΔ ⊢
      have hnil : Δ = [] := by simpa using hΔ
      rw [hnil]
      exact ⟨fun n hn hg => hvis n hn hg, fun sl _ => ⟨rfl, rfl⟩⟩
    · rw [codegenFGo, if_neg hiv] at hok
      have hidx := getIndex_lookup st.vm i
      have hdom1 : ∀ x ∈ i :: st.visited, lookupVM (getIndex st.vm i).2 x ≠ none := by
        intro x hx
        rcases List.mem_cons.mp hx with hx | hx
        · rw [hx, hidx]; simp
        · cases hl : lookupVM st.vm x with
          | none => exact absurd hl (hdom x hx)
          | some j => rw [getIndex_extends hl]; simp
      cases hop : g.at? i with
      | none => rw [hop] at hok; exact absurd hok (by simp)
      | some op =>
        cases op with
        | unknown => rw [hop] at hok; exact absurd hok (by simp)
        | leaf =>
          rw [hop] at hok
          simp at hok
          rw [← hok] at hΔ hprom ⊢
          dsimp only [CG.mk_instrs, CG.mk_vm, CG.mk_visited] at hΔ hprom ⊢
          have hΔ1 : Δ = [Instr.zeroG (getIndex st.vm i).1] :=
            (List.append_cancel_left hΔ).symm
          have hFi : lookupVM vmF i = some (getIndex st.vm i).1 := hprom _ _ hidx
          have hsiF : slotOf vmF i = (getIndex st.vm i).1 := by simp [slotOf, hFi]
          have hDi : lookupVM vmF i ≠ none := by rw [hFi]; simp
          have hdomF : ∀ x ∈ st.visited, lookupVM vmF x ≠ none := by
            intro x hx
            cases hl : lookupVM st.vm x with
            | none => exact absurd hl (hdom x hx)
            | some j => rw [hprom x j (getIndex_extends hl)]; simp
          rw [hΔ1]
          constructor
          · intro n hn hnG
            rcases List.mem_cons.mp hn with hni | hnv
            · constructor
              · show c.v (slotOf vmF n) = denot g d n
                rw [hni, denot_leaf g d hop]
                exact hleafv i hDi hop
              · show upd c.g (getIndex st.vm i).1 0 (slotOf vmF n) = 0
                rw [hni, hsiF, upd_same]
            · have hne : n ≠ i := fun h => hiv (h ▸ hnv)
              have hsne : slotOf vmF n ≠ (getIndex st.vm i).1 := by
                rw [← hsiF]
                exact slotOf_ne hvmF (hdomF n hnv) hDi hne
              constructor
              · show c.v (slotOf vmF n) = denot g d n
                exact (hvis n hnv hnG).1
              · show upd c.g (getIndex st.vm i).1 0 (slotOf vmF n) = 0
                rw [upd_ne _ _ _ hsne]
                exact (hvis n hnv hnG).2
          · intro sl hsl
            have hii : slotOf vmF i ≠ sl := hsl i (List.mem_cons_self _ _) hiv
            have hsli : sl ≠ (getIndex st.vm i).1 := fun h => hii (hsiF.trans h.symm)
            exact ⟨rfl, upd_ne _ _ _ hsli⟩
        | add l r =>
          rw [hop] at hok
          have hli : l < i := g.operand_lt hop (by simp [Op.operands])
          have hri : r < i := g.operand_lt hop (by simp [Op.operands])
          simp only at hok
          cases hok1 : codegenFGo g fuel l
              ⟨(getIndex (getIndex (getIndex st.vm i).2 l).2 r).2, i :: st.visited,
               st.instrs⟩ with
          | error e => rw [hok1] at hok; exact absurd hok (by simp)
          | ok stl =>
            rw [hok1] at hok
            dsimp only at hok
            cases hok2 : codegenFGo g fuel r stl with
            | error e => rw [hok2] at hok; exact absurd hok (by simp)
            | ok str =>
              rw [hok2] at hok
              simp at hok
              have hGc1 : ∀ x ∈ i :: st.visited, x ∈ i :: G ∨
                  ∀ c ∈ g.operandsOf x, c ∈ i :: st.visited := by
                intro x hx
                rcases List.mem_cons.mp hx with hx | hx
                · exact Or.inl (by simp [hx])
                · rcases hGc x hx with h | h
                  · exact Or.inl (List.mem_cons_of_mem _ h)
                  · exact Or.inr fun c hc => List.mem_cons_of_mem _ (h c hc)
              have hdomA : ∀ x ∈ i :: st.visited,
                  lookupVM (getIndex (getIndex (getIndex st.vm i).2 l).2 r).2 x ≠
                    none := by
                intro x hx
                cases hlk : lookupVM (getIndex st.vm i).2 x with
                | none => exact absurd hlk (hdom1 x hx)
                | some j =>
                  rw [getIndex_extends (getIndex_extends hlk)]
                  simp
              obtain ⟨⟨Δ1, hi1, _⟩, hb1, _, hd1, he1, _, hg1, hh1⟩ :=
                codegenFGo_static g fuel l _ stl (i :: G) (by omega) hok1
                  (by simpa using hGc1) (by simpa using hdomA)
              obtain ⟨⟨Δ2, hi2, _⟩, hb2, _, hd2, he2, _, hg2, hh2⟩ :=
                codegenFGo_static g fuel r stl str (i :: G) (by omega) hok2 hg1 hh1
              rw [← hok] at hΔ hprom ⊢
              dsimp only [CG.mk_instrs, CG.mk_vm, CG.mk_visited] at hΔ hprom ⊢
              have hvm_i : lookupVM str.vm i = some (getIndex st.vm i).1 :=
                hb2 _ _ (hb1 _ _ (getIndex_extends (getIndex_extends hidx)))
              have hvm_l : lookupVM str.vm l =
                  some (getIndex (getIndex st.vm i).2 l).1 :=
                hb2 _ _ (hb1 _ _ (getIndex_extends (getIndex_lookup _ l)))
              have hvm_r : lookupVM str.vm r =
                  some (getIndex (getIndex (getIndex st.vm i).2 l).2 r).1 :=
                hb2 _ _ (hb1 _ _ (getIndex_lookup _ r))
              have hFi : lookupVM vmF i = some (getIndex st.vm i).1 := hprom _ _ hvm_i
              have hFl : lookupVM vmF l = some (getIndex (getIndex st.vm i).2 l).1 :=
                hprom _ _ hvm_l
              have hFr : lookupVM vmF r =
                  some (getIndex (getIndex (getIndex st.vm i).2 l).2 r).1 :=
                hprom _ _ hvm_r
              have hsiF : slotOf vmF i = (getIndex st.vm i).1 := by simp [slotOf, hFi]
              have hslF : slotOf vmF l = (getIndex (getIndex st.vm i).2 l).1 := by
                simp [slotOf, hFl]
              have hsrF : slotOf vmF r =
                  (getIndex (getIndex (getIndex st.vm i).2 l).2 r).1 := by
                simp [slotOf, hFr]
              have hDi : lookupVM vmF i ≠ none := by rw [hFi]; simp
              have hΔeq : Δ = Δ1 ++ (Δ2 ++ [Instr.addF (getIndex st.vm i).1
                  (getIndex (getIndex st.vm i).2 l).1
                  (getIndex (getIndex (getIndex st.vm i).2 l).2 r).1,
                  Instr.zeroG (getIndex st.vm i).1]) := by
                rw [hi2, hi1] at hΔ
                dsimp only [CG.mk_instrs] at hΔ
                rw [List.append_assoc, List.append_assoc] at hΔ
                exact (List.append_cancel_left hΔ).symm
              have hprom1 : ∀ m j, lookupVM stl.vm m = some j →
                  lookupVM vmF m = some j := fun m j h => hprom m j (hb2 m j h)
              have hGge1 : ∀ x ∈ i :: G, l ≤ x := by
                intro x hx
                rcases List.mem_cons.mp hx with hx | hx
                · omega
                · have := hGge x hx; omega
              have hGvis1 : ∀ x ∈ i :: G, x ∈ i :: st.visited := by
                intro x hx
                rcases List.mem_cons.mp hx with hx | hx
                · simp [hx]
                · exact List.mem_cons_of_mem _ (hGvis x hx)
              have hvis1 : ∀ n ∈ i :: st.visited, n ∉ i :: G →
                  c.v (slotOf vmF n) = denot g d n ∧ c.g (slotOf vmF n) = 0 := by
                intro n hn hnG
                rcases List.mem_cons.mp hn with h | h
                · exact absurd (by simp [h] : n ∈ i :: G) hnG
                · exact hvis n h fun hh => hnG (List.mem_cons_of_mem _ hh)
              obtain ⟨r1a, r2a⟩ :=
                ih l _ stl (i :: G) (by omega) hok1 (by simpa using hGc1)
                  (by simpa using hdomA) hprom1 hGge1 hGvis1 Δ1 hi1 c hvis1 hleafv
              have hGge2 : ∀ x ∈ i :: G, r ≤ x := by
                intro x hx
                rcases List.mem_cons.mp hx with hx | hx
                · omega
                · have := hGge x hx; omega
              have hGvis2 : ∀ x ∈ i :: G, x ∈ stl.visited :=
                fun x hx => hd1 _ (hGvis1 x hx)
              have hdom1F : ∀ x ∈ stl.visited, lookupVM vmF x ≠ none :=
                fun x hx => prom_ne hprom1 (hh1 x hx)
              have hleafv1 : ∀ n, lookupVM vmF n ≠ none → g.at? n = some Op.leaf →
                  (runInstrs lr c Δ1).v (slotOf vmF n) = d n :=
                leafv_step hvmF g d hGvis1 hdom1F r1a r2a hleafv
              obtain ⟨r1b, r2b⟩ :=
                ih r stl str (i :: G) (by omega) hok2 hg1 hh1 hprom hGge2 hGvis2
                  Δ2 hi2 (runInstrs lr c Δ1) r1a hleafv1
              have hlmem : l ∈ str.visited := hd2 _ he1
              have hrmem : r ∈ str.visited := he2
              have himem : i ∈ str.visited := hd2 _ (hd1 _ (List.mem_cons_self _ _))
              have hlG : l ∉ i :: G := by
                intro hm
                rcases List.mem_cons.mp hm with h | h
                · omega
                · have := hGge _ h; omega
              have hrG : r ∉ i :: G := by
                intro hm
                rcases List.mem_cons.mp hm with h | h
                · omega
                · have := hGge _ h; omega
              rw [hΔeq, runInstrs_append, runInstrs_append]
              have hred : runInstrs lr (runInstrs lr (runInstrs lr c Δ1) Δ2)
                  [Instr.addF (getIndex st.vm i).1 (getIndex (getIndex st.vm i).2 l).1
                     (getIndex (getIndex (getIndex st.vm i).2 l).2 r).1,
                   Instr.zeroG (getIndex st.vm i).1] =
                  ⟨upd (runInstrs lr (runInstrs lr c Δ1) Δ2).v (getIndex st.vm i).1
                     ((runInstrs lr (runInstrs lr c Δ1) Δ2).v
                        (getIndex (getIndex st.vm i).2 l).1 +
                      (runInstrs lr (runInstrs lr c Δ1) Δ2).v
                        (getIndex (getIndex (getIndex st.vm i).2 l).2 r).1),
                   upd (runInstrs lr (runInstrs lr c Δ1) Δ2).g
                     (getIndex st.vm i).1 0⟩ := rfl
              rw [hred]
              simp only [CSt.mk_v, CSt.mk_g]
              constructor
              · intro n hn hnG
                by_cases hni : n = i
                · constructor
                  · rw [hni, hsiF, upd_same, ← hslF, ← hsrF,
                      (r1b l hlmem hlG).1, (r1b r hrmem hrG).1, denot_add g d hop]
                  · rw [hni, hsiF, upd_same]
                · have hDn : lookupVM vmF n ≠ none := prom_ne hprom (hh2 n hn)
                  have hsne : slotOf vmF n ≠ (getIndex st.vm i).1 := by
                    rw [← hsiF]
                    exact slotOf_ne hvmF hDn hDi hni
                  have hnG2 : n ∉ i :: G := by
                    intro hm
                    rcases List.mem_cons.mp hm with h | h
                    · exact hni h
                    · exact hnG h
                  exact ⟨by rw [upd_ne _ _ _ hsne]; exact (r1b n hn hnG2).1,
                         by rw [upd_ne _ _ _ hsne]; exact (r1b n hn hnG2).2⟩
              · intro sl hsl
                have hii : slotOf vmF i ≠ sl := hsl i himem hiv
                have hsli : sl ≠ (getIndex st.vm i).1 := fun h => hii (hsiF.trans h.symm)
                have hfr2 := r2b sl fun n hn hnl =>
                  hsl n hn fun hv => hnl (hd1 _ (List.mem_cons_of_mem _ hv))
                have hfr1 := r2a sl fun n hn hnl =>
                  hsl n (hd2 _ hn) fun hv => hnl (List.mem_cons_of_mem _ hv)
                constructor
                · rw [upd_ne _ _ _ hsli, hfr2.1, hfr1.1]
                · rw [upd_ne _ _ _ hsli, hfr2.2, hfr1.2]
        | mul l r =>
          rw [hop] at hok
          have hli : l < i := g.operand_lt hop (by simp [Op.operands])
          have hri : r < i := g.operand_lt hop (by simp [Op.operands])
          simp only at hok
          cases hok1 : codegenFGo g fuel l
              ⟨(getIndex (getIndex (getIndex st.vm i).2 l).2 r).2, i :: st.visited,
               st.instrs⟩ with
          | error e => rw [hok1] at hok; exact absurd hok (by simp)
          | ok stl =>
            rw [hok1] at hok
            dsimp only at hok
            cases hok2 : codegenFGo g fuel r stl with
            | error e => rw [hok2] at hok; exact absurd hok (by simp)
            | ok str =>
              rw [hok2] at hok
              simp at hok
              have hGc1 : ∀ x ∈ i :: st.visited, x ∈ i :: G ∨
                  ∀ c ∈ g.operandsOf x, c ∈ i :: st.visited := by
                intro x hx
                rcases List.mem_cons.mp hx with hx | hx
                · exact Or.inl (by simp [hx])
                · rcases hGc x hx with h | h
                  · exact Or.inl (List.mem_cons_of_mem _ h)
                  · exact Or.inr fun c hc => List.mem_cons_of_mem _ (h c hc)
              have hdomA : ∀ x ∈ i :: st.visited,
                  lookupVM (getIndex (getIndex (getIndex st.vm i).2 l).2 r).2 x ≠
                    none := by
                intro x hx
                cases hlk : lookupVM (getIndex st.vm i).2 x with
                | none => exact absurd hlk (hdom1 x hx)
                | some j =>
                  rw [getIndex_extends (getIndex_extends hlk)]
                  simp
              obtain ⟨⟨Δ1, hi1, _⟩, hb1, _, hd1, he1, _, hg1, hh1⟩ :=
                codegenFGo_static g fuel l _ stl (i :: G) (by omega) hok1
                  (by simpa using hGc1) (by simpa using hdomA)
              obtain ⟨⟨Δ2, hi2, _⟩, hb2, _, hd2, he2, _, hg2, hh2⟩ :=
                codegenFGo_static g fuel r stl str (i :: G) (by omega) hok2 hg1 hh1
              rw [← hok] at hΔ hprom ⊢
              dsimp only [CG.mk_instrs, CG.mk_vm, CG.mk_visited] at hΔ hprom ⊢
              have hvm_i : lookupVM str.vm i = some (getIndex st.vm i).1 :=
                hb2 _ _ (hb1 _ _ (getIndex_extends (getIndex_extends hidx)))
              have hvm_l : lookupVM str.vm l =
                  some (getIndex (getIndex st.vm i).2 l).1 :=
                hb2 _ _ (hb1 _ _ (getIndex_extends (getIndex_lookup _ l)))
              have hvm_r : lookupVM str.vm r =
                  some (getIndex (getIndex (getIndex st.vm i).2 l).2 r).1 :=
                hb2 _ _ (hb1 _ _ (getIndex_lookup _ r))
              have hFi : lookupVM vmF i = some (getIndex st.vm i).1 := hprom _ _ hvm_i
              have hFl : lookupVM vmF l = some (getIndex (getIndex st.vm i).2 l).1 :=
                hprom _ _ hvm_l
              have hFr : lookupVM vmF r =
                  some (getIndex (getIndex (getIndex st.vm i).2 l).2 r).1 :=
                hprom _ _ hvm_r
              have hsiF : slotOf vmF i = (getIndex st.vm i).1 := by simp [slotOf, hFi]
              have hslF : slotOf vmF l = (getIndex (getIndex st.vm i).2 l).1 := by
                simp [slotOf, hFl]
              have hsrF : slotOf vmF r =
                  (getIndex (getIndex (getIndex st.vm i).2 l).2 r).1 := by
                simp [slotOf, hFr]
              have hDi : lookupVM vmF i ≠ none := by rw [hFi]; simp
              have hΔeq : Δ = Δ1 ++ (Δ2 ++ [Instr.mulF (getIndex st.vm i).1
                  (getIndex (getIndex st.vm i).2 l).1
                  (getIndex (getIndex (getIndex st.vm i).2 l).2 r).1,
                  Instr.zeroG (getIndex st.vm i).1]) := by
                rw [hi2, hi1] at hΔ
                dsimp only [CG.mk_instrs] at hΔ
                rw [List.append_assoc, List.append_assoc] at hΔ
                exact (List.append_cancel_left hΔ).symm
              have hprom1 : ∀ m j, lookupVM stl.vm m = some j →
                  lookupVM vmF m = some j := fun m j h => hprom m j (hb2 m j h)
              have hGge1 : ∀ x ∈ i :: G, l ≤ x := by
                intro x hx
                rcases List.mem_cons.mp hx with hx | hx
                · omega
                · have := hGge x hx; omega
              have hGvis1 : ∀ x ∈ i :: G, x ∈ i :: st.visited := by
                intro x hx
                rcases List.mem_cons.mp hx with hx | hx
                · simp [hx]
                · exact List.mem_cons_of_mem _ (hGvis x hx)
              have hvis1 : ∀ n ∈ i :: st.visited, n ∉ i :: G →
                  c.v (slotOf vmF n) = denot g d n ∧ c.g (slotOf vmF n) = 0 := by
                intro n hn hnG
                rcases List.mem_cons.mp hn with h | h
                · exact absurd (by simp [h] : n ∈ i :: G) hnG
                · exact hvis n h fun hh => hnG (List.mem_cons_of_mem _ hh)
              obtain ⟨r1a, r2a⟩ :=
                ih l _ stl (i :: G) (by omega) hok1 (by simpa using hGc1)
                  (by simpa using hdomA) hprom1 hGge1 hGvis1 Δ1 hi1 c hvis1 hleafv
              have hGge2 : ∀ x ∈ i :: G, r ≤ x := by
                intro x hx
                rcases List.mem_cons.mp hx with hx | hx
                · omega
                · have := hGge x hx; omega
              have hGvis2 : ∀ x ∈ i :: G, x ∈ stl.visited :=
                fun x hx => hd1 _ (hGvis1 x hx)
              have hdom1F : ∀ x ∈ stl.visited, lookupVM vmF x ≠ none :=
                fun x hx => prom_ne hprom1 (hh1 x hx)
              have hleafv1 : ∀ n, lookupVM vmF n ≠ none → g.at? n = some Op.leaf →
                  (runInstrs lr c Δ1).v (slotOf vmF n) = d n :=
                leafv_step hvmF g d hGvis1 hdom1F r1a r2a hleafv
              obtain ⟨r1b, r2b⟩ :=
                ih r stl str (i :: G) (by omega) hok2 hg1 hh1 hprom hGge2 hGvis2
                  Δ2 hi2 (runInstrs lr c Δ1) r1a hleafv1
              have hlmem : l ∈ str.visited := hd2 _ he1
              have hrmem : r ∈ str.visited := he2
              have himem : i ∈ str.visited := hd2 _ (hd1 _ (List.mem_cons_self _ _))
              have hlG : l ∉ i :: G := by
                intro hm
                rcases List.mem_cons.mp hm with h | h
                · omega
                · have := hGge _ h; omega
              have hrG : r ∉ i :: G := by
                intro hm
                rcases List.mem_cons.mp hm with h | h
                · omega
                · have := hGge _ h; omega
              rw [hΔeq, runInstrs_append, runInstrs_append]
              have hred : runInstrs lr (runInstrs lr (runInstrs lr c Δ1) Δ2)
                  [Instr.mulF (getIndex st.vm i).1 (getIndex (getIndex st.vm i).2 l).1
                     (getIndex (getIndex (getIndex st.vm i).2 l).2 r).1,
                   Instr.zeroG (getIndex st.vm i).1] =
                  ⟨upd (runInstrs lr (runInstrs lr c Δ1) Δ2).v (getIndex st.vm i).1
                     ((runInstrs lr (runInstrs lr c Δ1) Δ2).v
                        (getIndex (getIndex st.vm i).2 l).1 *
                      (runInstrs lr (runInstrs lr c Δ1) Δ2).v
                        (getIndex (getIndex (getIndex st.vm i).2 l).2 r).1),
                   upd (runInstrs lr (runInstrs lr c Δ1) Δ2).g
                     (getIndex st.vm i).1 0⟩ := rfl
              rw [hred]
              simp only [CSt.mk_v, CSt.mk_g]
              constructor
              · intro n hn hnG
                by_cases hni : n = i
                · constructor
                  · rw [hni, hsiF, upd_same, ← hslF, ← hsrF,
                      (r1b l hlmem hlG).1, (r1b r hrmem hrG).1, denot_mul g d hop]
                  · rw [hni, hsiF, upd_same]
                · have hDn : lookupVM vmF n ≠ none := prom_ne hprom (hh2 n hn)
                  have hsne : slotOf vmF n ≠ (getIndex st.vm i).1 := by
                    rw [← hsiF]
                    exact slotOf_ne hvmF hDn hDi hni
                  have hnG2 : n ∉ i :: G := by
                    intro hm
                    rcases List.mem_cons.mp hm with h | h
                    · exact hni h
                    · exact hnG h
                  exact ⟨by rw [upd_ne _ _ _ hsne]; exact (r1b n hn hnG2).1,
                         by rw [upd_ne _ _ _ hsne]; exact (r1b n hn hnG2).2⟩
              · intro sl hsl
                have hii : slotOf vmF i ≠ sl := hsl i himem hiv
                have hsli : sl ≠ (getIndex st.vm i).1 := fun h => hii (hsiF.trans h.symm)
                have hfr2 := r2b sl fun n hn hnl =>
                  hsl n hn fun hv => hnl (hd1 _ (List.mem_cons_of_mem _ hv))
                have hfr1 := r2a sl fun n hn hnl =>
                  hsl n (hd2 _ hn) fun hv => hnl (List.mem_cons_of_mem _ hv)
                constructor
                · rw [upd_ne _ _ _ hsli, hfr2.1, hfr1.1]
                · rw [upd_ne _ _ _ hsli, hfr2.2, hfr1.2]
        | pow l e =>
          rw [hop] at hok
          have hli : l < i := g.operand_lt hop (by simp [Op.operands])
          simp only at hok
          cases hok1 : codegenFGo g fuel l
              ⟨(getIndex (getIndex st.vm i).2 l).2, i :: st.visited, st.instrs⟩ with
          | error er => rw [hok1] at hok; exact absurd hok (by simp)
          | ok stl =>
            rw [hok1] at hok
            simp at hok
            have hGc1 : ∀ x ∈ i :: st.visited, x ∈ i :: G ∨
                ∀ c ∈ g.operandsOf x, c ∈ i :: st.visited := by
              intro x hx
              rcases List.mem_cons.mp hx with hx | hx
              · exact Or.inl (by simp [hx])
              · rcases hGc x hx with h | h
                · exact Or.inl (List.mem_cons_of_mem _ h)
                · exact Or.inr fun c hc => List.mem_cons_of_mem _ (h c hc)
            have hdomA : ∀ x ∈ i :: st.visited,
                lookupVM (getIndex (getIndex st.vm i).2 l).2 x ≠ none := by
              intro x hx
              cases hlk : lookupVM (getIndex st.vm i).2 x with
              | none => exact absurd hlk (hdom1 x hx)
              | some j =>
                rw [getIndex_extends hlk]
                simp
            obtain ⟨⟨Δ1, hi1, _⟩, hb1, _, hd1, he1, _, hg1, hh1⟩ :=
              codegenFGo_static g fuel l _ stl (i :: G) (by omega) hok1
                (by simpa using hGc1) (by simpa using hdomA)
            rw [← hok] at hΔ hprom ⊢
            dsimp only [CG.mk_instrs, CG.mk_vm, CG.mk_visited] at hΔ hprom ⊢
            have hvm_i : lookupVM stl.vm i = some (getIndex st.vm i).1 :=
              hb1 _ _ (getIndex_extends hidx)
            have hvm_l : lookupVM stl.vm l = some (getIndex (getIndex st.vm i).2 l).1 :=
              hb1 _ _ (getIndex_lookup _ l)
            have hFi : lookupVM vmF i = some (getIndex st.vm i).1 := hprom _ _ hvm_i
            have hFl : lookupVM vmF l = some (getIndex (getIndex st.vm i).2 l).1 :=
              hprom _ _ hvm_l
            have hsiF : slotOf vmF i = (getIndex st.vm i).1 := by simp [slotOf, hFi]
            have hslF : slotOf vmF l = (getIndex (getIndex st.vm i).2 l).1 := by
              simp [slotOf, hFl]
            have hDi : lookupVM vmF i ≠ none := by rw [hFi]; simp
            have hΔeq : Δ = Δ1 ++ [Instr.powF (getIndex st.vm i).1
                (getIndex (getIndex st.vm i).2 l).1 e,
                Instr.zeroG (getIndex st.vm i).1] := by
              rw [hi1] at hΔ
              dsimp only [CG.mk_instrs] at hΔ
              rw [List.append_assoc] at hΔ
              exact (List.append_cancel_left hΔ).symm
            have hGge1 : ∀ x ∈ i :: G, l ≤ x := by
              intro x hx
              rcases List.mem_cons.mp hx with hx | hx
              · omega
              · have := hGge x hx; omega
            have hGvis1 : ∀ x ∈ i :: G, x ∈ i :: st.visited := by
              intro x hx
              rcases List.mem_cons.mp hx with hx | hx
              · simp [hx]
              · exact List.mem_cons_of_mem _ (hGvis x hx)
            have hvis1 : ∀ n ∈ i :: st.visited, n ∉ i :: G →
                c.v (slotOf vmF n) = denot g d n ∧ c.g (slotOf vmF n) = 0 := by
              intro n hn hnG
              rcases List.mem_cons.mp hn with h | h
              · exact absurd (by simp [h] : n ∈ i :: G) hnG
              · exact hvis n h fun hh => hnG (List.mem_cons_of_mem _ hh)
            obtain ⟨r1a, r2a⟩ :=
              ih l _ stl (i :: G) (by omega) hok1 (by simpa using hGc1)
                (by simpa using hdomA) hprom hGge1 hGvis1 Δ1 hi1 c hvis1 hleafv
            have hlmem : l ∈ stl.visited := he1
            have himem : i ∈ stl.visited := hd1 _ (List.mem_cons_self _ _)
            have hlG : l ∉ i :: G := by
              intro hm
              rcases List.mem_cons.mp hm with h | h
              · omega
              · have := hGge _ h; omega
            rw [hΔeq, runInstrs_append]
            have hred : runInstrs lr (runInstrs lr c Δ1)
                [Instr.powF (getIndex st.vm i).1
                   (getIndex (getIndex st.vm i).2 l).1 e,
                 Instr.zeroG (getIndex st.vm i).1] =
                ⟨upd (runInstrs lr c Δ1).v (getIndex st.vm i).1
                   (zq ((runInstrs lr c Δ1).v (getIndex (getIndex st.vm i).2 l).1) e),
                 upd (runInstrs lr c Δ1).g (getIndex st.vm i).1 0⟩ := rfl
            rw [hred]
            simp only [CSt.mk_v, CSt.mk_g]
            constructor
            · intro n hn hnG
              by_cases hni : n = i
              · constructor
                · rw [hni, hsiF, upd_same, ← hslF, (r1a l hlmem hlG).1,
                    denot_pow g d hop]
                · rw [hni, hsiF, upd_same]
              · have hDn : lookupVM vmF n ≠ none := prom_ne hprom (hh1 n hn)
                have hsne : slotOf vmF n ≠ (getIndex st.vm i).1 := by
                  rw [← hsiF]
                  exact slotOf_ne hvmF hDn hDi hni
                have hnG2 : n ∉ i :: G := by
                  intro hm
                  rcases List.mem_cons.mp hm with h | h
                  · exact hni h
                  · exact hnG h
                exact ⟨by rw [upd_ne _ _ _ hsne]; exact (r1a n hn hnG2).1,
                       by rw [upd_ne _ _ _ hsne]; exact (r1a n hn hnG2).2⟩
            · intro sl hsl
              have hii : slotOf vmF i ≠ sl := hsl i himem hiv
              have hsli : sl ≠ (getIndex st.vm i).1 := fun h => hii (hsiF.trans h.symm)
              have hfr1 := r2a sl fun n hn hnl =>
                hsl n hn fun hv => hnl (List.mem_cons_of_mem _ hv)
              constructor
              · rw [upd_ne _ _ _ hsli, hfr1.1]
              · rw [upd_ne _ _ _ hsli, hfr1.2]
        | relu a =>
          rw [hop] at hok
          have hli : a < i := g.operand_lt hop (by simp [Op.operands])
          simp only at hok
          cases hok1 : codegenFGo g fuel a
              ⟨(getIndex (getIndex st.vm i).2 a).2, i :: st.visited, st.instrs⟩ with
          | error e => rw [hok1] at hok; exact absurd hok (by simp)
          | ok stl =>
            rw [hok1] at hok
            simp at hok
            have hGc1 : ∀ x ∈ i :: st.visited, x ∈ i :: G ∨
                ∀ c ∈ g.operandsOf x, c ∈ i :: st.visited := by
              intro x hx
              rcases List.mem_cons.mp hx with hx | hx
              · exact Or.inl (by simp [hx])
              · rcases hGc x hx with h | h
                · exact Or.inl (List.mem_cons_of_mem _ h)
                · exact Or.inr fun c hc => List.mem_cons_of_mem _ (h c hc)
            have hdomA : ∀ x ∈ i :: st.visited,
                lookupVM (getIndex (getIndex st.vm i).2 a).2 x ≠ none := by
              intro x hx
              cases hlk : lookupVM (getIndex st.vm i).2 x with
              | none => exact absurd hlk (hdom1 x hx)
              | some j =>
                rw [getIndex_extends hlk]
                simp
            obtain ⟨⟨Δ1, hi1, _⟩, hb1, _, hd1, he1, _, hg1, hh1⟩ :=
              codegenFGo_static g fuel a _ stl (i :: G) (by omega) hok1
                (by simpa using hGc1) (by simpa using hdomA)
            rw [← hok] at hΔ hprom ⊢
            dsimp only [CG.mk_instrs, CG.mk_vm, CG.mk_visited] at hΔ hprom ⊢
            have hvm_i : lookupVM stl.vm i = some (getIndex st.vm i).1 :=
              hb1 _ _ (getIndex_extends hidx)
            have hvm_a : lookupVM stl.vm a = some (getIndex (getIndex st.vm i).2 a).1 :=
              hb1 _ _ (getIndex_lookup _ a)
            have hFi : lookupVM vmF i = some (getIndex st.vm i).1 := hprom _ _ hvm_i
            have hFa : lookupVM vmF a = some (getIndex (getIndex st.vm i).2 a).1 :=
              hprom _ _ hvm_a
            have hsiF : slotOf vmF i = (getIndex st.vm i).1 := by simp [slotOf, hFi]
            have hsaF : slotOf vmF a = (getIndex (getIndex st.vm i).2 a).1 := by
              simp [slotOf, hFa]
            have hDi : lookupVM vmF i ≠ none := by rw [hFi]; simp
            have hΔeq : Δ = Δ1 ++ [Instr.reluF (getIndex st.vm i).1
                (getIndex (getIndex st.vm i).2 a).1,
                Instr.zeroG (getIndex st.vm i).1] := by
              rw [hi1] at hΔ
              dsimp only [CG.mk_instrs] at hΔ
              rw [List.append_assoc] at hΔ
              exact (List.append_cancel_left hΔ).symm
            have hGge1 : ∀ x ∈ i :: G, a ≤ x := by
              intro x hx
              rcases List.mem_cons.mp hx with hx | hx
              · omega
              · have := hGge x hx; omega
            have hGvis1 : ∀ x ∈ i :: G, x ∈ i :: st.visited := by
              intro x hx
              rcases List.mem_cons.mp hx with hx | hx
              · simp [hx]
              · exact List.mem_cons_of_mem _ (hGvis x hx)
            have hvis1 : ∀ n ∈ i :: st.visited, n ∉ i :: G →
                c.v (slotOf vmF n) = denot g d n ∧ c.g (slotOf vmF n) = 0 := by
              intro n hn hnG
              rcases List.mem_cons.mp hn with h | h
              · exact absurd (by simp [h] : n ∈ i :: G) hnG
              · exact hvis n h fun hh => hnG (List.mem_cons_of_mem _ hh)
            obtain ⟨r1a, r2a⟩ :=
              ih a _ stl (i :: G) (by omega) hok1 (by simpa using hGc1)
                (by simpa using hdomA) hprom hGge1 hGvis1 Δ1 hi1 c hvis1 hleafv
            have hamem : a ∈ stl.visited := he1
            have himem : i ∈ stl.visited := hd1 _ (List.mem_cons_self _ _)
            have haG : a ∉ i :: G := by
              intro hm
              rcases List.mem_cons.mp hm with h | h
              · omega
              · have := hGge _ h; omega
            rw [hΔeq, runInstrs_append]
            have hred : runInstrs lr (runInstrs lr c Δ1)
                [Instr.reluF (getIndex st.vm i).1
                   (getIndex (getIndex st.vm i).2 a).1,
                 Instr.zeroG (getIndex st.vm i).1] =
                ⟨upd (runInstrs lr c Δ1).v (getIndex st.vm i).1
                   (if (runInstrs lr c Δ1).v (getIndex (getIndex st.vm i).2 a).1 < 0
                    then 0
                    else (runInstrs lr c Δ1).v (getIndex (getIndex st.vm i).2 a).1),
                 upd (runInstrs lr c Δ1).g (getIndex st.vm i).1 0⟩ := rfl
            rw [hred]
            simp only [CSt.mk_v, CSt.mk_g]
            constructor
            · intro n hn hnG
              by_cases hni : n = i
              · constructor
                · rw [hni, hsiF, upd_same, ← hsaF, (r1a a hamem haG).1,
                    denot_relu g d hop]
                · rw [hni, hsiF, upd_same]
              · have hDn : lookupVM vmF n ≠ none := prom_ne hprom (hh1 n hn)
                have hsne : slotOf vmF n ≠ (getIndex st.vm i).1 := by
                  rw [← hsiF]
                  exact slotOf_ne hvmF hDn hDi hni
                have hnG2 : n ∉ i :: G := by
                  intro hm
                  rcases List.mem_cons.mp hm with h | h
                  · exact hni h
                  · exact hnG h
                exact ⟨by rw [upd_ne _ _ _ hsne]; exact (r1a n hn hnG2).1,
                       by rw [upd_ne _ _ _ hsne]; exact (r1a n hn hnG2).2⟩
            · intro sl hsl
              have hii : slotOf vmF i ≠ sl := hsl i himem hiv
              have hsli : sl ≠ (getIndex st.vm i).1 := fun h => hii (hsiF.trans h.symm)
              have hfr1 := r2a sl fun n hn hnl =>
                hsl n hn fun hv => hnl (List.mem_cons_of_mem _ hv)
              constructor
              · rw [upd_ne _ _ _ hsli, hfr1.1]
              · rw [upd_ne _ _ _ hsli, hfr1.2]

/-- One fused training step: starting from a register file realising the
node state (with the version counter freshly bumped past every stamp), the
generated forward + backward + update statements return the same loss value
as the interpreted refresh + backward + manual update, and the runtime
correspondence is preserved with all version stamps at most the counter. -/
theorem evalStep_sim (g : Graph) (hc : g.Closed) (params scores : List Nat)
    (loss : Nat) (hlen : loss < g.ops.length) (lr : ℚ) (k : ℕ)
    {stF : CG} {vm2 : List (Nat × Nat)} {bIns : List Instr}
    (hvm2 : VMok vm2)
    (hF : codegenFGo g (loss + 1) loss
      ⟨preAssign (preAssign (preAssign [] params) scores) [loss], [], []⟩ = .ok stF)
    (hB : codegenB g loss stF.vm = .ok (vm2, bIns))
    (hpdom : ∀ p ∈ params, lookupVM vm2 p ≠ none)
    (hlp : loss ∉ params)
    (s : St) (c : CSt)
    (hrg : RG vm2 s c)
    (hver : ∀ n, s.ver n < k) :
    (interpStep g loss params lr k s).1 =
      (runInstrs lr c (stF.instrs ++ bIns ++
        params.map (fun p => Instr.updP (slotOf vm2 p)))).v (slotOf vm2 loss) ∧
    RG vm2 (interpStep g loss params lr k s).2
      (runInstrs lr c (stF.instrs ++ bIns ++
        params.map (fun p => Instr.updP (slotOf vm2 p)))) ∧
    (∀ n, (interpStep g loss params lr k s).2.ver n ≤ k) := by
  have hBspec := codegenB_spec g loss stF.vm hB
  have hprom2 : ∀ m j, lookupVM stF.vm m = some j → lookupVM vm2 m = some j :=
    hBspec.1
  obtain ⟨⟨ΔF, hiF, _⟩, _, _, _, heF, hfF, hgF, hhF⟩ :=
    codegenFGo_static g (loss + 1) loss _ stF [] (by omega) hF
      (fun x hx => absurd hx (List.not_mem_nil x))
      (fun x hx => absurd hx (List.not_mem_nil x))
  have hΔFeq : ΔF = stF.instrs := by simpa using hiF.symm
  obtain ⟨r1F, r2F⟩ :=
    codegenFGo_run g hvm2 s.data lr (loss + 1) loss _ stF [] (by omega) hF
      (fun x hx => absurd hx (List.not_mem_nil x))
      (fun x hx => absurd hx (List.not_mem_nil x))
      hprom2
      (fun x hx => absurd hx (List.not_mem_nil x))
      (fun x hx => absurd hx (List.not_mem_nil x))
      ΔF hiF c
      (fun n hn => absurd hn (List.not_mem_nil n))
      (fun n hn _ => (hrg n hn).1)
  rw [hΔFeq] at r1F r2F
  have hdomFv : ∀ x ∈ stF.visited, lookupVM vm2 x ≠ none :=
    fun x hx => prom_ne hprom2 (hhF x hx)
  have hclosedF : ∀ x ∈ stF.visited, ∀ cc ∈ g.operandsOf x, cc ∈ stF.visited := by
    intro x hx
    rcases hgF x hx with h | h
    · exact absurd h (List.not_mem_nil x)
    · exact h
  have hreachvis : ∀ n, Reaches g loss n → n ∈ stF.visited :=
    fun n hr => reach_subset_closed g hclosedF heF hr
  have hvisreach : ∀ n ∈ stF.visited, Reaches g loss n := by
    intro n hn
    rcases hfF n hn with h | h
    · exact absurd h (List.not_mem_nil n)
    · exact h.1
  have hinv0 : StInv g k s := fun n hk => absurd hk (by have := hver n; omega)
  have hpost := refresh_spec g hc k loss s hlen hinv0
  unfold RefreshPost at hpost
  obtain ⟨p1, p2, p3, p4, p5, p6, p7, p8⟩ := hpost
  have hrg1 : RG vm2 (refresh g k loss s).2 (runInstrs lr c stF.instrs) := by
    intro n hn
    by_cases hnv : n ∈ stF.visited
    · have hk2 : k ≤ (refresh g k loss s).2.ver n := p6 n (hvisreach n hnv)
      obtain ⟨hdn, hgn, _⟩ := p8 n hk2
      have hde : denot g (refresh g k loss s).2.data n = denot g s.data n :=
        denot_congr g (fun m hm => p7 m hm) n
      constructor
      · rw [(r1F n hnv (List.not_mem_nil n)).1, hdn]
        exact hde.symm
      · rw [(r1F n hnv (List.not_mem_nil n)).2]
        exact hgn.symm
    · have hnr : ¬ Reaches g loss n := fun hr => hnv (hreachvis n hr)
      obtain ⟨hdn, hgn, _⟩ := p5 n hnr
      have hfr := r2F (slotOf vm2 n) (fun m hm _ =>
        slotOf_ne hvm2 (hdomFv m hm) hn (fun he => hnv (he ▸ hm)))
      constructor
      · rw [hfr.1, (hrg n hn).1]
        exact hdn.symm
      · rw [hfr.2, (hrg n hn).2]
        exact hgn.symm
  unfold codegenB at hB
  dsimp only at hB
  obtain ⟨hextB, _, ΔB, hbeq, _, _⟩ := codegenBGo_spec g _ _ _ hB
  have hlidx : lookupVM vm2 loss = some (getIndex stF.vm loss).1 :=
    hextB _ _ (getIndex_lookup stF.vm loss)
  have hsloss : slotOf vm2 loss = (getIndex stF.vm loss).1 := by
    simp [slotOf, hlidx]
  have hDloss : lookupVM vm2 loss ≠ none := by rw [hlidx]; simp
  have hrg2 := seed_run hvm2 lr hDloss hrg1
  rw [hsloss] at hrg2
  have hrg2b : RG vm2
      ⟨(refresh g k loss s).2.data, upd (refresh g k loss s).2.grad loss 1,
        (refresh g k loss s).2.ver⟩
      (runInstrs lr (runInstrs lr c stF.instrs)
        [Instr.seedG (getIndex stF.vm loss).1]) := hrg2
  have hrg3 := codegenBGo_run g hvm2 lr _ _ _ hB (fun m j h => h) ΔB hbeq _ _ hrg2b
  have hrg4 := updParams_run hvm2 lr params hpdom _ _ hrg3
  have hTeq : runInstrs lr c (stF.instrs ++ bIns ++
      params.map (fun p => Instr.updP (slotOf vm2 p))) =
      runInstrs lr (runInstrs lr (runInstrs lr (runInstrs lr c stF.instrs)
        [Instr.seedG (getIndex stF.vm loss).1]) ΔB)
        (params.map (fun p => Instr.updP (slotOf vm2 p))) := by
    rw [runInstrs_append, runInstrs_append, hbeq, runInstrs_append]
  have hmapeq : params.map (fun p => Instr.updP (slotOf vm2 p)) =
      (params.map (slotOf vm2)).map Instr.updP := by
    rw [List.map_map]
    rfl
  have hnotin : slotOf vm2 loss ∉ params.map (slotOf vm2) := by
    intro hmem
    obtain ⟨p, hp, hpe⟩ := List.mem_map.mp hmem
    have hpl : p = loss := by
      by_contra hne
      exact slotOf_ne hvm2 (hpdom p hp) hDloss hne hpe
    exact hlp (hpl ▸ hp)
  have hval : (runInstrs lr c (stF.instrs ++ bIns ++
      params.map (fun p => Instr.updP (slotOf vm2 p)))).v (slotOf vm2 loss) =
      (runInstrs lr c stF.instrs).v (slotOf vm2 loss) := by
    rw [hTeq, hmapeq, runInstrs_updP_frame _ hnotin lr _,
      runInstrs_gOnly ΔB (fun ins hins => hBspec.2.2.2 ins
        (by rw [hbeq]; exact List.mem_append_right _ hins)) lr _]
    rfl
  refine ⟨?_, ?_, ?_⟩
  · rw [hval, (r1F loss heF (List.not_mem_nil loss)).1]
    exact p1
  · rw [hTeq]
    exact hrg4
  · intro n
    show (updParams params lr (backward g loss (refresh g k loss s).2)).ver n ≤ k
    rw [(updParams_frame params lr _).2.1]
    show ((buildTopo g loss).reverse.foldl (fun s i => backwardStep g i s)
        ⟨(refresh g k loss s).2.data, upd (refresh g k loss s).2.grad loss 1,
         (refresh g k loss s).2.ver⟩).ver n ≤ k
    rw [(foldl_backwardStep_frame g _ _).2]
    show (refresh g k loss s).2.ver n ≤ k
    have h4 := (p4 n).2
    have h5 := hver n
    rcases h4 with h | h <;> omega

/-- N-step simulation: the interpreted training loop and the compiled
bundle produce the same loss list and preserve the runtime
correspondence, provided the version counter starts above every stamp. -/
theorem run_sim (g : Graph) (hc : g.Closed) (params scores inputs : List Nat)
    (loss : Nat) (hlen : loss < g.ops.length) (lr : ℚ)
    {stF : CG} {vm2 : List (Nat × Nat)} {bIns : List Instr}
    (hvm2 : VMok vm2)
    (hF : codegenFGo g (loss + 1) loss
      ⟨preAssign (preAssign (preAssign [] params) scores) [loss], [], []⟩ = .ok stF)
    (hB : codegenB g loss stF.vm = .ok (vm2, bIns))
    (hpdom : ∀ p ∈ params, lookupVM vm2 p ≠ none)
    (hlp : loss ∉ params) :
    ∀ (N k : ℕ) (s : St) (c : CSt), RG vm2 s c → (∀ n, s.ver n < k) →
      (interpRun g loss params lr N k s).1 =
        (compiledRun ⟨vm2, stF.instrs, bIns,
          params.map (fun p => Instr.updP (slotOf vm2 p)), slotOf vm2 loss,
          params.map (slotOf vm2), scores.map (slotOf vm2),
          inputs.map (lookupVM vm2)⟩ lr N c).1 ∧
      RG vm2 (interpRun g loss params lr N k s).2
        (compiledRun ⟨vm2, stF.instrs, bIns,
          params.map (fun p => Instr.updP (slotOf vm2 p)), slotOf vm2 loss,
          params.map (slotOf vm2), scores.map (slotOf vm2),
          inputs.map (lookupVM vm2)⟩ lr N c).2 := by
  intro N
  induction N with
  | zero => intro k s c hrg _; exact ⟨rfl, hrg⟩
  | succ N ihN =>
    intro k s c hrg hver
    obtain ⟨e1, e2, e3⟩ := evalStep_sim g hc params scores loss hlen lr k hvm2
      hF hB hpdom hlp s c hrg hver
    have hver2 : ∀ n, (interpStep g loss params lr k s).2.ver n < k + 1 := by
      intro n
      have := e3 n
      omega
    obtain ⟨ih1, ih2⟩ := ihN (k + 1) (interpStep g loss params lr k s).2
      (runInstrs lr c (stF.instrs ++ bIns ++
        params.map (fun p => Instr.updP (slotOf vm2 p)))) e2 hver2
    constructor
    · simp only [interpRun, compiledRun, evalStep]
      rw [e1, ih1]
    · simp only [interpRun, compiledRun, evalStep]
      exact ih2

/-- C1: for a fixed closed graph with declared parameter, score, loss and
input nodes, N interpreted training steps (refresh, backward, manual
`p.data -= lr * p.grad`) and N calls of the compiled bundle's `eval_model`
with the same learning rate, starting from the node data the bundle was
compiled with, produce identical loss values and identical parameter
values after every step — provided the loss node is not itself a declared
parameter. -/
theorem C1_compiler_equivalence (g : Graph) (hc : g.Closed)
    (params scores inputs : List Nat) (loss : Nat)
    (hlen : loss < g.ops.length) (hlp : loss ∉ params)
    (lr : ℚ) (N : ℕ) (s0 : St)
    (hv0 : ∀ n, s0.ver n = 0) (hg0 : ∀ n, s0.grad n = 0) :
    ∃ b, compile g params scores loss inputs = .ok b ∧
      (interpRun g loss params lr N 1 s0).1 =
        (compiledRun b lr N (initC b.vm s0.data)).1 ∧
      ∀ p ∈ params, (interpRun g loss params lr N 1 s0).2.data p =
        (compiledRun b lr N (initC b.vm s0.data)).2.v (slotOf b.vm p) := by
  obtain ⟨stF, vm2, bIns, hF, hB, hcomp⟩ :=
    compile_ok g params scores loss inputs hc hlen
  have hvm0 : VMok (preAssign (preAssign (preAssign [] params) scores) [loss]) :=
    preAssign_VMok (preAssign_VMok (preAssign_VMok VMok_nil))
  obtain ⟨_, hbF, hcF, _, _, _, _, _⟩ :=
    codegenFGo_static g (loss + 1) loss _ stF [] (by omega) hF
      (fun x hx => absurd hx (List.not_mem_nil x))
      (fun x hx => absurd hx (List.not_mem_nil x))
  have hBspec := codegenB_spec g loss stF.vm hB
  have hvm2 : VMok vm2 := hBspec.2.1 (hcF hvm0)
  have hpdom : ∀ p ∈ params, lookupVM vm2 p ≠ none := by
    intro p hp
    exact prom_ne hBspec.1 (prom_ne hbF
      (preAssign_dom_mono (preAssign_dom_mono (preAssign_mem hp))))
  have hrg0 : RG vm2 s0 (initC vm2 s0.data) := by
    intro n hn
    obtain ⟨h1, h2⟩ := initC_lookup hvm2 s0.data hn
    exact ⟨h1, by rw [h2, hg0 n]⟩
  have hver0 : ∀ n, s0.ver n < 1 := by
    intro n
    have := hv0 n
    omega
  obtain ⟨h1, h2⟩ := run_sim g hc params scores inputs loss hlen lr hvm2 hF hB
    hpdom hlp N 1 s0 (initC vm2 s0.data) hrg0 hver0
  refine ⟨_, hcomp, h1, ?_⟩
  intro p hp
  exact (h2 p (hpdom p hp)).1.symm

/-- Divergent configuration for the unqualified equivalence claim: the
loss node declared as a parameter. -/
def gLP : Graph := ⟨[Op.leaf], by decide⟩

/-- All-zero state over the one-node graph. -/
def sLP : St := ⟨fun _ => 0, fun _ => 0, fun _ => 0⟩

/-- Concrete instance of the compiler equivalence: two training steps on
y = (x*x) + x from x = 3 with learning rate 1/4. -/
theorem C1_compiler_equivalence_witness :
    ∃ b, compile gW [0] [] 2 [] = .ok b ∧
      (interpRun gW 2 [0] (1/4) 2 1 sW).1 =
        (compiledRun b (1/4) 2 (initC b.vm sW.data)).1 ∧
      ∀ p ∈ [0], (interpRun gW 2 [0] (1/4) 2 1 sW).2.data p =
        (compiledRun b (1/4) 2 (initC b.vm sW.data)).2.v (slotOf b.vm p) :=
  C1_compiler_equivalence gW (by decide) [0] [] [] 2 (by decide) (by decide)
    (1/4) 2 sW (fun _ => rfl) (fun _ => rfl)

/-- The unqualified equivalence fails when the loss node is itself a
declared parameter: one step at learning rate 1 from data 0 makes the
interpreted path return the pre-update loss 0 while the compiled
`eval_model` reads the loss slot after the update block and returns -1. -/
theorem C1_compiler_equivalence_counterexample :
    (interpRun gLP 0 [0] 1 1 1 sLP).1 = [0] ∧
    (compile gLP [0] [] 0 []).toOption.map
      (fun b => (compiledRun b 1 1 (initC b.vm sLP.data)).1) = some [-1] := by
  have hcomp : compile gLP [0] [] 0 [] =
      .ok ⟨[(0, 0)], [Instr.zeroG 0], [Instr.seedG 0], [Instr.updP 0],
           0, [0], [], []⟩ := rfl
  constructor
  · rfl
  · rw [hcomp]
    show some ((compiledRun ⟨[(0, 0)], [Instr.zeroG 0], [Instr.seedG 0],
        [Instr.updP 0], 0, [0], [], []⟩ 1 1 (initC [(0, 0)] sLP.data)).1) =
      some [-1]
    norm_num [compiledRun, evalStep, runInstrs, Instr.run, initC, upd, sLP,
      List.foldl_cons, List.foldl_nil]

end Micrograd
